import Mathlib

/-!
# KDTree.h: a k-d tree with k-nearest-neighbour majority vote

Shallow embedding of `src/KDTree.h`.

* `Point<N>` (from the absent `Point.h`) is a function `Fin N → α` over a linearly ordered
  coordinate type `α`; coordinates are exact numbers, so no rounding is modelled.
* a `Node*` is a value of `NodePtr`: either `null` or a node with its five fields.
* a Euclidean distance `√s` is carried exactly, as the value `s` under the root (`Root`).
* `BoundedPQueue<T>` (from the absent `BoundedPQueue.h`) is modelled from the specification.
* operations that can throw return `Option`; `none` is the thrown failure.
-/

namespace KD

/-! ## Points and distances -/

/-- A `Point<N>`: `N` coordinates, compared component-wise for equality. -/
abbrev Point (N : Nat) (α : Type) := Fin N → α

/-- The index `level % N` used by `pt[level % N]`; `N` must be non-zero for it to exist. -/
def axis (N : Nat) [NeZero N] (level : Nat) : Fin N :=
  ⟨level % N, Nat.mod_lt _ (Nat.pos_of_ne_zero (NeZero.ne N))⟩

/-- A non-negative real number `√sq`, represented exactly by the number under the root. -/
structure Root (α : Type) where
  /-- The square of the represented number. -/
  sq : α
  deriving DecidableEq

/-- Roots are ordered like the numbers under them (`√` is strictly increasing). -/
instance Root.instLinearOrder {α : Type} [LinearOrder α] : LinearOrder (Root α) :=
  LinearOrder.lift' Root.sq (fun a b h => by cases a; cases b; simp_all)

/-- Modelled from the spec: `Distance` of the absent `Point.h`, the Euclidean distance
`sqrt(Σ (a_i − b_i)²)`, returned as the exact root of the sum of squares. -/
def Distance {N : Nat} {α : Type} [LinearOrderedCommRing α] (a b : Point N α) : Root α :=
  ⟨∑ i, (a i - b i) * (a i - b i)⟩

/-- The comparison `fabs(x) < w` for `w = √sq`: both sides are non-negative, so it is
`x² < sq`. -/
def fabsLt {α : Type} [LinearOrderedCommRing α] (x : α) (w : Root α) : Bool :=
  decide (x * x < w.sq)

/-! ## The bounded priority queue -/

/-- Modelled from the spec: `BoundedPQueue<T>` of the absent `BoundedPQueue.h`. It holds at
most `maximumSize` (item, priority) pairs; `elems` lists them by ascending priority, entries
of equal priority in insertion order. -/
structure BoundedPQueue (T P : Type) where
  /-- The retained entries, smallest priority first. -/
  elems : List (P × T)
  /-- The capacity `K` fixed at construction. -/
  maximumSize : Nat
  deriving DecidableEq

namespace BoundedPQueue

variable {T P : Type}

/-- Modelled from the spec: `new(capacity K)` of the absent `BoundedPQueue.h`, an empty
queue that retains at most `K` entries. -/
def new (K : Nat) : BoundedPQueue T P := ⟨[], K⟩

/-- Modelled from the spec: `size()` of the absent `BoundedPQueue.h`. -/
def size (q : BoundedPQueue T P) : Nat := q.elems.length

/-- Modelled from the spec: `max_size()` of the absent `BoundedPQueue.h`. -/
def maxSize (q : BoundedPQueue T P) : Nat := q.maximumSize

/-- Modelled from the spec: `empty()` of the absent `BoundedPQueue.h`. -/
def empty (q : BoundedPQueue T P) : Bool := q.elems.isEmpty

/-- Modelled from the spec: `worst()` of the absent `BoundedPQueue.h`, the largest priority
among the retained items; it fails (`none`) on an empty queue. -/
def worst (q : BoundedPQueue T P) : Option P := q.elems.getLast?.map Prod.fst

/-- Modelled from the spec: `dequeue_min()` of the absent `BoundedPQueue.h`; removes and
returns the item with the smallest priority, and fails (`none`) on an empty queue. -/
def dequeueMin (q : BoundedPQueue T P) : Option (T × BoundedPQueue T P) :=
  match q.elems with
  | [] => none
  | e :: rest => some (e.2, ⟨rest, q.maximumSize⟩)

/-- Places an entry in a list sorted by priority, after the entries of priority at most
its own. -/
def insertSorted [LinearOrder P] (p : P) (x : T) : List (P × T) → List (P × T)
  | [] => [(p, x)]
  | e :: rest => if p < e.1 then (p, x) :: e :: rest else e :: insertSorted p x rest

/-- Modelled from the spec: `enqueue(item, priority)` of the absent `BoundedPQueue.h`.
Inserts unconditionally if the current size is below `K`; if the size is `K`, inserts only
if `priority` is strictly less than the current worst retained priority, evicting the
previous worst; otherwise the item is discarded. With `K = 0` it is a no-op. -/
def enqueue [LinearOrder P] (q : BoundedPQueue T P) (item : T) (priority : P) :
    BoundedPQueue T P :=
  if q.size < q.maxSize then
    ⟨insertSorted priority item q.elems, q.maximumSize⟩
  else
    match q.worst with
    | none => q
    | some w =>
      if priority < w then ⟨insertSorted priority item q.elems.dropLast, q.maximumSize⟩
      else q

end BoundedPQueue

/-! ## Nodes and the tree -/

/-- A `Node*`: `null`, or a `Node` with `key`, `value`, `level` and the two child
pointers `rNodePtr`, `lNodePtr` (in the order of the struct). -/
inductive NodePtr (N : Nat) (α E : Type) where
  | null
  | node (key : Point N α) (value : E) (level : Nat) (rNodePtr lNodePtr : NodePtr N α E)
  deriving DecidableEq

/-- The class `KDTree<N, ElemType>`: its two data members. -/
structure KDTree (N : Nat) (α E : Type) where
  /-- The pointer `root`. -/
  root : NodePtr N α E
  /-- The counter `numElements`. -/
  numElements : Nat
  deriving DecidableEq

section Operations

variable {N : Nat} [NeZero N] {α E : Type}

/-- The test `ptr == NULL`. -/
def NodePtr.isNull : NodePtr N α E → Bool
  | .null => true
  | .node _ _ _ _ _ => false

/-- The value of `ptr->value` for a non-null pointer. -/
def NodePtr.value? : NodePtr N α E → Option E
  | .null => none
  | .node _ v _ _ _ => some v

/-- The constructor `KDTree()`: `numElements = 0; root = NULL`. -/
def KDTree.mk0 : KDTree N α E := ⟨.null, 0⟩

/-- The method `dimension()`. -/
def KDTree.dimension (_t : KDTree N α E) : Nat := N

/-- The method `size()`. -/
def KDTree.size (t : KDTree N α E) : Nat := t.numElements

/-- The method `empty()`: `size() == 0`. -/
def KDTree.empty (t : KDTree N α E) : Bool := t.size == 0

variable [LinearOrder α]

/-- The `while` loop of `contains`, started at `currentNode`. -/
def containsLoop (pt : Point N α) : NodePtr N α E → Bool
  | .null => false
  | .node key _ level r l =>
    if key = pt then true
    else if pt (axis N level) ≥ key (axis N level) then containsLoop pt r
    else containsLoop pt l

/-- The method `contains(pt)`. -/
def KDTree.contains (t : KDTree N α E) (pt : Point N α) : Bool :=
  containsLoop pt t.root

/-- The `while` loop of `at`, started at `currentNode`; `none` is reaching the
`throw out_of_range` after the loop. -/
def atLoop (pt : Point N α) : NodePtr N α E → Option E
  | .null => none
  | .node key value level r l =>
    if key = pt then some value
    else if pt (axis N level) < key (axis N level) then atLoop pt l
    else atLoop pt r

/-- The method `at(pt)`; `none` is the `out_of_range` exception. -/
def KDTree.at (t : KDTree N α E) (pt : Point N α) : Option E :=
  atLoop pt t.root

/-- The statements after the loop of `insert` that link `newNode` below `prevNode`:
`pt[prev->level % N] >= prev->key[prev->level % N] ? prev->rNodePtr = newNode
 : prev->lNodePtr = newNode`. -/
def attach (pt : Point N α) (newNode : NodePtr N α E)
    (key : Point N α) (value : E) (level : Nat) (r l : NodePtr N α E) : NodePtr N α E :=
  if pt (axis N level) ≥ key (axis N level) then .node key value level newNode l
  else .node key value level r newNode

/-- The body of `insert` from the loop on, with `currentNode` and the counter `level` as
they are on entry to an iteration. The result is the rebuilt subtree and whether a node was
created (`++numElements`); `none` is the third branch of the comparison, which returns
without changing anything. A `null` argument is the case `currentNode == root` after the
loop. -/
def insertLoop (pt : Point N α) (value : E) : NodePtr N α E → Nat → Option (NodePtr N α E × Bool)
  | .null, level => some (.node pt value level .null .null, true)
  | .node key v lv r l, level =>
    if pt = key then some (.node key value lv r l, false)
    else if pt (axis N lv) < key (axis N lv) then
      if l.isNull then
        some (attach pt (.node pt value (level + 1) .null .null) key v lv r l, true)
      else
        (insertLoop pt value l (level + 1)).map fun res => (.node key v lv r res.1, res.2)
    else if pt (axis N lv) ≥ key (axis N lv) then
      if r.isNull then
        some (attach pt (.node pt value (level + 1) .null .null) key v lv r l, true)
      else
        (insertLoop pt value r (level + 1)).map fun res => (.node key v lv res.1 l, res.2)
    else none

/-- The method `insert(pt, value)`. -/
def KDTree.insert (t : KDTree N α E) (pt : Point N α) (value : E) : KDTree N α E :=
  match insertLoop pt value t.root 0 with
  | none => t
  | some (root, created) => ⟨root, if created then t.numElements + 1 else t.numElements⟩

/-- The body of `operator[]` from the loop on: like `insertLoop`, but a stored point is
left alone and a new node gets the value `Elemtype()`. The second component is the value
the returned reference points to. -/
def indexLoop [Inhabited E] (pt : Point N α) :
    NodePtr N α E → Nat → Option (NodePtr N α E × E × Bool)
  | .null, level => some (.node pt default level .null .null, default, true)
  | .node key v lv r l, level =>
    if pt = key then some (.node key v lv r l, v, false)
    else if pt (axis N lv) < key (axis N lv) then
      if l.isNull then
        some (attach pt (.node pt default (level + 1) .null .null) key v lv r l, default, true)
      else
        (indexLoop pt l (level + 1)).map fun res => (.node key v lv r res.1, res.2)
    else if pt (axis N lv) ≥ key (axis N lv) then
      if r.isNull then
        some (attach pt (.node pt default (level + 1) .null .null) key v lv r l, default, true)
      else
        (indexLoop pt r (level + 1)).map fun res => (.node key v lv res.1 l, res.2)
    else none

/-- The method `operator[](pt)`: the tree afterwards and the value referred to; `none` is
the third branch of the comparison. -/
def KDTree.index [Inhabited E] (t : KDTree N α E) (pt : Point N α) :
    Option (KDTree N α E × E) :=
  match indexLoop pt t.root 0 with
  | none => none
  | some (root, v, created) =>
    some (⟨root, if created then t.numElements + 1 else t.numElements⟩, v)

end Operations

/-! ## Copying -/

section Copying

variable {N : Nat} {α E : Type}

/-- The function `copyTree(rootNode)`: a new node with the same `key`, `value` and
`level`, and copies of the two subtrees. -/
def copyTree : NodePtr N α E → NodePtr N α E
  | .null => .null
  | .node key value level r l => .node key value level (copyTree r) (copyTree l)

/-- The copy constructor `KDTree(const KDTree& rhs)`. -/
def KDTree.copy (rhs : KDTree N α E) : KDTree N α E :=
  ⟨copyTree rhs.root, rhs.numElements⟩

/-- The assignment `operator=(const KDTree& rhs)` on the tree `self`; `sameObject` is the
outcome of the test `this != &rhs` being false. -/
def KDTree.assign (self rhs : KDTree N α E) (sameObject : Bool) : KDTree N α E :=
  if sameObject then self else ⟨copyTree rhs.root, rhs.numElements⟩

end Copying

/-! ## The k-nearest-neighbour query -/

/-- The value a local variable has after a declaration without initialiser, `T x;`
(default-initialisation): `T()` when `T` is a class type with a default constructor, such
as `std::string`, and an indeterminate value when `T` is a scalar type, such as `bool` or
`unsigned char`. The model takes it as a parameter. -/
class DefaultInit (T : Type) where
  /-- The value found in the variable. -/
  value : T

/-- The declaration `std::string x;` runs the default constructor: `x` is the empty
string. -/
instance DefaultInit.instString : DefaultInit String := ⟨""⟩

section NearestNeighbour

variable {N : Nat} [NeZero N] {α E : Type} [LinearOrderedCommRing α]

/-- The condition `nearestPQ.size() != nearestPQ.maxSize() ||
fabs(currentNode->key[keyIndex] - key[keyIndex]) < nearestPQ.worst()`, with the
short-circuit of `||`; `none` is the empty-queue failure of `worst()`. -/
def crossesPlane (q : BoundedPQueue (NodePtr N α E) (Root α)) (d : α) : Option Bool :=
  if q.size ≠ q.maxSize then some true
  else q.worst.map fun w => fabsLt d w

/-- The function `KNNValueRecurse(key, nearestPQ, currentNode)`; the queue is passed in
and the queue afterwards is returned. `none` is the empty-queue failure of `worst()`. -/
def KNNValueRecurse (key : Point N α) :
    NodePtr N α E → BoundedPQueue (NodePtr N α E) (Root α) →
      Option (BoundedPQueue (NodePtr N α E) (Root α))
  | .null, q => some q
  | .node k v lv r l, q =>
    let q1 := q.enqueue (.node k v lv r l) (Distance k key)
    if key (axis N lv) < k (axis N lv) then
      (KNNValueRecurse key l q1).bind fun q2 =>
        (crossesPlane q2 (k (axis N lv) - key (axis N lv))).bind fun go =>
          if go then KNNValueRecurse key r q2 else some q2
    else
      (KNNValueRecurse key r q1).bind fun q2 =>
        (crossesPlane q2 (k (axis N lv) - key (axis N lv))).bind fun go =>
          if go then KNNValueRecurse key l q2 else some q2

/-- The traversal of `KNNValueRecurse` with the pruning test removed: both children are
always explored, the near one first. -/
def KNNValueExhaustive (key : Point N α) :
    NodePtr N α E → BoundedPQueue (NodePtr N α E) (Root α) →
      BoundedPQueue (NodePtr N α E) (Root α)
  | .null, q => q
  | .node k v lv r l, q =>
    let q1 := q.enqueue (.node k v lv r l) (Distance k key)
    if key (axis N lv) < k (axis N lv) then
      KNNValueExhaustive key r (KNNValueExhaustive key l q1)
    else
      KNNValueExhaustive key l (KNNValueExhaustive key r q1)

variable [LinearOrder E]

/-- The first loop of `FindMostCommonValueInPQ`:
`while (!nearestPQ.empty()) values.insert(nearestPQ.dequeueMin()->value)`, run on the
entries still in the queue. `values` is the `multiset<ElemType>`, kept in ascending order.
`none` is dereferencing a null item. -/
def drainLoop {P : Type} : List (P × NodePtr N α E) → List E → Option (List E)
  | [], values => some values
  | e :: rest, values =>
    match e.2.value? with
    | none => none
    | some v => drainLoop rest (List.orderedInsert (· ≤ ·) v values)

/-- One iteration of the second loop of `FindMostCommonValueInPQ`, on the pair
(`best`, `bestFrequency`). -/
def scanStep (values : List E) (acc : E × Nat) (x : E) : E × Nat :=
  if values.count x > acc.2 then (x, values.count x) else acc

/-- The second loop of `FindMostCommonValueInPQ`, over the sorted bag `values`, starting
from `bestFrequency = 0` and from the value the declaration `ElemType best;`, which has
no initialiser, leaves in `best`. -/
def mostCommon [DefaultInit E] (values : List E) : E :=
  (values.foldl (scanStep values) (DefaultInit.value, 0)).1

/-- The function `FindMostCommonValueInPQ(nearestPQ)`. -/
def FindMostCommonValueInPQ [DefaultInit E] {P : Type}
    (nearestPQ : BoundedPQueue (NodePtr N α E) P) : Option E :=
  (drainLoop nearestPQ.elems []).map mostCommon

/-- The method `kNNValue(key, k)`; `none` is a failure raised on the way. -/
def KDTree.kNNValue [DefaultInit E] (t : KDTree N α E) (key : Point N α) (k : Nat) : Option E :=
  (KNNValueRecurse key t.root (BoundedPQueue.new k)).bind FindMostCommonValueInPQ

/-- The method `kNNValue` with the exhaustive traversal in place of the pruning one. -/
def KDTree.kNNValueExhaustive [DefaultInit E] (t : KDTree N α E) (key : Point N α) (k : Nat) :
    Option E :=
  FindMostCommonValueInPQ (KNNValueExhaustive key t.root (BoundedPQueue.new k))

end NearestNeighbour

/-! ## Sequences of calls -/

section Calls

variable {N : Nat} [NeZero N] {α E : Type} [LinearOrder α] [Inhabited E]

/-- A call that can change the tree. -/
inductive Op (N : Nat) (α E : Type) where
  | insert (pt : Point N α) (value : E)
  | index (pt : Point N α)

/-- The point a call is made with. -/
def Op.point : Op N α E → Point N α
  | .insert pt _ => pt
  | .index pt => pt

/-- The tree after one call. -/
def KDTree.step (t : KDTree N α E) : Op N α E → KDTree N α E
  | .insert pt value => t.insert pt value
  | .index pt =>
    match t.index pt with
    | none => t
    | some res => res.1

/-- The tree after a sequence of calls on the tree `t`. -/
def KDTree.runFrom (t : KDTree N α E) (ops : List (Op N α E)) : KDTree N α E :=
  ops.foldl KDTree.step t

/-- The tree after a sequence of calls on a newly constructed tree. -/
def run (ops : List (Op N α E)) : KDTree N α E :=
  KDTree.mk0.runFrom ops

end Calls

/-! ## Vocabulary of the statements -/

section Vocabulary

variable {N : Nat} [NeZero N] {α E : Type}

/-- The nodes of a tree, as the pointers to them: the node itself, then the nodes of its
left subtree, then those of its right subtree. -/
def NodePtr.nodes : NodePtr N α E → List (NodePtr N α E)
  | .null => []
  | .node k v lv r l => .node k v lv r l :: (l.nodes ++ r.nodes)

/-- The keys stored in a tree, in the order of `nodes`. -/
def NodePtr.keys : NodePtr N α E → List (Point N α)
  | .null => []
  | .node k _ _ r l => k :: (l.keys ++ r.keys)

/-- The (key, value) pairs stored in a tree, in the order of `nodes`. -/
def NodePtr.entries : NodePtr N α E → List (Point N α × E)
  | .null => []
  | .node k v _ r l => (k, v) :: (l.entries ++ r.entries)

/-- The tree with the value field of every node whose key is `pt` set to `value`, and
nothing else changed. -/
def NodePtr.setValue [DecidableEq α] (pt : Point N α) (value : E) :
    NodePtr N α E → NodePtr N α E
  | .null => .null
  | .node k v lv r l =>
    .node k (if k = pt then value else v) lv (r.setValue pt value) (l.setValue pt value)

/-- The k-d partition property at every node of a tree: on the node's split axis
`level % N`, the keys of the left subtree are strictly below the node's key and the keys of
the right subtree are at or above it. -/
def Partitioned [LinearOrder α] : NodePtr N α E → Prop
  | .null => True
  | .node k _ lv r l =>
    (∀ x ∈ l.keys, x (axis N lv) < k (axis N lv)) ∧
    (∀ x ∈ r.keys, k (axis N lv) ≤ x (axis N lv)) ∧ Partitioned r ∧ Partitioned l

/-- The tree that `insert` builds below `currentNode`, written without the bookkeeping of
the loop: overwrite at the node holding `pt`, else go left on `<` and right otherwise, and
put a new leaf where the descent ends. -/
def ins [LinearOrder α] (pt : Point N α) (value : E) : NodePtr N α E → Nat → NodePtr N α E
  | .null, level => .node pt value level .null .null
  | .node k v lv r l, level =>
    if pt = k then .node k value lv r l
    else if pt (axis N lv) < k (axis N lv) then .node k v lv r (ins pt value l (level + 1))
    else .node k v lv (ins pt value r (level + 1)) l

/-- Every node of the tree stores as `level` its depth, the tree itself starting at
depth `d`. -/
def LevelsFrom : Nat → NodePtr N α E → Prop
  | _, .null => True
  | d, .node _ _ lv r l => lv = d ∧ LevelsFrom (d + 1) r ∧ LevelsFrom (d + 1) l

/-- The representation invariant of the class: the k-d partition property, no key stored
twice, `numElements` equal to the number of nodes, and every `level` equal to the depth. -/
def KDTree.WF [LinearOrder α] (t : KDTree N α E) : Prop :=
  Partitioned t.root ∧ t.root.keys.Nodup ∧ t.numElements = t.root.nodes.length ∧
    LevelsFrom 0 t.root

/-- The sequence of calls `insert(p_1, v_1); …; insert(p_n, v_n)`. -/
def insertCalls (calls : List (Point N α × E)) : List (Op N α E) :=
  calls.map fun c => .insert c.1 c.2

/-- The key of the node a non-null pointer points to. -/
def NodePtr.key? : NodePtr N α E → Option (Point N α)
  | .null => none
  | .node k _ _ _ _ => some k

/-- The priority `Distance(currentNode->key, key)` a node is enqueued with. -/
def NodePtr.dist [LinearOrderedCommRing α] (key : Point N α) : NodePtr N α E → Root α
  | .null => ⟨0⟩
  | .node k _ _ _ _ => Distance k key

/-- The nodes of a tree in the order the exhaustive traversal for the query `key` visits
them: the node, then its near subtree, then its far subtree. -/
def visitOrder [LinearOrderedCommRing α] (key : Point N α) :
    NodePtr N α E → List (NodePtr N α E)
  | .null => []
  | .node k v lv r l =>
    .node k v lv r l ::
      (if key (axis N lv) < k (axis N lv) then visitOrder key l ++ visitOrder key r
       else visitOrder key r ++ visitOrder key l)

/-- The queue after enqueueing the items `xs` in order, each with the priority `f` gives
it. -/
def BoundedPQueue.enqueueAll {T P : Type} [LinearOrder P] (f : T → P)
    (q : BoundedPQueue T P) (xs : List T) : BoundedPQueue T P :=
  xs.foldl (fun acc x => acc.enqueue x (f x)) q

/-- The state of a queue of capacity `K` that was offered the items `seen`, each with the
priority `f` gives it: the entries are in ascending order of priority, there are
`min K (number offered)` of them, and the items offered split into the retained ones and
the `dropped` ones, no dropped item having a smaller priority than a retained one. -/
def BoundedPQueue.Retains {T P : Type} [LinearOrder P] (f : T → P) (K : Nat)
    (seen : List T) (q : BoundedPQueue T P) : Prop :=
  q.maximumSize = K ∧ q.elems.Pairwise (fun a b => a.1 ≤ b.1) ∧
    (∀ e ∈ q.elems, e.1 = f e.2) ∧ q.elems.length = min K seen.length ∧
    ∃ dropped, seen.Perm (q.elems.map Prod.snd ++ dropped) ∧
      ∀ y ∈ dropped, ∀ e ∈ q.elems, e.1 ≤ f y

/-- The subtree at a position of a tree; a position is the list of sides taken from the
root, `true` for `rNodePtr` and `false` for `lNodePtr`. Below a null pointer there is only
`null`. -/
def NodePtr.subtreeAt : List Bool → NodePtr N α E → NodePtr N α E
  | [], t => t
  | _ :: _, .null => .null
  | d :: ds, .node _ _ _ r l => NodePtr.subtreeAt ds (if d then r else l)

/-- The `key`, `value` and `level` of the node a non-null pointer points to. -/
def NodePtr.fields? : NodePtr N α E → Option (Point N α × E × Nat)
  | .null => none
  | .node k v lv _ _ => some (k, v, lv)

/-- The node at a position of a tree, if there is one. -/
def NodePtr.nodeAt (pos : List Bool) (t : NodePtr N α E) : Option (Point N α × E × Nat) :=
  (t.subtreeAt pos).fields?

/-- The position the descent of `insert` for `pt` ends at: the sides taken from
`currentNode` until the node holding `pt` or a null pointer is reached. -/
def descentPath [LinearOrder α] (pt : Point N α) : NodePtr N α E → List Bool
  | .null => []
  | .node k _ lv r l =>
    if pt = k then []
    else if pt (axis N lv) < k (axis N lv) then false :: descentPath pt l
    else true :: descentPath pt r

/-- The queue with every item replaced by its image under `g`, priorities kept. -/
def BoundedPQueue.mapItems {T U P : Type} (g : T → U) (q : BoundedPQueue T P) :
    BoundedPQueue U P :=
  ⟨q.elems.map fun e => (e.1, g e.2), q.maximumSize⟩

/-- The queue after a sequence of `enqueue(item, priority)` calls. -/
def BoundedPQueue.enqueueSeq {T P : Type} [LinearOrder P] (q : BoundedPQueue T P)
    (calls : List (T × P)) : BoundedPQueue T P :=
  calls.foldl (fun acc c => acc.enqueue c.1 c.2) q

/-- What `KNNValueRecurse` does to the queue, in the order it does it: an `enqueue` call
with a node, or an evaluation of `worst()` on the queue as it is at that moment. -/
inductive TraceEvent (N : Nat) (α E : Type) where
  | enqueued (node : NodePtr N α E)
  | worstCalled (queue : BoundedPQueue (NodePtr N α E) (Root α))

/-- The part of `KNNValueRecurse` after the recursive call on the near child, with the
events it adds: `near` is the outcome of that call and `far` runs the call on the far
child. -/
def traceFar [LinearOrderedCommRing α] (d : α)
    (near : Option (BoundedPQueue (NodePtr N α E) (Root α)) × List (TraceEvent N α E))
    (far : BoundedPQueue (NodePtr N α E) (Root α) →
      Option (BoundedPQueue (NodePtr N α E) (Root α)) × List (TraceEvent N α E)) :
    Option (BoundedPQueue (NodePtr N α E) (Root α)) × List (TraceEvent N α E) :=
  match near.1 with
  | none => (none, near.2)
  | some q2 =>
    if q2.size ≠ q2.maxSize then ((far q2).1, near.2 ++ (far q2).2)
    else
      match q2.worst with
      | none => (none, near.2 ++ [.worstCalled q2])
      | some w =>
        if fabsLt d w then ((far q2).1, near.2 ++ .worstCalled q2 :: (far q2).2)
        else (some q2, near.2 ++ [.worstCalled q2])

/-- The function `KNNValueRecurse` together with the list of its `enqueue` calls and
`worst()` evaluations, in order. -/
def KNNValueTrace [LinearOrderedCommRing α] (key : Point N α) :
    NodePtr N α E → BoundedPQueue (NodePtr N α E) (Root α) →
      Option (BoundedPQueue (NodePtr N α E) (Root α)) × List (TraceEvent N α E)
  | .null, q => (some q, [])
  | .node k v lv r l, q =>
    let q1 := q.enqueue (.node k v lv r l) (Distance k key)
    let rest :=
      if key (axis N lv) < k (axis N lv) then
        traceFar (k (axis N lv) - key (axis N lv)) (KNNValueTrace key l q1)
          (fun q2 => KNNValueTrace key r q2)
      else
        traceFar (k (axis N lv) - key (axis N lv)) (KNNValueTrace key r q1)
          (fun q2 => KNNValueTrace key l q2)
    (rest.1, .enqueued (.node k v lv r l) :: rest.2)

/-- The nodes of the `enqueue` calls in a list of events. -/
def enqueuedNodes : List (TraceEvent N α E) → List (NodePtr N α E)
  | [] => []
  | .enqueued n :: rest => n :: enqueuedNodes rest
  | .worstCalled _ :: rest => enqueuedNodes rest

/-- The queues of the `worst()` evaluations in a list of events. -/
def worstQueues : List (TraceEvent N α E) → List (BoundedPQueue (NodePtr N α E) (Root α))
  | [] => []
  | .enqueued _ :: rest => worstQueues rest
  | .worstCalled q :: rest => q :: worstQueues rest

/-- How the `while` loop of `insert` and of `operator[]` ends, with the value of the
counter `level` at that moment, which is the number of iterations made: at the node
holding the point, in the third branch of the comparison, or with `currentNode == NULL`
and the pointer `prevNode` as it is then. -/
inductive LoopExit (N : Nat) (α E : Type) where
  | duplicate (level : Nat)
  | error (level : Nat)
  | fellOff (prevNode : NodePtr N α E) (level : Nat)

/-- The `while` loop of `insert` and of `operator[]` on the variables `currentNode`,
`prevNode` and `level`. -/
def descend [LinearOrder α] (pt : Point N α) :
    NodePtr N α E → NodePtr N α E → Nat → LoopExit N α E
  | .null, prevNode, level => .fellOff prevNode level
  | .node k v lv r l, _, level =>
    if pt = k then .duplicate (level + 1)
    else if pt (axis N lv) < k (axis N lv) then descend pt l (.node k v lv r l) (level + 1)
    else if pt (axis N lv) ≥ k (axis N lv) then descend pt r (.node k v lv r l) (level + 1)
    else .error (level + 1)

/-- The number of iterations the loop made. -/
def LoopExit.iterations : LoopExit N α E → Nat
  | .duplicate level => level
  | .error level => level
  | .fellOff _ level => level

/-- The `while` loop of `contains` with the number of iterations it makes. -/
def containsLoopIters [LinearOrder α] (pt : Point N α) : NodePtr N α E → Bool × Nat
  | .null => (false, 0)
  | .node key _ level r l =>
    if key = pt then (true, 1)
    else if pt (axis N level) ≥ key (axis N level) then
      ((containsLoopIters pt r).1, (containsLoopIters pt r).2 + 1)
    else ((containsLoopIters pt l).1, (containsLoopIters pt l).2 + 1)

/-- The `while` loop of `at` with the number of iterations it makes. -/
def atLoopIters [LinearOrder α] (pt : Point N α) : NodePtr N α E → Option E × Nat
  | .null => (none, 0)
  | .node key value level r l =>
    if key = pt then (some value, 1)
    else if pt (axis N level) < key (axis N level) then
      ((atLoopIters pt l).1, (atLoopIters pt l).2 + 1)
    else ((atLoopIters pt r).1, (atLoopIters pt r).2 + 1)

/-- The number of nodes on a longest path from the root down; 0 for the empty tree. -/
def NodePtr.levels : NodePtr N α E → Nat
  | .null => 0
  | .node _ _ _ r l => max r.levels l.levels + 1

/-- The height of a tree: the number of edges on a longest path from the root down. -/
def NodePtr.height (t : NodePtr N α E) : Nat := t.levels - 1

/-- The final map of a sequence of `insert` calls: the value of the last call made with
the point `p`, if there is one. -/
def finalMap [DecidableEq α] (calls : List (Point N α × E)) (p : Point N α) : Option E :=
  calls.foldl (fun acc c => if c.1 = p then some c.2 else acc) none

/-- The (key, value) pair of the node a non-null pointer points to. -/
def NodePtr.entry? : NodePtr N α E → Option (Point N α × E)
  | .null => none
  | .node k v _ _ _ => some (k, v)

/-- The distance from the query `key` to the key of an entry. -/
def entryDist [LinearOrderedCommRing α] (key : Point N α) : Option (Point N α × E) → Root α
  | none => ⟨0⟩
  | some e => Distance e.1 key

end Vocabulary

/-! ## Sample inputs -/

/-- A sequence of calls on a 2-d tree of strings that goes left and right, uses
`operator[]` and overwrites a stored point. -/
def sampleOps : List (Op 2 Int String) :=
  [.insert ![5, 5] "a", .insert ![3, 7] "b", .index ![8, 1], .insert ![3, 2] "c",
    .insert ![5, 5] "d"]

/-- The calls of the scenario: three labelled points in the plane. -/
def scenarioCalls : List (Point 2 Int × String) :=
  [(![0, 0], "red"), (![10, 10], "blue"), (![10, 11], "blue")]

/-- The tree of the scenario. -/
def scenarioTree : KDTree 2 Int String := run (insertCalls scenarioCalls)

/-- Four points at distance 1 from the origin, labelled "A" and "B" in equal counts, and
one point further away. -/
def tieCalls : List (Point 2 Int × String) :=
  [(![1, 0], "B"), (![0, 1], "A"), (![-1, 0], "B"), (![0, -1], "A"), (![5, 5], "C")]

/-- The queue of capacity 4 after the traversal for the query (0, 0) on the tree built
from `tieCalls`. -/
def tieQueue : BoundedPQueue (NodePtr 2 Int String) (Root Int) :=
  KNNValueExhaustive ![0, 0] (run (insertCalls tieCalls)).root (BoundedPQueue.new 4)

/-- The two nodes of the scenario tree nearest to the query (9, 9). -/
def scenarioNearest : List (NodePtr 2 Int String) :=
  [.node ![10, 10] "blue" 1 (.node ![10, 11] "blue" 2 .null .null) .null,
    .node ![10, 11] "blue" 2 .null .null]

/-- The remaining node of the scenario tree, its root. -/
def scenarioRest : List (NodePtr 2 Int String) :=
  [.node ![0, 0] "red" 0
    (.node ![10, 10] "blue" 1 (.node ![10, 11] "blue" 2 .null .null) .null) .null]

/-- A sequence of `enqueue` calls with repeated priorities. -/
def sampleEnqueues : List (String × Nat) :=
  [("a", 5), ("b", 3), ("c", 5), ("d", 1), ("e", 3), ("f", 9)]

/-- The queue of capacity 1 as it is, in the traversal of the sample tree for the query
(8, 1), when the traversal is back at the root: it holds the node of (8, 1), at distance
0. -/
def sampleFullQueue : BoundedPQueue (NodePtr 2 Int String) (Root Int) :=
  ⟨[(⟨0⟩, .node ![8, 1] "" 1 .null .null)], 1⟩

/-- The calls of the scenario in another order, with a first value for (0, 0) that a
later call overwrites. -/
def scenarioCallsReordered : List (Point 2 Int × String) :=
  [(![10, 11], "blue"), (![0, 0], "green"), (![10, 10], "blue"), (![0, 0], "red")]

/-- A value the uninitialised `bool best;` may hold: `true`, which is not `bool()`. -/
def strayBool : DefaultInit Bool := ⟨true⟩

end KD

/-! # Theorems -/

namespace KD

/-! ## Lemmas on the descent loops -/

section Descent

variable {N : Nat} [NeZero N] {α E : Type} [LinearOrder α]

theorem containsLoop_eq_isSome (pt : Point N α) (t : NodePtr N α E) :
    containsLoop pt t = (atLoop pt t).isSome := by
  induction t with
  | null => rfl
  | node k v lv r l ihr ihl =>
    simp only [containsLoop, atLoop]
    by_cases hk : k = pt
    · simp [hk]
    · by_cases hlt : pt (axis N lv) < k (axis N lv)
      · simp [hk, hlt, not_le.mpr hlt, ihl]
      · simp [hk, hlt, not_lt.mp hlt, ihr]

theorem insertLoop_eq (pt : Point N α) (value : E) (t : NodePtr N α E) (level : Nat) :
    insertLoop pt value t level = some (ins pt value t level, !containsLoop pt t) := by
  induction t generalizing level with
  | null => rfl
  | node k v lv r l ihr ihl =>
    simp only [insertLoop, ins, containsLoop]
    by_cases hk : pt = k
    · simp [hk]
    · have hk2 : ¬ k = pt := fun h => hk h.symm
      by_cases hlt : pt (axis N lv) < k (axis N lv)
      · cases l with
        | null => simp [hk, hk2, hlt, not_le.mpr hlt, NodePtr.isNull, attach, ins, containsLoop]
        | node k2 v2 lv2 r2 l2 =>
          simp [hk, hk2, hlt, not_le.mpr hlt, NodePtr.isNull, ihl]
      · cases r with
        | null => simp [hk, hk2, hlt, not_lt.mp hlt, NodePtr.isNull, attach, ins, containsLoop]
        | node k2 v2 lv2 r2 l2 =>
          simp [hk, hk2, hlt, not_lt.mp hlt, NodePtr.isNull, ihr]

theorem indexLoop_eq [Inhabited E] (pt : Point N α) (t : NodePtr N α E) (level : Nat) :
    indexLoop pt t level =
      some (if containsLoop pt t then t else ins pt default t level,
        (atLoop pt t).getD default, !containsLoop pt t) := by
  induction t generalizing level with
  | null => rfl
  | node k v lv r l ihr ihl =>
    simp only [indexLoop, ins, containsLoop, atLoop]
    by_cases hk : pt = k
    · simp [hk]
    · have hk2 : ¬ k = pt := fun h => hk h.symm
      by_cases hlt : pt (axis N lv) < k (axis N lv)
      · cases l with
        | null => simp [hk, hk2, hlt, not_le.mpr hlt, NodePtr.isNull, attach, ins, containsLoop, atLoop]
        | node k2 v2 lv2 r2 l2 =>
          simp only [hk, hk2, hlt, not_le.mpr hlt, NodePtr.isNull, ihl, if_true, if_false]
          by_cases hc : containsLoop pt (NodePtr.node k2 v2 lv2 r2 l2) = true <;> simp [hc]
      · cases r with
        | null => simp [hk, hk2, hlt, not_lt.mp hlt, NodePtr.isNull, attach, ins, containsLoop, atLoop]
        | node k2 v2 lv2 r2 l2 =>
          simp only [hk, hk2, hlt, not_lt.mp hlt, NodePtr.isNull, ihr, if_true, if_false]
          by_cases hc : containsLoop pt (NodePtr.node k2 v2 lv2 r2 l2) = true <;> simp [hc]

end Descent

end KD

namespace KD

/-! ## Lemmas on insertion -/

section Insertion

variable {N : Nat} [NeZero N] {α E : Type} [LinearOrder α]

theorem atLoop_ins_same (pt : Point N α) (value : E) (t : NodePtr N α E) (level : Nat) :
    atLoop pt (ins pt value t level) = some value := by
  induction t generalizing level with
  | null => simp [ins, atLoop]
  | node k v lv r l ihr ihl =>
    simp only [ins]
    by_cases hk : pt = k
    · simp [hk, atLoop]
    · have hk2 : ¬ k = pt := fun h => hk h.symm
      by_cases hlt : pt (axis N lv) < k (axis N lv)
      · simp [hk, hk2, hlt, atLoop, ihl]
      · simp [hk, hk2, hlt, atLoop, ihr]

theorem atLoop_ins_other (pt q : Point N α) (hq : q ≠ pt) (value : E) (t : NodePtr N α E)
    (level : Nat) : atLoop q (ins pt value t level) = atLoop q t := by
  induction t generalizing level with
  | null => simp [ins, atLoop, hq.symm]
  | node k v lv r l ihr ihl =>
    simp only [ins]
    by_cases hk : pt = k
    · subst hk
      simp [atLoop, hq.symm]
    · by_cases hlt : pt (axis N lv) < k (axis N lv)
      · simp only [hk, hlt, if_true, if_false, atLoop, ihl]
      · simp only [hk, hlt, if_true, if_false, atLoop, ihr]

theorem mem_keys_of_containsLoop (pt : Point N α) (t : NodePtr N α E)
    (h : containsLoop pt t = true) : pt ∈ t.keys := by
  induction t with
  | null => simp [containsLoop] at h
  | node k v lv r l ihr ihl =>
    simp only [containsLoop] at h
    simp only [NodePtr.keys, List.mem_cons, List.mem_append]
    by_cases hk : k = pt
    · exact Or.inl hk.symm
    · by_cases hge : pt (axis N lv) ≥ k (axis N lv)
      · simp only [hk, hge, if_true, if_false] at h
        exact Or.inr (Or.inr (ihr h))
      · simp only [hk, hge, if_true, if_false] at h
        exact Or.inr (Or.inl (ihl h))

theorem containsLoop_of_mem_keys (pt : Point N α) (t : NodePtr N α E) (hp : Partitioned t)
    (h : pt ∈ t.keys) : containsLoop pt t = true := by
  induction t with
  | null => simp [NodePtr.keys] at h
  | node k v lv r l ihr ihl =>
    obtain ⟨hl, hr, hpr, hpl⟩ := hp
    simp only [NodePtr.keys, List.mem_cons, List.mem_append] at h
    simp only [containsLoop]
    by_cases hk : k = pt
    · simp [hk]
    · simp only [hk, if_false]
      rcases h with h | h | h
      · exact absurd h.symm hk
      · have hlt := hl pt h
        simp only [ge_iff_le, not_le.mpr hlt, if_false]
        exact ihl hpl h
      · have hge := hr pt h
        simp only [ge_iff_le, hge, if_true]
        exact ihr hpr h

theorem containsLoop_iff_mem_keys (pt : Point N α) (t : NodePtr N α E) (hp : Partitioned t) :
    containsLoop pt t = true ↔ pt ∈ t.keys :=
  ⟨mem_keys_of_containsLoop pt t, containsLoop_of_mem_keys pt t hp⟩

theorem ins_of_containsLoop [DecidableEq α] (pt : Point N α) (value : E) (t : NodePtr N α E)
    (level : Nat) (h : containsLoop pt t = true) :
    (ins pt value t level).keys = t.keys ∧ (ins pt value t level).nodes.length = t.nodes.length := by
  induction t generalizing level with
  | null => simp [containsLoop] at h
  | node k v lv r l ihr ihl =>
    simp only [containsLoop] at h
    simp only [ins]
    by_cases hk : pt = k
    · simp [hk, NodePtr.keys, NodePtr.nodes]
    · have hk2 : ¬ k = pt := fun h => hk h.symm
      by_cases hlt : pt (axis N lv) < k (axis N lv)
      · simp only [hk2, ge_iff_le, not_le.mpr hlt, if_false] at h
        simp [hk, hlt, NodePtr.keys, NodePtr.nodes, ihl _ h]
      · simp only [hk2, ge_iff_le, not_lt.mp hlt, if_true, if_false] at h
        simp [hk, hlt, NodePtr.keys, NodePtr.nodes, ihr _ h]

theorem ins_of_not_containsLoop (pt : Point N α) (value : E) (t : NodePtr N α E)
    (level : Nat) (h : containsLoop pt t = false) :
    (ins pt value t level).keys.Perm (pt :: t.keys) ∧
      (ins pt value t level).nodes.length = t.nodes.length + 1 := by
  induction t generalizing level with
  | null => simp [ins, NodePtr.keys, NodePtr.nodes]
  | node k v lv r l ihr ihl =>
    simp only [containsLoop] at h
    simp only [ins]
    by_cases hk : pt = k
    · simp [hk] at h
    · have hk2 : ¬ k = pt := fun h => hk h.symm
      by_cases hlt : pt (axis N lv) < k (axis N lv)
      · simp only [hk2, ge_iff_le, not_le.mpr hlt, if_false] at h
        obtain ⟨h1, h2⟩ := ihl (level + 1) h
        simp only [hk, hlt, if_true, if_false, NodePtr.keys, NodePtr.nodes, List.length_cons,
          List.length_append, h2]
        refine ⟨?_, by omega⟩
        refine List.Perm.trans ?_ (List.Perm.swap pt k _)
        exact List.Perm.cons k (List.Perm.append_right _ h1)
      · simp only [hk2, ge_iff_le, not_lt.mp hlt, if_true, if_false] at h
        obtain ⟨h1, h2⟩ := ihr (level + 1) h
        simp only [hk, hlt, if_true, if_false, NodePtr.keys, NodePtr.nodes, List.length_cons,
          List.length_append, h2]
        refine ⟨?_, by omega⟩
        refine List.Perm.trans ?_ (List.Perm.swap pt k _)
        refine List.Perm.cons k ?_
        refine List.Perm.trans (List.Perm.append_left _ h1) ?_
        exact List.perm_middle

theorem mem_keys_ins (pt x : Point N α) (value : E) (t : NodePtr N α E) (level : Nat) :
    x ∈ (ins pt value t level).keys ↔ x = pt ∨ x ∈ t.keys := by
  classical
  cases h : containsLoop pt t with
  | true =>
    rw [(ins_of_containsLoop pt value t level h).1]
    constructor
    · exact Or.inr
    · rintro (hx | hx)
      · exact hx ▸ mem_keys_of_containsLoop pt t h
      · exact hx
  | false =>
    rw [(ins_of_not_containsLoop pt value t level h).1.mem_iff]
    simp

theorem partitioned_ins (pt : Point N α) (value : E) (t : NodePtr N α E) (level : Nat)
    (hp : Partitioned t) : Partitioned (ins pt value t level) := by
  induction t generalizing level with
  | null => simp [ins, Partitioned, NodePtr.keys]
  | node k v lv r l ihr ihl =>
    obtain ⟨hl, hr, hpr, hpl⟩ := hp
    simp only [ins]
    by_cases hk : pt = k
    · simp only [hk, if_true]
      exact ⟨hl, hr, hpr, hpl⟩
    · by_cases hlt : pt (axis N lv) < k (axis N lv)
      · simp only [hk, hlt, if_true, if_false]
        refine ⟨?_, hr, hpr, ihl _ hpl⟩
        intro x hx
        rcases (mem_keys_ins pt x value l _).mp hx with hx | hx
        · exact hx ▸ hlt
        · exact hl x hx
      · simp only [hk, hlt, if_true, if_false]
        refine ⟨hl, ?_, ihr _ hpr, hpl⟩
        intro x hx
        rcases (mem_keys_ins pt x value r _).mp hx with hx | hx
        · exact hx ▸ not_lt.mp hlt
        · exact hr x hx

theorem nodup_keys_ins (pt : Point N α) (value : E) (t : NodePtr N α E) (level : Nat)
    (hp : Partitioned t) (hn : t.keys.Nodup) : (ins pt value t level).keys.Nodup := by
  classical
  cases h : containsLoop pt t with
  | true => rw [(ins_of_containsLoop pt value t level h).1]; exact hn
  | false =>
    rw [(ins_of_not_containsLoop pt value t level h).1.nodup_iff]
    refine List.nodup_cons.mpr ⟨?_, hn⟩
    intro hmem
    rw [containsLoop_of_mem_keys pt t hp hmem] at h
    exact Bool.noConfusion h

omit [NeZero N] [LinearOrder α] in
theorem length_keys (t : NodePtr N α E) : t.keys.length = t.nodes.length := by
  induction t with
  | null => rfl
  | node k v lv r l ihr ihl => simp [NodePtr.keys, NodePtr.nodes, ihr, ihl]

end Insertion

end KD

namespace KD

/-! ## The representation invariant along sequences of calls -/

section Invariant

variable {N : Nat} [NeZero N] {α E : Type} [LinearOrder α]

theorem KDTree.insert_eq (t : KDTree N α E) (pt : Point N α) (value : E) :
    t.insert pt value =
      ⟨ins pt value t.root 0,
        if t.contains pt then t.numElements else t.numElements + 1⟩ := by
  unfold KDTree.insert KDTree.contains
  rw [insertLoop_eq]
  cases containsLoop pt t.root <;> simp

theorem KDTree.index_eq [Inhabited E] (t : KDTree N α E) (pt : Point N α) :
    t.index pt =
      some (if t.contains pt then t else t.insert pt default, (t.at pt).getD default) := by
  rw [KDTree.insert_eq]
  unfold KDTree.index KDTree.contains KDTree.at
  rw [indexLoop_eq]
  cases containsLoop pt t.root <;> simp

theorem KDTree.step_index [Inhabited E] (t : KDTree N α E) (pt : Point N α) :
    t.step (.index pt) = if t.contains pt then t else t.insert pt default := by
  simp [KDTree.step, KDTree.index_eq]

theorem levelsFrom_ins (pt : Point N α) (value : E) (t : NodePtr N α E) (d : Nat)
    (h : LevelsFrom d t) : LevelsFrom d (ins pt value t d) := by
  induction t generalizing d with
  | null => simp [ins, LevelsFrom]
  | node k v lv r l ihr ihl =>
    obtain ⟨h1, h2, h3⟩ := h
    simp only [ins]
    by_cases hk : pt = k
    · simp only [hk, if_true]
      exact ⟨h1, h2, h3⟩
    · by_cases hlt : pt (axis N lv) < k (axis N lv)
      · simp only [hk, hlt, if_true, if_false]
        exact ⟨h1, h2, ihl _ h3⟩
      · simp only [hk, hlt, if_true, if_false]
        exact ⟨h1, ihr _ h2, h3⟩

theorem KDTree.wf_mk0 : (KDTree.mk0 : KDTree N α E).WF := by
  simp [KDTree.WF, KDTree.mk0, Partitioned, NodePtr.keys, NodePtr.nodes, LevelsFrom]

theorem KDTree.wf_insert (t : KDTree N α E) (h : t.WF) (pt : Point N α) (value : E) :
    (t.insert pt value).WF := by
  classical
  obtain ⟨hp, hn, hc, hl⟩ := h
  rw [KDTree.insert_eq]
  refine ⟨partitioned_ins pt value _ _ hp, nodup_keys_ins pt value _ _ hp hn, ?_,
    levelsFrom_ins pt value _ _ hl⟩
  simp only [KDTree.contains]
  by_cases hcon : containsLoop pt t.root = true
  · simp [(ins_of_containsLoop pt value t.root 0 hcon).2, hc, hcon]
  · have hcon2 : containsLoop pt t.root = false := by simpa using hcon
    simp [(ins_of_not_containsLoop pt value t.root 0 hcon2).2, hc, hcon2]

theorem KDTree.wf_step [Inhabited E] (t : KDTree N α E) (h : t.WF) (op : Op N α E) :
    (t.step op).WF := by
  cases op with
  | insert pt value => exact KDTree.wf_insert t h pt value
  | index pt =>
    rw [KDTree.step_index]
    split
    · exact h
    · exact KDTree.wf_insert t h pt default

theorem KDTree.wf_runFrom [Inhabited E] (ops : List (Op N α E)) (t : KDTree N α E)
    (h : t.WF) : (t.runFrom ops).WF := by
  induction ops generalizing t with
  | nil => exact h
  | cons op rest ih => exact ih _ (KDTree.wf_step t h op)

theorem wf_run [Inhabited E] (ops : List (Op N α E)) : (run ops).WF :=
  KDTree.wf_runFrom ops _ KDTree.wf_mk0

theorem KDTree.mem_keys_insert (t : KDTree N α E) (pt x : Point N α) (value : E) :
    x ∈ (t.insert pt value).root.keys ↔ x = pt ∨ x ∈ t.root.keys := by
  rw [KDTree.insert_eq]
  exact mem_keys_ins pt x value t.root 0

theorem KDTree.mem_keys_step [Inhabited E] (t : KDTree N α E) (op : Op N α E)
    (x : Point N α) : x ∈ (t.step op).root.keys ↔ x = op.point ∨ x ∈ t.root.keys := by
  cases op with
  | insert pt value => exact KDTree.mem_keys_insert t pt x value
  | index pt =>
    rw [KDTree.step_index]
    simp only [Op.point]
    split
    · rename_i hc
      constructor
      · exact Or.inr
      · rintro (hx | hx)
        · exact hx ▸ mem_keys_of_containsLoop pt t.root hc
        · exact hx
    · exact KDTree.mem_keys_insert t pt x default

theorem KDTree.mem_keys_runFrom [Inhabited E] (ops : List (Op N α E)) (t : KDTree N α E)
    (x : Point N α) :
    x ∈ (t.runFrom ops).root.keys ↔ x ∈ t.root.keys ∨ x ∈ ops.map Op.point := by
  induction ops generalizing t with
  | nil => simp [KDTree.runFrom]
  | cons op rest ih =>
    have := ih (t.step op)
    simp only [KDTree.runFrom, List.foldl_cons] at this ⊢
    rw [this, KDTree.mem_keys_step]
    simp only [List.map_cons, List.mem_cons]
    tauto

theorem mem_keys_run [Inhabited E] (ops : List (Op N α E)) (x : Point N α) :
    x ∈ (run ops).root.keys ↔ x ∈ ops.map Op.point := by
  unfold run
  rw [KDTree.mem_keys_runFrom]
  simp [KDTree.mk0, NodePtr.keys]

theorem KDTree.runFrom_append [Inhabited E] (t : KDTree N α E) (a b : List (Op N α E)) :
    t.runFrom (a ++ b) = (t.runFrom a).runFrom b := by
  simp [KDTree.runFrom, List.foldl_append]

end Invariant

end KD

namespace KD

/-! ## Membership, lookup and overwrite -/

section Lookup

variable {N : Nat} [NeZero N] {α E : Type} [LinearOrder α]

omit [NeZero N] [LinearOrder α] in
theorem mem_keys_iff_nodes (p : Point N α) (t : NodePtr N α E) :
    p ∈ t.keys ↔ ∃ v lv r l, NodePtr.node p v lv r l ∈ t.nodes := by
  induction t with
  | null => simp [NodePtr.keys, NodePtr.nodes]
  | node k v lv r l ihr ihl =>
    simp only [NodePtr.keys, NodePtr.nodes, List.mem_cons, List.mem_append, ihr, ihl,
      NodePtr.node.injEq]
    constructor
    · rintro (h | ⟨a, b, c, d, h⟩ | ⟨a, b, c, d, h⟩)
      · exact ⟨v, lv, r, l, Or.inl ⟨h, rfl, rfl, rfl, rfl⟩⟩
      · exact ⟨a, b, c, d, Or.inr (Or.inl h)⟩
      · exact ⟨a, b, c, d, Or.inr (Or.inr h)⟩
    · rintro ⟨a, b, c, d, h | h | h⟩
      · exact Or.inl h.1
      · exact Or.inr (Or.inl ⟨a, b, c, d, h⟩)
      · exact Or.inr (Or.inr ⟨a, b, c, d, h⟩)

omit [NeZero N] [LinearOrder α] in
theorem fst_mem_keys_of_mem_entries (p : Point N α) (v : E) (t : NodePtr N α E)
    (h : (p, v) ∈ t.entries) : p ∈ t.keys := by
  induction t with
  | null => simp [NodePtr.entries] at h
  | node k w lv r l ihr ihl =>
    simp only [NodePtr.entries, List.mem_cons, List.mem_append, Prod.mk.injEq] at h
    simp only [NodePtr.keys, List.mem_cons, List.mem_append]
    rcases h with h | h | h
    · exact Or.inl h.1
    · exact Or.inr (Or.inl (ihl h))
    · exact Or.inr (Or.inr (ihr h))

theorem mem_entries_of_atLoop (p : Point N α) (v : E) (t : NodePtr N α E)
    (h : atLoop p t = some v) : (p, v) ∈ t.entries := by
  induction t with
  | null => simp [atLoop] at h
  | node k w lv r l ihr ihl =>
    simp only [atLoop] at h
    simp only [NodePtr.entries, List.mem_cons, List.mem_append, Prod.mk.injEq]
    by_cases hk : k = p
    · simp only [hk, if_true, Option.some.injEq] at h
      exact Or.inl ⟨hk.symm, h.symm⟩
    · by_cases hlt : p (axis N lv) < k (axis N lv)
      · simp only [hk, hlt, if_true, if_false] at h
        exact Or.inr (Or.inl (ihl h))
      · simp only [hk, hlt, if_false] at h
        exact Or.inr (Or.inr (ihr h))

theorem atLoop_of_mem_entries (p : Point N α) (v : E) (t : NodePtr N α E)
    (hp : Partitioned t) (hn : t.keys.Nodup) (h : (p, v) ∈ t.entries) :
    atLoop p t = some v := by
  induction t with
  | null => simp [NodePtr.entries] at h
  | node k w lv r l ihr ihl =>
    obtain ⟨hl, hr, hpr, hpl⟩ := hp
    simp only [NodePtr.keys, List.nodup_cons, List.mem_append, not_or] at hn
    obtain ⟨⟨hkl, hkr⟩, hlr⟩ := hn
    simp only [NodePtr.entries, List.mem_cons, List.mem_append, Prod.mk.injEq] at h
    simp only [atLoop]
    rcases h with h | h | h
    · simp [h.1, h.2]
    · have hmem := fst_mem_keys_of_mem_entries p v l h
      have hk : ¬ k = p := fun e => hkl (e ▸ hmem)
      simp only [hk, hl p hmem, if_true, if_false]
      exact ihl hpl (List.Nodup.of_append_left hlr) h
    · have hmem := fst_mem_keys_of_mem_entries p v r h
      have hk : ¬ k = p := fun e => hkr (e ▸ hmem)
      simp only [hk, not_lt.mpr (hr p hmem), if_false]
      exact ihr hpr (List.Nodup.of_append_right hlr) h

omit [NeZero N] in
theorem setValue_of_not_mem (p : Point N α) (v : E) (t : NodePtr N α E)
    (h : p ∉ t.keys) : t.setValue p v = t := by
  induction t with
  | null => rfl
  | node k w lv r l ihr ihl =>
    simp only [NodePtr.keys, List.mem_cons, List.mem_append, not_or] at h
    obtain ⟨h1, h2, h3⟩ := h
    have hk : ¬ k = p := fun e => h1 e.symm
    simp [NodePtr.setValue, hk, ihr h3, ihl h2]

theorem ins_eq_setValue (p : Point N α) (v : E) (t : NodePtr N α E) (level : Nat)
    (hp : Partitioned t) (hn : t.keys.Nodup) (h : p ∈ t.keys) :
    ins p v t level = t.setValue p v := by
  induction t generalizing level with
  | null => simp [NodePtr.keys] at h
  | node k w lv r l ihr ihl =>
    obtain ⟨hl, hr, hpr, hpl⟩ := hp
    simp only [NodePtr.keys, List.nodup_cons, List.mem_append, not_or] at hn
    obtain ⟨⟨hkl, hkr⟩, hlr⟩ := hn
    simp only [NodePtr.keys, List.mem_cons, List.mem_append] at h
    simp only [ins, NodePtr.setValue]
    by_cases hk : p = k
    · subst hk
      simp [setValue_of_not_mem p v r hkr, setValue_of_not_mem p v l hkl]
    · have hk2 : ¬ k = p := fun e => hk e.symm
      rcases h with h | h | h
      · exact absurd h hk
      · have hpr2 : p ∉ r.keys := fun hm => List.disjoint_of_nodup_append hlr h hm
        simp [hk, hk2, hl p h, ihl _ hpl (List.Nodup.of_append_left hlr) h,
          setValue_of_not_mem p v r hpr2]
      · have hpl2 : p ∉ l.keys := fun hm => List.disjoint_of_nodup_append hlr hm h
        simp [hk, hk2, not_lt.mpr (hr p h), ihr _ hpr (List.Nodup.of_append_right hlr) h,
          setValue_of_not_mem p v l hpl2]

theorem partitioned_nodes (t : NodePtr N α E) (hp : Partitioned t)
    (key : Point N α) (value : E) (level : Nat) (r l : NodePtr N α E)
    (h : NodePtr.node key value level r l ∈ t.nodes) :
    (∀ x ∈ l.keys, x (axis N level) < key (axis N level)) ∧
      (∀ x ∈ r.keys, x (axis N level) ≥ key (axis N level)) := by
  induction t with
  | null => simp [NodePtr.nodes] at h
  | node k w lv r' l' ihr ihl =>
    obtain ⟨hl, hr, hpr, hpl⟩ := hp
    simp only [NodePtr.nodes, List.mem_cons, List.mem_append, NodePtr.node.injEq] at h
    rcases h with ⟨h1, -, h3, h4, h5⟩ | h | h
    · subst h1 h3 h4 h5
      exact ⟨hl, hr⟩
    · exact ihl hpl h
    · exact ihr hpr h

theorem KDTree.at_runFrom_insertCalls [Inhabited E] (post : List (Point N α × E))
    (t : KDTree N α E) (p : Point N α) (h : p ∉ post.map Prod.fst) :
    (t.runFrom (insertCalls post)).at p = t.at p := by
  induction post generalizing t with
  | nil => rfl
  | cons c rest ih =>
    simp only [List.map_cons, List.mem_cons, not_or] at h
    have := ih (t.insert c.1 c.2) h.2
    simp only [insertCalls, List.map_cons, KDTree.runFrom, List.foldl_cons, KDTree.step]
      at this ⊢
    rw [this, KDTree.insert_eq]
    exact atLoop_ins_other c.1 p h.1 c.2 t.root 0

end Lookup

end KD

namespace KD

/-! ## Claims on insertion, membership and lookup -/

section TreeClaims

variable {N : Nat} [NeZero N] {α E : Type} [LinearOrder α] [Inhabited E]

/-- C1: in every tree obtained from the empty tree by a sequence of `insert` and
`operator[]` calls, at every node, with split axis `level % N`, every key of the left
subtree is strictly below the node's key on that axis and every key of the right subtree is
at or above it. -/
theorem C1_partition_invariant (ops : List (Op N α E)) (key : Point N α) (value : E)
    (level : Nat) (r l : NodePtr N α E)
    (h : NodePtr.node key value level r l ∈ (run ops).root.nodes) :
    (∀ x ∈ l.keys, x (axis N level) < key (axis N level)) ∧
      (∀ x ∈ r.keys, x (axis N level) ≥ key (axis N level)) :=
  partitioned_nodes _ (wf_run ops).1 key value level r l h

/-- C2: after a sequence of `insert` calls on the empty tree, for a point `p` whose last
call in the sequence is `insert(p, v)` (no later call has the point `p`), `contains(p)` is
true and `at(p)` returns `v`. -/
theorem C2_round_trip_last_write (pre post : List (Point N α × E)) (p : Point N α) (v : E)
    (hlast : p ∉ post.map Prod.fst) :
    (run (insertCalls (pre ++ (p, v) :: post))).contains p = true ∧
      (run (insertCalls (pre ++ (p, v) :: post))).at p = some v := by
  have hat : (run (insertCalls (pre ++ (p, v) :: post))).at p = some v := by
    have hsplit : insertCalls (pre ++ (p, v) :: post) =
        (insertCalls pre ++ [Op.insert p v]) ++ insertCalls post := by
      simp [insertCalls]
    rw [hsplit]
    unfold run
    rw [KDTree.runFrom_append, KDTree.at_runFrom_insertCalls post _ p hlast,
      KDTree.runFrom_append]
    simp only [KDTree.runFrom, List.foldl_cons, List.foldl_nil, KDTree.step]
    rw [KDTree.insert_eq]
    exact atLoop_ins_same p v _ 0
  refine ⟨?_, hat⟩
  unfold KDTree.contains
  unfold KDTree.at at hat
  rw [containsLoop_eq_isSome, hat]
  rfl

/-- C3: on a reachable tree that stores the point `p`, `insert(p, v2)` creates no node,
leaves `size()` unchanged, yields the same tree except for the value field of the node
whose key is `p`, and afterwards `at(p)` returns `v2`. -/
theorem C3_overwrite_duplicate (ops : List (Op N α E)) (p : Point N α) (v2 : E)
    (hp : p ∈ (run ops).root.keys) :
    ((run ops).insert p v2).root.nodes.length = (run ops).root.nodes.length ∧
      ((run ops).insert p v2).size = (run ops).size ∧
      ((run ops).insert p v2).root = (run ops).root.setValue p v2 ∧
      ((run ops).insert p v2).at p = some v2 := by
  obtain ⟨hpart, hnd, -, -⟩ := wf_run ops
  have hc : containsLoop p (run ops).root = true := containsLoop_of_mem_keys p _ hpart hp
  rw [KDTree.insert_eq]
  refine ⟨(ins_of_containsLoop p v2 _ 0 hc).2, ?_, ins_eq_setValue p v2 _ 0 hpart hnd hp,
    atLoop_ins_same p v2 _ 0⟩
  simp [KDTree.size, KDTree.contains, hc]

/-- C4: on a reachable tree `contains(p)` is true exactly when some node of the tree has
the key `p`; for a point no call was made with it is false. (`contains` is a function of
the tree only: it has no effect on it.) -/
theorem C4_contains_exact (ops : List (Op N α E)) (p : Point N α) :
    ((run ops).contains p = true ↔
        ∃ v lv r l, NodePtr.node p v lv r l ∈ (run ops).root.nodes) ∧
      (p ∉ ops.map Op.point → (run ops).contains p = false) := by
  have hiff := containsLoop_iff_mem_keys p (run ops).root (wf_run ops).1
  refine ⟨?_, ?_⟩
  · unfold KDTree.contains
    rw [hiff, mem_keys_iff_nodes]
  · intro hnot
    have hk : p ∉ (run ops).root.keys := fun hm => hnot ((mem_keys_run ops p).mp hm)
    unfold KDTree.contains
    cases hc : containsLoop p (run ops).root with
    | false => rfl
    | true => exact absurd (hiff.mp hc) hk

/-- C5: on a reachable tree `at(p)` throws exactly when `contains(p)` is false, and
otherwise returns the value stored with the key `p`; on the empty tree it throws for every
point. (`at` is a function of the tree only: it has no effect on it.) -/
theorem C5_at_fails_exactly_on_absent (ops : List (Op N α E)) (p : Point N α) :
    ((run ops).at p = none ↔ (run ops).contains p = false) ∧
      (∀ v, (run ops).at p = some v ↔ (p, v) ∈ (run ops).root.entries) ∧
      (KDTree.mk0 : KDTree N α E).at p = none := by
  obtain ⟨hpart, hnd, -, -⟩ := wf_run ops
  refine ⟨?_, ?_, rfl⟩
  · unfold KDTree.contains KDTree.at
    rw [containsLoop_eq_isSome]
    cases atLoop p (run ops).root <;> simp
  · intro v
    exact ⟨mem_entries_of_atLoop p v _, atLoop_of_mem_entries p v _ hpart hnd⟩

/-- C6: on a reachable tree `insert(p, v)` with `p` not stored increases `size()` by
exactly one, and `size()` equals the number of nodes of the tree, which equals the number
of distinct points the calls so far were made with. -/
theorem C6_element_count (ops : List (Op N α E)) (p : Point N α) (v : E) :
    (p ∉ (run ops).root.keys → ((run ops).insert p v).size = (run ops).size + 1) ∧
      (run ops).size = (run ops).root.nodes.length ∧
      (run ops).root.nodes.length = (ops.map Op.point).dedup.length := by
  obtain ⟨hpart, hnd, hcount, -⟩ := wf_run ops
  refine ⟨?_, hcount, ?_⟩
  · intro hp
    have hc : containsLoop p (run ops).root = false := by
      cases hc : containsLoop p (run ops).root with
      | false => rfl
      | true => exact absurd (mem_keys_of_containsLoop p _ hc) hp
    rw [KDTree.insert_eq]
    simp [KDTree.size, KDTree.contains, hc]
  · rw [← length_keys]
    apply List.Perm.length_eq
    rw [List.perm_ext_iff_of_nodup hnd (List.nodup_dedup _)]
    intro a
    rw [mem_keys_run, List.mem_dedup]

end TreeClaims

/-- C1 at a node of the sample tree with a child on either side. -/
theorem C1_partition_invariant_witness :
    NodePtr.node ![5, 5] "d" 0 (.node ![8, 1] "" 1 .null .null)
        (.node ![3, 7] "b" 1 .null (.node ![3, 2] "c" 2 .null .null)) ∈
        (run sampleOps).root.nodes ∧
      ((∀ x ∈ (NodePtr.node ![3, 7] "b" 1 .null
            (.node ![3, 2] "c" 2 .null .null : NodePtr 2 Int String)).keys,
          x (axis 2 0) < (![5, 5] : Point 2 Int) (axis 2 0)) ∧
        (∀ x ∈ (NodePtr.node ![8, 1] "" 1 .null .null : NodePtr 2 Int String).keys,
          x (axis 2 0) ≥ (![5, 5] : Point 2 Int) (axis 2 0))) :=
  ⟨by decide, C1_partition_invariant sampleOps ![5, 5] "d" 0 (.node ![8, 1] "" 1 .null .null)
    (.node ![3, 7] "b" 1 .null (.node ![3, 2] "c" 2 .null .null)) (by decide)⟩

/-- C2 on the scenario with a fourth call that overwrites the first point. -/
theorem C2_round_trip_last_write_witness :
    (![0, 0] : Point 2 Int) ∉ [((![10, 11] : Point 2 Int), "blue")].map Prod.fst ∧
      (run (insertCalls ([(![0, 0], "red"), (![10, 10], "blue")] ++
          ((![0, 0] : Point 2 Int), "green") :: [(![10, 11], "blue")]))).contains ![0, 0]
        = true ∧
      (run (insertCalls ([(![0, 0], "red"), (![10, 10], "blue")] ++
          ((![0, 0] : Point 2 Int), "green") :: [(![10, 11], "blue")]))).at ![0, 0]
        = some "green" :=
  ⟨by decide, C2_round_trip_last_write _ _ _ _ (by decide)⟩

/-- C3 on the sample tree: the point (3, 7) is stored and gets a new value. -/
theorem C3_overwrite_duplicate_witness :
    (![3, 7] : Point 2 Int) ∈ (run sampleOps).root.keys ∧
      (((run sampleOps).insert ![3, 7] "z").root.nodes.length
          = (run sampleOps).root.nodes.length ∧
        ((run sampleOps).insert ![3, 7] "z").size = (run sampleOps).size ∧
        ((run sampleOps).insert ![3, 7] "z").root = (run sampleOps).root.setValue ![3, 7] "z" ∧
        ((run sampleOps).insert ![3, 7] "z").at ![3, 7] = some "z") :=
  ⟨by decide, C3_overwrite_duplicate sampleOps _ _ (by decide)⟩

end KD

namespace KD

/-! ## The majority resolver -/

section Resolver

variable {E : Type} [LinearOrder E]

theorem scan_invariant (s : List E) (rest pre : List E) (acc : E × Nat)
    (hs : (pre ++ rest).Pairwise (· ≤ ·))
    (hsub : ∀ x ∈ rest, x ∈ s)
    (hempty : pre = [] → acc.2 = 0)
    (hbest : pre ≠ [] → acc.1 ∈ pre ∧ acc.2 = s.count acc.1)
    (hmax : ∀ x ∈ pre, s.count x ≤ acc.2)
    (hmin : ∀ x ∈ pre, s.count x = acc.2 → acc.1 ≤ x) :
    (pre ++ rest ≠ [] →
        (rest.foldl (scanStep s) acc).1 ∈ pre ++ rest ∧
          (rest.foldl (scanStep s) acc).2 = s.count (rest.foldl (scanStep s) acc).1) ∧
      (∀ x ∈ pre ++ rest, s.count x ≤ (rest.foldl (scanStep s) acc).2) ∧
      (∀ x ∈ pre ++ rest, s.count x = (rest.foldl (scanStep s) acc).2 →
        (rest.foldl (scanStep s) acc).1 ≤ x) := by
  induction rest generalizing pre acc with
  | nil =>
    simp only [List.append_nil, List.foldl_nil]
    exact ⟨hbest, hmax, hmin⟩
  | cons x rest ih =>
    have hx : x ∈ s := hsub x (List.mem_cons_self _ _)
    have hpos : 0 < s.count x := List.count_pos_iff.mpr hx
    have happ : pre ++ x :: rest = (pre ++ [x]) ++ rest := by simp
    have hprex : ∀ a ∈ pre, a ≤ x := by
      intro a ha
      exact (List.pairwise_append.mp hs).2.2 a ha x (List.mem_cons_self _ _)
    rw [happ] at hs ⊢
    rw [List.foldl_cons]
    have hsub2 : ∀ y ∈ rest, y ∈ s := fun y hy => hsub y (List.mem_cons_of_mem _ hy)
    by_cases hgt : s.count x > acc.2
    · have hstep : scanStep s acc x = (x, s.count x) := by simp [scanStep, hgt]
      rw [hstep]
      apply ih (pre ++ [x]) (x, s.count x) hs hsub2
      · intro h; simp at h
      · intro _; exact ⟨by simp, rfl⟩
      · intro y hy
        rcases List.mem_append.mp hy with hy | hy
        · exact le_of_lt (lt_of_le_of_lt (hmax y hy) hgt)
        · simp only [List.mem_singleton] at hy
          rw [hy]
      · intro y hy hc
        rcases List.mem_append.mp hy with hy | hy
        · have := hmax y hy
          simp only at hc
          omega
        · simp only [List.mem_singleton] at hy
          rw [hy]
    · have hstep : scanStep s acc x = acc := by simp [scanStep, hgt]
      rw [hstep]
      have hne : pre ≠ [] := by
        intro h
        have := hempty h
        omega
      apply ih (pre ++ [x]) acc hs hsub2
      · intro h; simp at h
      · intro _; exact ⟨List.mem_append_left _ (hbest hne).1, (hbest hne).2⟩
      · intro y hy
        rcases List.mem_append.mp hy with hy | hy
        · exact hmax y hy
        · simp only [List.mem_singleton] at hy
          rw [hy]; omega
      · intro y hy hc
        rcases List.mem_append.mp hy with hy | hy
        · exact hmin y hy hc
        · simp only [List.mem_singleton] at hy
          rw [hy]; exact hprex _ (hbest hne).1

theorem mostCommon_sorted [DefaultInit E] (s : List E) (hs : s.Pairwise (· ≤ ·)) (hne : s ≠ []) :
    mostCommon s ∈ s ∧ (∀ w, s.count w ≤ s.count (mostCommon s)) ∧
      (∀ w ∈ s, s.count w = s.count (mostCommon s) → mostCommon s ≤ w) := by
  have h := scan_invariant s s [] (DefaultInit.value, 0) (by simpa using hs) (fun x hx => hx)
    (fun _ => rfl) (fun h => absurd rfl h) (by simp) (by simp)
  simp only [List.nil_append] at h
  obtain ⟨h1, h2, h3⟩ := h
  obtain ⟨h1a, h1b⟩ := h1 hne
  unfold mostCommon
  refine ⟨h1a, ?_, ?_⟩
  · intro w
    by_cases hw : w ∈ s
    · rw [← h1b]; exact h2 w hw
    · rw [List.count_eq_zero_of_not_mem hw]; exact Nat.zero_le _
  · intro w hw hc
    rw [← h1b] at hc
    exact h3 w hw hc

theorem drainLoop_eq {N : Nat} {α P : Type} (elems : List (P × NodePtr N α E)) (vals : List E)
    (h : elems.map (fun e => e.2.value?) = vals.map some) (acc : List E) :
    drainLoop elems acc = some (vals.foldl (fun a v => List.orderedInsert (· ≤ ·) v a) acc) := by
  induction elems generalizing vals acc with
  | nil =>
    cases vals with
    | nil => rfl
    | cons v vs => simp at h
  | cons e rest ih =>
    cases vals with
    | nil => simp at h
    | cons v vs =>
      simp only [List.map_cons, List.cons.injEq] at h
      simp only [drainLoop, h.1, List.foldl_cons]
      exact ih vs h.2 _

omit [LinearOrder E] in
theorem dequeueMin_eq_none_iff {N : Nat} {α P : Type} (q : BoundedPQueue (NodePtr N α E) P) :
    q.dequeueMin = none ↔ q.empty = true := by
  unfold BoundedPQueue.dequeueMin BoundedPQueue.empty
  cases q.elems <;> simp

theorem drainLoop_step {N : Nat} {α P : Type} (q q2 : BoundedPQueue (NodePtr N α E) P)
    (item : NodePtr N α E) (values : List E) (h : q.dequeueMin = some (item, q2)) :
    drainLoop q.elems values =
      item.value?.bind fun v => drainLoop q2.elems (List.orderedInsert (· ≤ ·) v values) := by
  unfold BoundedPQueue.dequeueMin at h
  cases he : q.elems with
  | nil => simp [he] at h
  | cons e rest =>
    simp only [he, Option.some.injEq, Prod.mk.injEq] at h
    obtain ⟨h1, h2⟩ := h
    subst h1 h2
    simp only [drainLoop]
    cases e.2.value? <;> rfl

theorem foldl_orderedInsert (vals acc : List E) (hacc : acc.Pairwise (· ≤ ·)) :
    (vals.foldl (fun a v => List.orderedInsert (· ≤ ·) v a) acc).Pairwise (· ≤ ·) ∧
      (vals.foldl (fun a v => List.orderedInsert (· ≤ ·) v a) acc).Perm (vals ++ acc) := by
  induction vals generalizing acc with
  | nil => exact ⟨hacc, List.Perm.refl _⟩
  | cons v vs ih =>
    have hsorted : (List.orderedInsert (· ≤ ·) v acc).Pairwise (· ≤ ·) :=
      List.Sorted.orderedInsert v acc hacc
    obtain ⟨h1, h2⟩ := ih (List.orderedInsert (· ≤ ·) v acc) hsorted
    refine ⟨h1, h2.trans ?_⟩
    refine (List.Perm.append_left vs (List.perm_orderedInsert (· ≤ ·) v acc)).trans ?_
    exact List.perm_middle

theorem findMostCommon_spec [DefaultInit E] {N : Nat} {α P : Type}
    (q : BoundedPQueue (NodePtr N α E) P) (vals : List E)
    (hvals : q.elems.map (fun e => e.2.value?) = vals.map some) (hne : vals ≠ []) :
    ∃ m, FindMostCommonValueInPQ q = some m ∧ m ∈ vals ∧
      (∀ w, vals.count w ≤ vals.count m) ∧
      (∀ w ∈ vals, vals.count w = vals.count m → m ≤ w) := by
  obtain ⟨hsorted, hperm⟩ := foldl_orderedInsert vals [] List.Pairwise.nil
  rw [List.append_nil] at hperm
  have hne2 : vals.foldl (fun a v => List.orderedInsert (· ≤ ·) v a) [] ≠ [] := by
    intro h
    rw [h] at hperm
    exact hne (List.Perm.nil_eq hperm).symm
  obtain ⟨h1, h2, h3⟩ := mostCommon_sorted _ hsorted hne2
  refine ⟨mostCommon (vals.foldl (fun a v => List.orderedInsert (· ≤ ·) v a) []), ?_, ?_, ?_, ?_⟩
  · simp [FindMostCommonValueInPQ, drainLoop_eq q.elems vals hvals]
  · exact hperm.mem_iff.mp h1
  · intro w
    rw [← hperm.count_eq, ← hperm.count_eq]
    exact h2 w
  · intro w hw hc
    rw [← hperm.count_eq, ← hperm.count_eq] at hc
    exact h3 w (hperm.mem_iff.mpr hw) hc

end Resolver

end KD

namespace KD

/-- C9: for a queue holding a non-empty bag of values, `FindMostCommonValueInPQ` returns
the smallest value among the values of maximal frequency in the bag; with the values
`a, a, b, b` in any order the result is `min a b`. -/
theorem C9_tie_break_smallest {E : Type} [LinearOrder E] [DefaultInit E] {N : Nat} {α P : Type}
    (q : BoundedPQueue (NodePtr N α E) P) (vals : List E)
    (hvals : q.elems.map (fun e => e.2.value?) = vals.map some) (hne : vals ≠ []) :
    (∃ m, FindMostCommonValueInPQ q = some m ∧ m ∈ vals ∧
        (∀ w, vals.count w ≤ vals.count m) ∧
        (∀ w ∈ vals, vals.count w = vals.count m → m ≤ w)) ∧
      (∀ a b, vals.Perm [a, a, b, b] → FindMostCommonValueInPQ q = some (min a b)) := by
  have hspec := findMostCommon_spec q vals hvals hne
  refine ⟨hspec, ?_⟩
  intro a b hperm
  obtain ⟨m, hm, hmem, hmax, hmin⟩ := hspec
  rw [hm]
  congr 1
  have hma : m ≤ a ∧ m ≤ b ∧ (m = a ∨ m = b) := by
    have hmem2 : m = a ∨ m = b := by
      have := hperm.mem_iff.mp hmem
      simp only [List.mem_cons, List.mem_singleton, List.not_mem_nil, or_false] at this
      tauto
    have ha : a ∈ vals := hperm.mem_iff.mpr (by simp)
    have hb : b ∈ vals := hperm.mem_iff.mpr (by simp)
    by_cases hab : a = b
    · subst hab
      have : m = a := by tauto
      subst this
      exact ⟨le_refl _, le_refl _, Or.inl rfl⟩
    · have hba : ¬ b = a := fun h => hab h.symm
      have hca : vals.count a = 2 := by
        rw [hperm.count_eq]; simp [List.count_cons, hab, hba]
      have hcb : vals.count b = 2 := by
        rw [hperm.count_eq]; simp [List.count_cons, hab, hba]
      have hcm : vals.count m = 2 := by
        rcases hmem2 with h | h <;> rw [h] <;> assumption
      exact ⟨hmin a ha (by omega), hmin b hb (by omega), hmem2⟩
  obtain ⟨h1, h2, h3⟩ := hma
  rcases h3 with h | h
  · subst h; exact (min_eq_left h2).symm
  · subst h; exact (min_eq_right h1).symm

/-- C9 on the queue of the tie scenario: it holds "B", "A", "B", "A", and the resolved
value is the smaller of "A" and "B". -/
theorem C9_tie_break_smallest_witness :
    tieQueue.elems.map (fun e => e.2.value?) = ["B", "A", "B", "A"].map some ∧
      ["B", "A", "B", "A"] ≠ [] ∧
      FindMostCommonValueInPQ tieQueue = some (min "A" "B") :=
  ⟨by decide, by decide,
    (C9_tie_break_smallest tieQueue ["B", "A", "B", "A"] (by decide) (by decide)).2 "A" "B"
      (by decide)⟩

end KD

namespace KD

/-! ## The bounded queue keeps the entries of lowest priority -/

namespace BoundedPQueue

section Queue

variable {T P : Type} [LinearOrder P]

theorem insertSorted_perm (p : P) (x : T) (l : List (P × T)) :
    (insertSorted p x l).Perm ((p, x) :: l) := by
  induction l with
  | nil => exact List.Perm.refl _
  | cons e rest ih =>
    simp only [insertSorted]
    split
    · exact List.Perm.refl _
    · exact (List.Perm.cons e ih).trans (List.Perm.swap _ _ _)

theorem insertSorted_pairwise (p : P) (x : T) (l : List (P × T))
    (h : l.Pairwise (fun a b => a.1 ≤ b.1)) :
    (insertSorted p x l).Pairwise (fun a b => a.1 ≤ b.1) := by
  induction l with
  | nil => simp [insertSorted]
  | cons e rest ih =>
    simp only [insertSorted]
    obtain ⟨h1, h2⟩ := List.pairwise_cons.mp h
    split
    · rename_i hlt
      refine List.pairwise_cons.mpr ⟨?_, h⟩
      intro b hb
      rcases List.mem_cons.mp hb with hb | hb
      · rw [hb]; exact le_of_lt hlt
      · exact le_trans (le_of_lt hlt) (h1 b hb)
    · rename_i hnlt
      refine List.pairwise_cons.mpr ⟨?_, ih h2⟩
      intro b hb
      rcases List.mem_cons.mp ((insertSorted_perm p x rest).mem_iff.mp hb) with hb | hb
      · rw [hb]; exact not_lt.mp hnlt
      · exact h1 b hb

omit [LinearOrder P] in
theorem worst_eq_some (q : BoundedPQueue T P) (h : q.elems ≠ []) :
    ∃ e, q.elems = q.elems.dropLast ++ [e] ∧ q.worst = some e.1 := by
  refine ⟨q.elems.getLast h, (List.dropLast_append_getLast h).symm, ?_⟩
  simp [worst, List.getLast?_eq_getLast _ h]

theorem maximumSize_enqueue (q : BoundedPQueue T P) (x : T) (p : P) :
    (q.enqueue x p).maximumSize = q.maximumSize := by
  unfold enqueue
  split
  · rfl
  · split
    · rfl
    · split <;> rfl

theorem enqueue_discard (q : BoundedPQueue T P) (x : T) (p : P)
    (hfull : q.size = q.maxSize) (hw : ∀ w, q.worst = some w → w ≤ p) :
    q.enqueue x p = q := by
  unfold enqueue
  rw [if_neg (by omega)]
  split
  · rfl
  · rename_i w hworst
    rw [if_neg (not_lt.mpr (hw w hworst))]

theorem retains_new (f : T → P) (K : Nat) : Retains f K [] (new K : BoundedPQueue T P) := by
  refine ⟨rfl, List.Pairwise.nil, ?_, ?_, [], ?_, ?_⟩ <;> simp [new]

theorem retains_enqueue (f : T → P) (K : Nat) (seen : List T) (q : BoundedPQueue T P)
    (h : Retains f K seen q) (x : T) : Retains f K (seen ++ [x]) (q.enqueue x (f x)) := by
  obtain ⟨hK, hsorted, hprio, hlen, dropped, hperm, hdrop⟩ := h
  have hlenperm : seen.length = q.elems.length + dropped.length := by
    rw [hperm.length_eq]; simp
  unfold enqueue
  by_cases hsz : q.size < q.maxSize
  · rw [if_pos hsz]
    simp only [size, maxSize, hK] at hsz
    have hd : dropped = [] := by
      apply List.eq_nil_of_length_eq_zero
      have : q.elems.length = seen.length := by
        rw [hlen] at hsz ⊢
        omega
      omega
    subst hd
    refine ⟨hK, insertSorted_pairwise _ _ _ hsorted, ?_, ?_, [], ?_, ?_⟩
    · intro e he
      rcases List.mem_cons.mp ((insertSorted_perm _ _ _).mem_iff.mp he) with he | he
      · rw [he]
      · exact hprio e he
    · rw [(insertSorted_perm _ _ _).length_eq]
      simp only [List.length_cons, List.length_append, List.length_singleton]
      omega
    · simp only [List.append_nil] at hperm ⊢
      refine (List.Perm.append_right [x] hperm).trans ?_
      refine List.Perm.trans ?_ ((insertSorted_perm (f x) x q.elems).map Prod.snd).symm
      simp only [List.map_cons]
      exact (List.perm_append_singleton _ _)
    · intro y hy; simp at hy
  · rw [if_neg hsz]
    simp only [size, maxSize, hK] at hsz
    have hfull : q.elems.length = K := by
      rw [hlen] at hsz ⊢
      omega
    by_cases hempty : q.elems = []
    · have hw : q.worst = none := by simp [worst, hempty]
      rw [hw]
      refine ⟨hK, hsorted, hprio, ?_, dropped ++ [x], ?_, ?_⟩
      · rw [hempty] at hfull
        simp only [List.length_nil] at hfull
        rw [hempty, ← hfull]; simp
      · rw [← List.append_assoc]
        exact List.Perm.append_right [x] hperm
      · intro y _ e he
        rw [hempty] at he
        simp at he
    · obtain ⟨last, hsplit, hw⟩ := worst_eq_some q hempty
      rw [hw]
      have hlast_mem : last ∈ q.elems := by rw [hsplit]; simp
      have hle_last : ∀ e ∈ q.elems, e.1 ≤ last.1 := by
        intro e he
        rw [hsplit] at he hsorted
        rcases List.mem_append.mp he with he | he
        · exact (List.pairwise_append.mp hsorted).2.2 e he last (by simp)
        · simp only [List.mem_singleton] at he
          rw [he]
      have hdl_sub : ∀ e ∈ q.elems.dropLast, e ∈ q.elems := by
        intro e he
        rw [hsplit]
        exact List.mem_append_left _ he
      have hdl_len : q.elems.dropLast.length + 1 = K := by
        rw [List.length_dropLast]
        have : 0 < q.elems.length := List.length_pos.mpr hempty
        omega
      by_cases hlt : f x < last.1
      · simp only [hlt, if_true]
        refine ⟨hK, insertSorted_pairwise _ _ _ ?_, ?_, ?_, last.2 :: dropped, ?_, ?_⟩
        · rw [hsplit] at hsorted
          exact (List.pairwise_append.mp hsorted).1
        · intro e he
          rcases List.mem_cons.mp ((insertSorted_perm _ _ _).mem_iff.mp he) with he | he
          · rw [he]
          · exact hprio e (hdl_sub e he)
        · rw [(insertSorted_perm _ _ _).length_eq]
          simp only [List.length_cons, List.length_append, List.length_singleton]
          omega
        · refine (List.Perm.append_right [x] hperm).trans ?_
          refine List.Perm.trans ?_
            (List.Perm.append_right _
              ((insertSorted_perm (f x) x q.elems.dropLast).map Prod.snd).symm)
          conv_lhs => rw [hsplit]
          simp only [List.map_append, List.map_cons, List.map_nil, List.append_assoc,
            List.singleton_append, List.cons_append]
          have hre : List.map Prod.snd q.elems.dropLast ++ last.2 :: ([] ++ (dropped ++ [x])) =
              (List.map Prod.snd q.elems.dropLast ++ last.2 :: dropped) ++ [x] := by simp
          rw [hre]
          exact List.perm_append_singleton _ _
        · intro y hy e he
          have he2 := List.mem_cons.mp ((insertSorted_perm _ _ _).mem_iff.mp he)
          rcases List.mem_cons.mp hy with hy | hy
          · rw [hy, ← hprio last hlast_mem]
            rcases he2 with he2 | he2
            · rw [he2]; exact le_of_lt hlt
            · exact hle_last e (hdl_sub e he2)
          · rcases he2 with he2 | he2
            · rw [he2]; exact le_trans (le_of_lt hlt) (hdrop y hy last hlast_mem)
            · exact hdrop y hy e (hdl_sub e he2)
      · simp only [hlt, if_false]
        refine ⟨hK, hsorted, hprio, ?_, dropped ++ [x], ?_, ?_⟩
        · rw [hfull]; simp only [List.length_append, List.length_singleton]; omega
        · rw [← List.append_assoc]
          exact List.Perm.append_right [x] hperm
        · intro y hy e he
          rcases List.mem_append.mp hy with hy | hy
          · exact hdrop y hy e he
          · simp only [List.mem_singleton] at hy
            rw [hy]
            exact le_trans (hle_last e he) (not_lt.mp hlt)

theorem retains_enqueueAll (f : T → P) (K : Nat) (xs seen : List T) (q : BoundedPQueue T P)
    (h : Retains f K seen q) : Retains f K (seen ++ xs) (q.enqueueAll f xs) := by
  induction xs generalizing seen q with
  | nil => simpa [enqueueAll] using h
  | cons x rest ih =>
    have := ih (seen ++ [x]) (q.enqueue x (f x)) (retains_enqueue f K seen q h x)
    simpa [enqueueAll] using this

omit [LinearOrder P] in
theorem retains_perm {P : Type} [LinearOrder P] (f : T → P) (K : Nat) (seen seen2 : List T)
    (q : BoundedPQueue T P) (hp : seen.Perm seen2) (h : Retains f K seen q) :
    Retains f K seen2 q := by
  obtain ⟨hK, hsorted, hprio, hlen, dropped, hperm, hdrop⟩ := h
  exact ⟨hK, hsorted, hprio, by rw [hlen, hp.length_eq], dropped, hp.symm.trans hperm, hdrop⟩

end Queue

end BoundedPQueue

end KD

namespace KD

/-! ## The pruning traversal against the exhaustive one -/

section Pruning

variable {N : Nat} [NeZero N] {α E : Type} [LinearOrderedCommRing α]

omit [NeZero N] in
theorem Root.le_iff (a b : Root α) : a ≤ b ↔ a.sq ≤ b.sq := Iff.rfl

omit [NeZero N] in
theorem Root.lt_iff (a b : Root α) : a < b ↔ a.sq < b.sq := Iff.rfl

omit [NeZero N] in
theorem coordinate_le_distance (x key : Point N α) (i : Fin N) :
    (x i - key i) * (x i - key i) ≤ (Distance x key).sq := by
  unfold Distance
  exact Finset.single_le_sum (f := fun j => (x j - key j) * (x j - key j))
    (fun j _ => mul_self_nonneg _) (Finset.mem_univ i)

theorem maximumSize_exhaustive (key : Point N α) (t : NodePtr N α E)
    (q : BoundedPQueue (NodePtr N α E) (Root α)) :
    (KNNValueExhaustive key t q).maximumSize = q.maximumSize := by
  induction t generalizing q with
  | null => rfl
  | node k v lv r l ihr ihl =>
    simp only [KNNValueExhaustive]
    split
    · rw [ihr, ihl, BoundedPQueue.maximumSize_enqueue]
    · rw [ihl, ihr, BoundedPQueue.maximumSize_enqueue]

theorem exhaustive_noop (key : Point N α) (t : NodePtr N α E)
    (q : BoundedPQueue (NodePtr N α E) (Root α)) (hfull : q.size = q.maxSize)
    (hfar : ∀ w, q.worst = some w → ∀ x ∈ t.keys, w ≤ Distance x key) :
    KNNValueExhaustive key t q = q := by
  induction t with
  | null => rfl
  | node k v lv r l ihr ihl =>
    have hq : q.enqueue (.node k v lv r l) (Distance k key) = q :=
      BoundedPQueue.enqueue_discard q _ _ hfull
        (fun w hw => hfar w hw k (by simp [NodePtr.keys]))
    have hl : KNNValueExhaustive key l q = q :=
      ihl (fun w hw x hx => hfar w hw x (by simp [NodePtr.keys, hx]))
    have hr : KNNValueExhaustive key r q = q :=
      ihr (fun w hw x hx => hfar w hw x (by simp [NodePtr.keys, hx]))
    simp only [KNNValueExhaustive, hq]
    split
    · rw [hl, hr]
    · rw [hr, hl]

theorem recurse_eq_exhaustive (key : Point N α) (t : NodePtr N α E) (hp : Partitioned t)
    (q : BoundedPQueue (NodePtr N α E) (Root α)) (hK : 1 ≤ q.maximumSize) :
    KNNValueRecurse key t q = some (KNNValueExhaustive key t q) := by
  induction t generalizing q with
  | null => rfl
  | node k v lv r l ihr ihl =>
    obtain ⟨hl, hr, hpr, hpl⟩ := hp
    have hK1 : 1 ≤ (q.enqueue (.node k v lv r l) (Distance k key)).maximumSize := by
      rw [BoundedPQueue.maximumSize_enqueue]; exact hK
    simp only [KNNValueRecurse, KNNValueExhaustive]
    by_cases hlt : key (axis N lv) < k (axis N lv)
    · simp only [hlt, if_true]
      rw [ihl hpl _ hK1]
      simp only [Option.some_bind]
      generalize hq2 : KNNValueExhaustive key l
        (q.enqueue (.node k v lv r l) (Distance k key)) = q2
      have hK2 : 1 ≤ q2.maximumSize := by
        rw [← hq2, maximumSize_exhaustive]; exact hK1
      unfold crossesPlane
      by_cases hsz : q2.size ≠ q2.maxSize
      · simp only [hsz, if_true, ne_eq, not_false_eq_true, Option.some_bind]
        exact ihr hpr q2 hK2
      · have hfull : q2.size = q2.maxSize := not_not.mp hsz
        have hne : q2.elems ≠ [] := by
          intro h
          simp [BoundedPQueue.size, BoundedPQueue.maxSize, h] at hfull
          omega
        obtain ⟨last, -, hw⟩ := BoundedPQueue.worst_eq_some q2 hne
        simp only [hsz, if_false, hw, Option.map_some', Option.some_bind]
        by_cases hgo : fabsLt (k (axis N lv) - key (axis N lv)) last.1 = true
        · simp only [hgo, if_true]
          exact ihr hpr q2 hK2
        · simp only [hgo]
          rw [exhaustive_noop key r q2 hfull]
          · rfl
          · intro w hw2 x hx
            rw [hw] at hw2
            cases hw2
            simp only [fabsLt, decide_eq_true_eq, not_lt] at hgo
            rw [Root.le_iff]
            refine le_trans hgo (le_trans ?_ (coordinate_le_distance x key (axis N lv)))
            have h1 := hr x hx
            apply mul_self_le_mul_self
            · exact le_of_lt (sub_pos.mpr hlt)
            · exact sub_le_sub_right h1 _
    · simp only [hlt, if_false]
      rw [ihr hpr _ hK1]
      simp only [Option.some_bind]
      generalize hq2 : KNNValueExhaustive key r
        (q.enqueue (.node k v lv r l) (Distance k key)) = q2
      have hK2 : 1 ≤ q2.maximumSize := by
        rw [← hq2, maximumSize_exhaustive]; exact hK1
      unfold crossesPlane
      by_cases hsz : q2.size ≠ q2.maxSize
      · simp only [hsz, if_true, ne_eq, not_false_eq_true, Option.some_bind]
        exact ihl hpl q2 hK2
      · have hfull : q2.size = q2.maxSize := not_not.mp hsz
        have hne : q2.elems ≠ [] := by
          intro h
          simp [BoundedPQueue.size, BoundedPQueue.maxSize, h] at hfull
          omega
        obtain ⟨last, -, hw⟩ := BoundedPQueue.worst_eq_some q2 hne
        simp only [hsz, if_false, hw, Option.map_some', Option.some_bind]
        by_cases hgo : fabsLt (k (axis N lv) - key (axis N lv)) last.1 = true
        · simp only [hgo, if_true]
          exact ihl hpl q2 hK2
        · simp only [hgo]
          rw [exhaustive_noop key l q2 hfull]
          · rfl
          · intro w hw2 x hx
            rw [hw] at hw2
            cases hw2
            simp only [fabsLt, decide_eq_true_eq, not_lt] at hgo
            rw [Root.le_iff]
            refine le_trans hgo (le_trans ?_ (coordinate_le_distance x key (axis N lv)))
            have h1 := hl x hx
            have h2 := not_lt.mp hlt
            have e1 : (k (axis N lv) - key (axis N lv)) * (k (axis N lv) - key (axis N lv)) =
                (key (axis N lv) - k (axis N lv)) * (key (axis N lv) - k (axis N lv)) := by
              ring
            have e2 : (x (axis N lv) - key (axis N lv)) * (x (axis N lv) - key (axis N lv)) =
                (key (axis N lv) - x (axis N lv)) * (key (axis N lv) - x (axis N lv)) := by
              ring
            rw [e1, e2]
            apply mul_self_le_mul_self
            · exact sub_nonneg.mpr h2
            · exact sub_le_sub_left (le_of_lt h1) _

end Pruning

end KD

namespace KD

/-! ## The nearest entries are determined by the distances -/

theorem nearest_unique_multiset {T P : Type} [DecidableEq T] [LinearOrder P] (f : T → P)
    (r d s t : Multiset T) (hm : r + d = s + t) (hlen : Multiset.card r = Multiset.card s)
    (hR : ∀ e ∈ r, ∀ y ∈ d, f e ≤ f y) (hS : ∀ x ∈ s, ∀ y ∈ t, f x < f y) :
    r = s := by
  have hcard : Multiset.card (s - r) = Multiset.card (r - s) := by
    have e1 := congrArg Multiset.card (Multiset.sub_add_inter s r)
    have e2 := congrArg Multiset.card (Multiset.sub_add_inter r s)
    rw [Multiset.card_add] at e1 e2
    rw [Multiset.inter_comm] at e2
    omega
  have hzero : s - r = 0 := by
    by_contra hne
    obtain ⟨x, hx⟩ := Multiset.exists_mem_of_ne_zero hne
    have hne2 : r - s ≠ 0 := by
      intro h
      rw [h] at hcard
      exact hne (Multiset.card_eq_zero.mp hcard)
    obtain ⟨y, hy⟩ := Multiset.exists_mem_of_ne_zero hne2
    have hxS : x ∈ s := Multiset.mem_of_le tsub_le_self hx
    have hyR : y ∈ r := Multiset.mem_of_le tsub_le_self hy
    have hxD : x ∈ d := by
      have hle : s - r ≤ d := by
        calc s - r ≤ (s + t) - r := tsub_le_tsub_right (Multiset.le_add_right _ _) _
          _ = (r + d) - r := by rw [hm]
          _ = d := add_tsub_cancel_left _ _
      exact Multiset.mem_of_le hle hx
    have hyrest : y ∈ t := by
      have hle : r - s ≤ t := by
        calc r - s ≤ (r + d) - s := tsub_le_tsub_right (Multiset.le_add_right _ _) _
          _ = (s + t) - s := by rw [hm]
          _ = t := add_tsub_cancel_left _ _
      exact Multiset.mem_of_le hle hy
    exact absurd (hS x hxS y hyrest) (not_lt.mpr (hR y hyR x hxD))
  have hle : s ≤ r := tsub_eq_zero_iff_le.mp hzero
  exact (Multiset.eq_of_le_of_card_le hle (le_of_eq hlen)).symm

theorem nearest_unique {T P : Type} [DecidableEq T] [LinearOrder P] (f : T → P)
    (R D S rest : List T) (h1 : (R ++ D).Perm (S ++ rest)) (hlen : R.length = S.length)
    (hR : ∀ e ∈ R, ∀ y ∈ D, f e ≤ f y) (hS : ∀ x ∈ S, ∀ y ∈ rest, f x < f y) :
    R.Perm S := by
  apply Multiset.coe_eq_coe.mp
  apply nearest_unique_multiset f (↑R) (↑D) (↑S) (↑rest)
  · simpa using Multiset.coe_eq_coe.mpr h1
  · simpa using hlen
  · simpa using hR
  · simpa using hS

end KD

namespace KD

/-! ## What the traversal leaves in the queue -/

section Traversal

variable {N : Nat} [NeZero N] {α E : Type} [LinearOrderedCommRing α]

omit [NeZero N] [LinearOrderedCommRing α] in
theorem BoundedPQueue.enqueueAll_append {T P : Type} [LinearOrder P] (f : T → P)
    (q : BoundedPQueue T P) (a b : List T) :
    q.enqueueAll f (a ++ b) = (q.enqueueAll f a).enqueueAll f b := by
  simp [BoundedPQueue.enqueueAll, List.foldl_append]

theorem exhaustive_eq_enqueueAll (key : Point N α) (t : NodePtr N α E)
    (q : BoundedPQueue (NodePtr N α E) (Root α)) :
    KNNValueExhaustive key t q = q.enqueueAll (NodePtr.dist key) (visitOrder key t) := by
  induction t generalizing q with
  | null => rfl
  | node k v lv r l ihr ihl =>
    simp only [KNNValueExhaustive, visitOrder]
    split
    · rw [ihr, ihl, ← BoundedPQueue.enqueueAll_append]
      simp [BoundedPQueue.enqueueAll, NodePtr.dist]
    · rw [ihl, ihr, ← BoundedPQueue.enqueueAll_append]
      simp [BoundedPQueue.enqueueAll, NodePtr.dist]

theorem visitOrder_perm (key : Point N α) (t : NodePtr N α E) :
    (visitOrder key t).Perm t.nodes := by
  induction t with
  | null => exact List.Perm.refl _
  | node k v lv r l ihr ihl =>
    simp only [visitOrder, NodePtr.nodes]
    split
    · exact List.Perm.cons _ (List.Perm.append ihl ihr)
    · exact List.Perm.cons _ ((List.Perm.append ihr ihl).trans List.perm_append_comm)

theorem retains_exhaustive (key : Point N α) (t : NodePtr N α E) (k : Nat) :
    BoundedPQueue.Retains (NodePtr.dist key) k t.nodes
      (KNNValueExhaustive key t (BoundedPQueue.new k)) := by
  rw [exhaustive_eq_enqueueAll]
  have h := BoundedPQueue.retains_enqueueAll (NodePtr.dist key) k (visitOrder key t) []
    (BoundedPQueue.new k) (BoundedPQueue.retains_new _ k)
  rw [List.nil_append] at h
  exact BoundedPQueue.retains_perm _ k _ _ _ (visitOrder_perm key t) h

omit [NeZero N] [LinearOrderedCommRing α] in
theorem value?_of_mem_nodes (t n : NodePtr N α E) (h : n ∈ t.nodes) :
    ∃ v, n.value? = some v := by
  induction t with
  | null => simp [NodePtr.nodes] at h
  | node k v lv r l ihr ihl =>
    simp only [NodePtr.nodes, List.mem_cons, List.mem_append] at h
    rcases h with h | h | h
    · exact ⟨v, by rw [h]; rfl⟩
    · exact ihl h
    · exact ihr h

omit [NeZero N] [LinearOrderedCommRing α] in
theorem map_value?_eq (L : List (NodePtr N α E)) (h : ∀ n ∈ L, ∃ v, n.value? = some v) :
    L.map NodePtr.value? = (L.filterMap NodePtr.value?).map some := by
  induction L with
  | nil => rfl
  | cons n rest ih =>
    obtain ⟨v, hv⟩ := h n (List.mem_cons_self _ _)
    have := ih (fun m hm => h m (List.mem_cons_of_mem _ hm))
    simp [List.filterMap_cons, hv, this]

theorem kNN_of_nearest [LinearOrder E] [DefaultInit E] (t : KDTree N α E) (hp : Partitioned t.root)
    (key : Point N α) (k : Nat) (S rest : List (NodePtr N α E)) (hk : 1 ≤ k)
    (hS : S.length = k) (hsplit : (S ++ rest).Perm t.root.nodes)
    (hnear : ∀ x ∈ S, ∀ y ∈ rest, x.dist key < y.dist key) :
    ∃ m, t.kNNValue key k = some m ∧ m ∈ S.filterMap NodePtr.value? ∧
      (∀ w, (S.filterMap NodePtr.value?).count w ≤ (S.filterMap NodePtr.value?).count m) ∧
      (∀ w ∈ S.filterMap NodePtr.value?,
        (S.filterMap NodePtr.value?).count w = (S.filterMap NodePtr.value?).count m → m ≤ w) := by
  classical
  have hrec : KNNValueRecurse key t.root (BoundedPQueue.new k) =
      some (KNNValueExhaustive key t.root (BoundedPQueue.new k)) :=
    recurse_eq_exhaustive key t.root hp _ hk
  obtain ⟨-, -, hprio, hlen, dropped, hperm, hdrop⟩ := retains_exhaustive key t.root k
  generalize KNNValueExhaustive key t.root (BoundedPQueue.new k) = q at hrec hprio hlen hperm hdrop
  have hlenS : S.length ≤ t.root.nodes.length := by
    rw [← hsplit.length_eq]; simp
  have hRS : (q.elems.map Prod.snd).Perm S := by
    apply nearest_unique (NodePtr.dist key) _ dropped S rest (hperm.symm.trans hsplit.symm)
    · rw [List.length_map, hlen, hS]
      omega
    · intro e he y hy
      obtain ⟨e', he', rfl⟩ := List.mem_map.mp he
      rw [← hprio e' he']
      exact hdrop y hy e' he'
    · exact hnear
  have hnonnull : ∀ n ∈ q.elems.map Prod.snd, ∃ v, n.value? = some v := by
    intro n hn
    apply value?_of_mem_nodes t.root n
    exact hperm.symm.mem_iff.mp (List.mem_append_left _ hn)
  have hvals : q.elems.map (fun e => e.2.value?) =
      ((q.elems.map Prod.snd).filterMap NodePtr.value?).map some := by
    rw [← map_value?_eq _ hnonnull, List.map_map]
    rfl
  have hpermv : ((q.elems.map Prod.snd).filterMap NodePtr.value?).Perm
      (S.filterMap NodePtr.value?) := hRS.filterMap _
  have hne : (q.elems.map Prod.snd).filterMap NodePtr.value? ≠ [] := by
    intro h
    have h2 := congrArg List.length (map_value?_eq _ hnonnull)
    rw [h] at h2
    simp only [List.length_map, List.map_nil, List.length_nil] at h2
    have h3 := hRS.length_eq
    simp only [List.length_map] at h3
    omega
  obtain ⟨m, hm, hmem, hmax, hmin⟩ := findMostCommon_spec q _ hvals hne
  refine ⟨m, ?_, hpermv.mem_iff.mp hmem, ?_, ?_⟩
  · simp [KDTree.kNNValue, hrec, hm]
  · intro w
    rw [← hpermv.count_eq, ← hpermv.count_eq]
    exact hmax w
  · intro w hw hc
    rw [← hpermv.count_eq, ← hpermv.count_eq] at hc
    exact hmin w (hpermv.mem_iff.mpr hw) hc

end Traversal

end KD

namespace KD

/-! ## Claims on the nearest-neighbour query -/

section QueryClaims

variable {N : Nat} [NeZero N] {α E : Type} [LinearOrderedCommRing α]

omit [NeZero N] [LinearOrderedCommRing α] in
theorem nodes_map_key? (t : NodePtr N α E) : t.nodes.map NodePtr.key? = t.keys.map some := by
  induction t with
  | null => rfl
  | node k v lv r l ihr ihl => simp [NodePtr.nodes, NodePtr.keys, NodePtr.key?, ihr, ihl]

omit [NeZero N] [LinearOrderedCommRing α] in
theorem mem_entries_of_mem_nodes (t : NodePtr N α E) (p : Point N α) (v : E) (lv : Nat)
    (r l : NodePtr N α E) (h : NodePtr.node p v lv r l ∈ t.nodes) : (p, v) ∈ t.entries := by
  induction t with
  | null => simp [NodePtr.nodes] at h
  | node k w lv' r' l' ihr ihl =>
    simp only [NodePtr.nodes, List.mem_cons, List.mem_append, NodePtr.node.injEq] at h
    simp only [NodePtr.entries, List.mem_cons, List.mem_append, Prod.mk.injEq]
    rcases h with h | h | h
    · exact Or.inl ⟨h.1, h.2.1⟩
    · exact Or.inr (Or.inl (ihl h))
    · exact Or.inr (Or.inr (ihr h))

omit [NeZero N] in
theorem distance_self (p : Point N α) : Distance p p = ⟨0⟩ := by
  simp [Distance]

omit [NeZero N] in
theorem distance_pos (k p : Point N α) (h : k ≠ p) : (⟨0⟩ : Root α) < Distance k p := by
  obtain ⟨i, hi⟩ := Function.ne_iff.mp h
  rw [Root.lt_iff]
  refine lt_of_lt_of_le ?_ (coordinate_le_distance k p i)
  exact mul_self_pos.mpr (sub_ne_zero.mpr hi)

variable [LinearOrder E] [Inhabited E] [DefaultInit E]

/-- C7: on a reachable tree, for `1 ≤ k` and a set `S` of `k` nodes that are all strictly
nearer to the query than every other node of the tree (so `S` is the unambiguous set of the
`k` nearest stored keys, `rest` being empty when `k = size()`), `kNNValue(q, k)` returns a
value stored in `S` whose frequency among the values of `S` is maximal. -/
theorem C7_kNN_majority_vote (ops : List (Op N α E)) (key : Point N α) (k : Nat)
    (S rest : List (NodePtr N α E)) (hk : 1 ≤ k) (hS : S.length = k)
    (hsplit : (S ++ rest).Perm (run ops).root.nodes)
    (hnear : ∀ x ∈ S, ∀ y ∈ rest, x.dist key < y.dist key) :
    ∃ m, (run ops).kNNValue key k = some m ∧ m ∈ S.filterMap NodePtr.value? ∧
      ∀ w, (S.filterMap NodePtr.value?).count w ≤ (S.filterMap NodePtr.value?).count m := by
  obtain ⟨m, h1, h2, h3, -⟩ :=
    kNN_of_nearest (run ops) (wf_run ops).1 key k S rest hk hS hsplit hnear
  exact ⟨m, h1, h2, h3⟩

/-- C8: on a reachable tree and for `k ≥ 1`, the traversal `KNNValueRecurse` with the
pruning test leaves the queue in the state the exhaustive traversal (both children always
explored, near one first) leaves it in, and `kNNValue` returns the same value either way. -/
theorem C8_pruning_correct (ops : List (Op N α E)) (key : Point N α) (k : Nat) (hk : 1 ≤ k) :
    KNNValueRecurse key (run ops).root (BoundedPQueue.new k) =
        some (KNNValueExhaustive key (run ops).root (BoundedPQueue.new k)) ∧
      (run ops).kNNValue key k = (run ops).kNNValueExhaustive key k := by
  have h := recurse_eq_exhaustive key (run ops).root (wf_run ops).1 (BoundedPQueue.new k) hk
  refine ⟨h, ?_⟩
  simp [KDTree.kNNValue, KDTree.kNNValueExhaustive, h]

/-- C10: on a reachable tree that stores the point `p`, `kNNValue(p, 1)` returns the value
stored with `p`, the value `at(p)` returns. -/
theorem C10_kNN_exact_k1 (ops : List (Op N α E)) (p : Point N α)
    (hp : p ∈ (run ops).root.keys) :
    (run ops).kNNValue p 1 = (run ops).at p ∧ ((run ops).at p).isSome = true := by
  classical
  obtain ⟨hpart, hnd, -, -⟩ := wf_run ops
  obtain ⟨v, lv, r, l, hn⟩ := (mem_keys_iff_nodes p _).mp hp
  have hat : (run ops).at p = some v :=
    atLoop_of_mem_entries p v _ hpart hnd (mem_entries_of_mem_nodes _ p v lv r l hn)
  have hkeys : ((run ops).root.nodes.map NodePtr.key?).Nodup := by
    rw [nodes_map_key?]
    exact hnd.map (Option.some_injective _)
  have hnodes : (run ops).root.nodes.Nodup := List.Nodup.of_map _ hkeys
  have hnear : ∀ x ∈ [NodePtr.node p v lv r l],
      ∀ y ∈ (run ops).root.nodes.erase (.node p v lv r l), x.dist p < y.dist p := by
    intro x hx y hy
    simp only [List.mem_singleton] at hx
    subst hx
    obtain ⟨hne, hy2⟩ := (List.Nodup.mem_erase_iff hnodes).mp hy
    cases y with
    | null =>
      obtain ⟨w, hw⟩ := value?_of_mem_nodes _ _ hy2
      simp [NodePtr.value?] at hw
    | node k' v' lv' r' l' =>
      simp only [NodePtr.dist, distance_self]
      apply distance_pos
      intro hk'
      apply hne
      apply List.inj_on_of_nodup_map hkeys hy2 hn
      simp [NodePtr.key?, hk']
  obtain ⟨m, h1, h2, -, -⟩ := kNN_of_nearest (run ops) hpart p 1 [.node p v lv r l]
    ((run ops).root.nodes.erase (.node p v lv r l)) (le_refl 1) rfl
    (List.perm_cons_erase hn).symm hnear
  simp only [List.filterMap_cons, NodePtr.value?, List.filterMap_nil, List.mem_singleton] at h2
  rw [h1, hat, h2]
  exact ⟨rfl, rfl⟩

end QueryClaims

/-- C7 on the scenario: for the query (9, 9) and k = 2 the two nearest nodes are the two
"blue" ones, and `kNNValue` returns "blue". -/
theorem C7_kNN_majority_vote_witness :
    1 ≤ 2 ∧ scenarioNearest.length = 2 ∧
      (scenarioNearest ++ scenarioRest).Perm (run (insertCalls scenarioCalls)).root.nodes ∧
      (∀ x ∈ scenarioNearest, ∀ y ∈ scenarioRest, x.dist ![9, 9] < y.dist ![9, 9]) ∧
      (run (insertCalls scenarioCalls)).kNNValue ![9, 9] 2 = some "blue" := by
  have h1 : (scenarioNearest ++ scenarioRest).Perm (run (insertCalls scenarioCalls)).root.nodes := by
    decide
  have h2 : ∀ x ∈ scenarioNearest, ∀ y ∈ scenarioRest, x.dist ![9, 9] < y.dist ![9, 9] := by
    decide
  refine ⟨by decide, rfl, h1, h2, ?_⟩
  obtain ⟨m, hm, hmem, -⟩ := C7_kNN_majority_vote (insertCalls scenarioCalls) ![9, 9] 2
    scenarioNearest scenarioRest (by decide) rfl h1 h2
  have hb : m = "blue" := by
    simpa [scenarioNearest, NodePtr.value?] using hmem
  rw [hm, hb]

/-- C8 on the sample tree with the query (8, 1) and k = 1, where the left subtree of the
root is pruned. -/
theorem C8_pruning_correct_witness :
    1 ≤ 1 ∧
      KNNValueRecurse ![8, 1] (run sampleOps).root (BoundedPQueue.new 1) =
        some (KNNValueExhaustive ![8, 1] (run sampleOps).root (BoundedPQueue.new 1)) ∧
      (run sampleOps).kNNValue ![8, 1] 1 = (run sampleOps).kNNValueExhaustive ![8, 1] 1 :=
  ⟨by decide, C8_pruning_correct sampleOps ![8, 1] 1 (by decide)⟩

/-- C10 on the sample tree at the stored point (3, 7). -/
theorem C10_kNN_exact_k1_witness :
    (![3, 7] : Point 2 Int) ∈ (run sampleOps).root.keys ∧
      (run sampleOps).kNNValue ![3, 7] 1 = (run sampleOps).at ![3, 7] ∧
      ((run sampleOps).at ![3, 7]).isSome = true :=
  ⟨by decide, C10_kNN_exact_k1 sampleOps ![3, 7] (by decide)⟩

end KD

namespace KD

/-- C4 on the sample tree at the point (9, 9), which no call was made with. -/
theorem C4_contains_exact_witness :
    ((run sampleOps).contains ![9, 9] = true ↔
        ∃ v lv r l, NodePtr.node ![9, 9] v lv r l ∈ (run sampleOps).root.nodes) ∧
      ((![9, 9] : Point 2 Int) ∉ sampleOps.map Op.point →
        (run sampleOps).contains ![9, 9] = false) :=
  C4_contains_exact sampleOps ![9, 9]

/-- C5 on the sample tree at the point (8, 1), which `operator[]` stored. -/
theorem C5_at_fails_exactly_on_absent_witness :
    ((run sampleOps).at ![8, 1] = none ↔ (run sampleOps).contains ![8, 1] = false) ∧
      (∀ v, (run sampleOps).at ![8, 1] = some v ↔
        ((![8, 1] : Point 2 Int), v) ∈ (run sampleOps).root.entries) ∧
      (KDTree.mk0 : KDTree 2 Int String).at ![8, 1] = none :=
  C5_at_fails_exactly_on_absent sampleOps ![8, 1]

/-- C6 on the sample tree: five calls with four distinct points, and a further insert of
the new point (9, 9). -/
theorem C6_element_count_witness :
    ((![9, 9] : Point 2 Int) ∉ (run sampleOps).root.keys →
        ((run sampleOps).insert ![9, 9] "e").size = (run sampleOps).size + 1) ∧
      (run sampleOps).size = (run sampleOps).root.nodes.length ∧
      (run sampleOps).root.nodes.length = (sampleOps.map Op.point).dedup.length :=
  C6_element_count sampleOps ![9, 9] "e"

end KD

namespace KD

/-! ## Claims on degenerate queries, indexed access, copies and levels -/

section MoreTreeClaims

variable {N : Nat} [NeZero N] {α E : Type}

omit [NeZero N] in
theorem copyTree_eq (t : NodePtr N α E) : copyTree t = t := by
  induction t with
  | null => rfl
  | node k v lv r l ihr ihl => simp [copyTree, ihr, ihl]

omit [NeZero N] in
theorem subtreeAt_null (pos : List Bool) :
    NodePtr.subtreeAt pos (NodePtr.null : NodePtr N α E) = .null := by
  cases pos <;> rfl

omit [NeZero N] in
theorem levelsFrom_nodeAt (t : NodePtr N α E) (d : Nat) (h : LevelsFrom d t)
    (pos : List Bool) (k : Point N α) (v : E) (lv : Nat)
    (hn : t.nodeAt pos = some (k, v, lv)) : lv = d + pos.length := by
  induction pos generalizing t d with
  | nil =>
    cases t with
    | null => simp [NodePtr.nodeAt, NodePtr.subtreeAt, NodePtr.fields?] at hn
    | node k' v' lv' r l =>
      simp only [NodePtr.nodeAt, NodePtr.subtreeAt, NodePtr.fields?, Option.some.injEq,
        Prod.mk.injEq] at hn
      obtain ⟨h1, -, -⟩ := h
      simp [← hn.2.2, h1]
  | cons b rest ih =>
    cases t with
    | null => simp [NodePtr.nodeAt, NodePtr.subtreeAt, NodePtr.fields?] at hn
    | node k' v' lv' r l =>
      obtain ⟨-, h2, h3⟩ := h
      simp only [NodePtr.nodeAt, NodePtr.subtreeAt] at hn
      cases b with
      | true =>
        have := ih r (d + 1) h2 (by simpa [NodePtr.nodeAt] using hn)
        simp only [List.length_cons]; omega
      | false =>
        have := ih l (d + 1) h3 (by simpa [NodePtr.nodeAt] using hn)
        simp only [List.length_cons]; omega

theorem nodeAt_ins [LinearOrder α] (pt : Point N α) (value : E) (t : NodePtr N α E)
    (level : Nat) (h : containsLoop pt t = false) (pos : List Bool) :
    (ins pt value t level).nodeAt pos =
      if pos = descentPath pt t then some (pt, value, level + (descentPath pt t).length)
      else t.nodeAt pos := by
  induction t generalizing level pos with
  | null =>
    cases pos with
    | nil => simp [ins, descentPath, NodePtr.nodeAt, NodePtr.subtreeAt, NodePtr.fields?]
    | cons b rest =>
      simp [ins, descentPath, NodePtr.nodeAt, NodePtr.subtreeAt, NodePtr.fields?,
        subtreeAt_null]
  | node k v lv r l ihr ihl =>
    simp only [containsLoop] at h
    by_cases hk : pt = k
    · simp [hk] at h
    · have hk2 : ¬ k = pt := fun e => hk e.symm
      by_cases hlt : pt (axis N lv) < k (axis N lv)
      · simp only [hk2, ge_iff_le, not_le.mpr hlt, if_false] at h
        simp only [ins, descentPath, hk, hlt, if_true, if_false]
        cases pos with
        | nil => simp [NodePtr.nodeAt, NodePtr.subtreeAt, NodePtr.fields?]
        | cons b rest =>
          cases b with
          | true => simp [NodePtr.nodeAt, NodePtr.subtreeAt]
          | false =>
            have := ihl (level + 1) h rest
            simp only [NodePtr.nodeAt] at this
            simp only [NodePtr.nodeAt, NodePtr.subtreeAt, Bool.false_eq_true, if_false, this,
              List.cons.injEq, true_and, List.length_cons]
            split <;> simp [Nat.add_assoc, Nat.add_comm 1]
      · simp only [hk2, ge_iff_le, not_lt.mp hlt, if_true, if_false] at h
        simp only [ins, descentPath, hk, hlt, if_true, if_false]
        cases pos with
        | nil => simp [NodePtr.nodeAt, NodePtr.subtreeAt, NodePtr.fields?]
        | cons b rest =>
          cases b with
          | false => simp [NodePtr.nodeAt, NodePtr.subtreeAt]
          | true =>
            have := ihr (level + 1) h rest
            simp only [NodePtr.nodeAt] at this
            simp only [NodePtr.nodeAt, NodePtr.subtreeAt, if_true, this,
              List.cons.injEq, true_and, List.length_cons]
            split <;> simp [Nat.add_assoc, Nat.add_comm 1]

theorem subtreeAt_descentPath [LinearOrder α] (pt : Point N α) (t : NodePtr N α E)
    (h : containsLoop pt t = false) : t.subtreeAt (descentPath pt t) = .null := by
  induction t with
  | null => rfl
  | node k v lv r l ihr ihl =>
    simp only [containsLoop] at h
    by_cases hk : pt = k
    · simp [hk] at h
    · have hk2 : ¬ k = pt := fun e => hk e.symm
      by_cases hlt : pt (axis N lv) < k (axis N lv)
      · simp only [hk2, ge_iff_le, not_le.mpr hlt, if_false] at h
        simp [descentPath, hk, hlt, NodePtr.subtreeAt, ihl h]
      · simp only [hk2, ge_iff_le, not_lt.mp hlt, if_true, if_false] at h
        simp [descentPath, hk, hlt, NodePtr.subtreeAt, ihr h]

theorem subtreeAt_ins [LinearOrder α] (pt : Point N α) (value : E) (t : NodePtr N α E)
    (level : Nat) (h : containsLoop pt t = false) :
    (ins pt value t level).subtreeAt (descentPath pt t) =
      .node pt value (level + (descentPath pt t).length) .null .null := by
  induction t generalizing level with
  | null => rfl
  | node k v lv r l ihr ihl =>
    simp only [containsLoop] at h
    by_cases hk : pt = k
    · simp [hk] at h
    · have hk2 : ¬ k = pt := fun e => hk e.symm
      by_cases hlt : pt (axis N lv) < k (axis N lv)
      · simp only [hk2, ge_iff_le, not_le.mpr hlt, if_false] at h
        simp [descentPath, ins, hk, hlt, NodePtr.subtreeAt, ihl _ h, Nat.add_assoc,
          Nat.add_comm 1]
      · simp only [hk2, ge_iff_le, not_lt.mp hlt, if_true, if_false] at h
        simp [descentPath, ins, hk, hlt, NodePtr.subtreeAt, ihr _ h, Nat.add_assoc,
          Nat.add_comm 1]

end MoreTreeClaims

end KD

namespace KD

section DegenerateQueries

variable {N : Nat} [NeZero N] {α E : Type} [LinearOrderedCommRing α]

theorem recurse_capacity_zero (key : Point N α) (t : NodePtr N α E)
    (q : BoundedPQueue (NodePtr N α E) (Root α)) (he : q.elems = []) (hK : q.maximumSize = 0) :
    KNNValueRecurse key t q = if t.isNull then some q else none := by
  induction t with
  | null => rfl
  | node k v lv r l ihr ihl =>
    have hq : q.enqueue (.node k v lv r l) (Distance k key) = q := by
      simp [BoundedPQueue.enqueue, BoundedPQueue.size, BoundedPQueue.maxSize,
        BoundedPQueue.worst, he, hK]
    have hc : ∀ d, crossesPlane q d = none := by
      intro d
      simp [crossesPlane, BoundedPQueue.size, BoundedPQueue.maxSize, BoundedPQueue.worst, he,
        hK]
    simp only [KNNValueRecurse, hq, ihr, ihl]
    split
    · by_cases hl : l.isNull = true <;> simp [hl, hc, NodePtr.isNull]
    · by_cases hr : r.isNull = true <;> simp [hr, hc, NodePtr.isNull]

variable [LinearOrder E] [DefaultInit E]

theorem kNNValue_mk0 (key : Point N α) (k : Nat) :
    (KDTree.mk0 : KDTree N α E).kNNValue key k = some DefaultInit.value := by
  simp [KDTree.kNNValue, KDTree.mk0, KNNValueRecurse, FindMostCommonValueInPQ,
    BoundedPQueue.new, drainLoop, mostCommon]

theorem kNNValue_zero_of_nonempty (t : KDTree N α E) (key : Point N α)
    (h : t.root.isNull = false) : t.kNNValue key 0 = none := by
  simp [KDTree.kNNValue, recurse_capacity_zero key t.root (BoundedPQueue.new 0) rfl rfl, h]

end DegenerateQueries

/-- C11: on the empty tree `kNNValue(q, 3)` does not fail and returns what the local
variable `best` of `FindMostCommonValueInPQ` holds after its declaration `ElemType best;`,
which has no initialiser: for `ElemType = bool`, with `true` found in `best`, the call
returns `true`, whereas `bool()` is `false`; for `ElemType = std::string` it returns the
empty string. -/
theorem C11_empty_tree_returns_uninitialised_best :
    @KDTree.kNNValue 2 _ Int Bool _ _ strayBool KDTree.mk0 ![1, 1] 3 = some true ∧
      (default : Bool) = false ∧
      (KDTree.mk0 : KDTree 2 Int String).kNNValue ![1, 1] 3 = some "" :=
  ⟨@kNNValue_mk0 2 _ Int Bool _ _ strayBool _ _, rfl, kNNValue_mk0 _ _⟩

/-- C12: on the empty tree `kNNValue(q, 0)` does not fail and returns what the local
variable `best` of `FindMostCommonValueInPQ` holds after its declaration `ElemType best;`,
which has no initialiser: for `ElemType = bool`, with `true` found in `best`, the call
returns `true`, whereas `bool()` is `false`; for `ElemType = std::string` it returns the
empty string. -/
theorem C12_zero_k_returns_uninitialised_best :
    @KDTree.kNNValue 2 _ Int Bool _ _ strayBool KDTree.mk0 ![9, 9] 0 = some true ∧
      (default : Bool) = false ∧
      (KDTree.mk0 : KDTree 2 Int String).kNNValue ![9, 9] 0 = some "" :=
  ⟨@kNNValue_mk0 2 _ Int Bool _ _ strayBool _ _, rfl, kNNValue_mk0 _ _⟩

end KD

namespace KD

section StructureClaims

variable {N : Nat} [NeZero N] {α E : Type}

omit [NeZero N] in
theorem nodes_eq_nil_iff (t : NodePtr N α E) : t.nodes.length = 0 ↔ t = .null := by
  cases t <;> simp [NodePtr.nodes]

/-- C13: on a reachable tree, `operator[](p)` for a stored point `p` yields the value
stored with `p` and leaves the tree, `size()` included, unchanged; for a point that is not
stored it yields `ElemType()` and leaves exactly the tree `insert(p, ElemType())`
produces. -/
theorem C13_index_get_or_insert_default [LinearOrder α] [Inhabited E]
    (ops : List (Op N α E)) (p : Point N α) :
    (p ∈ (run ops).root.keys →
        ∃ v, (p, v) ∈ (run ops).root.entries ∧ (run ops).index p = some (run ops, v)) ∧
      (p ∉ (run ops).root.keys →
        (run ops).index p = some ((run ops).insert p default, default)) := by
  obtain ⟨hpart, hnd, -, -⟩ := wf_run ops
  have hiff := containsLoop_iff_mem_keys p (run ops).root hpart
  rw [KDTree.index_eq]
  refine ⟨?_, ?_⟩
  · intro hp
    have hc : (run ops).contains p = true := hiff.mpr hp
    have hsome : ((run ops).at p).isSome = true := by
      unfold KDTree.at
      rw [← containsLoop_eq_isSome]
      exact hc
    obtain ⟨v, hv⟩ := Option.isSome_iff_exists.mp hsome
    exact ⟨v, mem_entries_of_atLoop p v _ hv, by simp [hc, hv]⟩
  · intro hp
    have hc : (run ops).contains p = false := by
      cases hc : (run ops).contains p with
      | false => rfl
      | true => exact absurd (hiff.mp hc) hp
    have hnone : (run ops).at p = none := by
      have h2 : ((run ops).at p).isSome = false := by
        unfold KDTree.at
        rw [← containsLoop_eq_isSome]
        exact hc
      cases h3 : (run ops).at p with
      | none => rfl
      | some w => rw [h3] at h2; simp at h2
    simp [hc, hnone]

/-- C14: for every tree, `copyTree` returns a tree with the same shape and the same key,
value and level at every position, so the copy-constructed tree and the assigned tree
equal the original, and `size()`, `contains`, `at` and `kNNValue` give the same results on
the copy. -/
theorem C14_deep_copy_preserves [LinearOrderedCommRing α] [LinearOrder E] [DefaultInit E]
    (t : KDTree N α E) :
    copyTree t.root = t.root ∧ t.copy = t ∧
      (∀ (self : KDTree N α E) (sameObject : Bool), (sameObject = true → self = t) →
        self.assign t sameObject = t) ∧
      t.copy.size = t.size ∧
      (∀ p, t.copy.contains p = t.contains p ∧ t.copy.at p = t.at p) ∧
      (∀ q k, t.copy.kNNValue q k = t.kNNValue q k) := by
  have hcopy : t.copy = t := by
    cases t
    simp [KDTree.copy, copyTree_eq]
  refine ⟨copyTree_eq _, hcopy, ?_, by rw [hcopy], fun p => by rw [hcopy]; exact ⟨rfl, rfl⟩,
    fun q k => by rw [hcopy]⟩
  intro self sameObject h
  cases sameObject with
  | true => simpa [KDTree.assign] using h rfl
  | false => simpa [KDTree.assign, KDTree.copy] using hcopy

/-- C15: in a reachable tree the `level` of the node at any position is the length of the
path from the root to it (0 for the root), so the split axis `level % N` read from the node
is the axis of its depth. -/
theorem C15_level_equals_depth [LinearOrder α] [Inhabited E] (ops : List (Op N α E))
    (pos : List Bool) (k : Point N α) (v : E) (lv : Nat)
    (h : (run ops).root.nodeAt pos = some (k, v, lv)) :
    lv = pos.length ∧ axis N lv = axis N pos.length := by
  have hlv : lv = pos.length := by
    have := levelsFrom_nodeAt _ 0 (wf_run ops).2.2.2 pos k v lv h
    omega
  exact ⟨hlv, by rw [hlv]⟩

/-- C16: on a reachable tree that does not store `p`, `insert(p, v)` puts one new leaf at
the null position where the descent for `p` ends, and at every other position the tree has
the node it had before, with the same key, value and level. -/
theorem C16_no_restructuring [LinearOrder α] [Inhabited E] (ops : List (Op N α E))
    (p : Point N α) (v : E) (hp : p ∉ (run ops).root.keys) :
    (run ops).root.subtreeAt (descentPath p (run ops).root) = .null ∧
      ((run ops).insert p v).root.subtreeAt (descentPath p (run ops).root) =
        .node p v (descentPath p (run ops).root).length .null .null ∧
      ∀ pos, ((run ops).insert p v).root.nodeAt pos =
        if pos = descentPath p (run ops).root then some (p, v, pos.length)
        else (run ops).root.nodeAt pos := by
  have hc : containsLoop p (run ops).root = false := by
    cases hc : containsLoop p (run ops).root with
    | false => rfl
    | true => exact absurd (mem_keys_of_containsLoop p _ hc) hp
  rw [KDTree.insert_eq]
  refine ⟨subtreeAt_descentPath p _ hc, ?_, ?_⟩
  · simpa using subtreeAt_ins p v (run ops).root 0 hc
  · intro pos
    rw [nodeAt_ins p v (run ops).root 0 hc pos]
    split
    · rename_i h; simp [h]
    · rfl

/-- C17: a newly constructed tree has no root, `size()` 0 and `empty()` true, and in a
reachable tree `empty()` is true exactly when `size()` is 0, exactly when the root is
null. -/
theorem C17_emptiness [LinearOrder α] [Inhabited E] (ops : List (Op N α E)) :
    (KDTree.mk0 : KDTree N α E).root = .null ∧ (KDTree.mk0 : KDTree N α E).size = 0 ∧
      (KDTree.mk0 : KDTree N α E).empty = true ∧
      ((run ops).empty = true ↔ (run ops).size = 0) ∧
      ((run ops).size = 0 ↔ (run ops).root = .null) := by
  refine ⟨rfl, rfl, rfl, by simp [KDTree.empty], ?_⟩
  have hcount := (wf_run ops).2.2.1
  unfold KDTree.size
  rw [hcount]
  exact nodes_eq_nil_iff _

end StructureClaims

/-- C13 on the sample tree at the stored point (3, 7). -/
theorem C13_index_get_or_insert_default_witness :
    ∃ v, ((![3, 7] : Point 2 Int), v) ∈ (run sampleOps).root.entries ∧
      (run sampleOps).index ![3, 7] = some (run sampleOps, v) :=
  (C13_index_get_or_insert_default sampleOps ![3, 7]).1 (by decide)

/-- C14 on the scenario tree: the copy is the tree itself. -/
theorem C14_deep_copy_preserves_witness :
    copyTree scenarioTree.root = scenarioTree.root ∧ scenarioTree.copy = scenarioTree :=
  ⟨(C14_deep_copy_preserves scenarioTree).1, (C14_deep_copy_preserves scenarioTree).2.1⟩

/-- C15 on the sample tree: the node two steps to the left of the root has level 2. -/
theorem C15_level_equals_depth_witness :
    (run sampleOps).root.nodeAt [false, false] = some (![3, 2], "c", 2) ∧
      (2 = [false, false].length ∧ axis 2 2 = axis 2 [false, false].length) :=
  ⟨by decide, C15_level_equals_depth sampleOps [false, false] ![3, 2] "c" 2 (by decide)⟩

/-- C16 on the sample tree: the new point (4, 9) ends below (3, 7), on its right. -/
theorem C16_no_restructuring_witness :
    (![4, 9] : Point 2 Int) ∉ (run sampleOps).root.keys ∧
      descentPath ![4, 9] (run sampleOps).root = [false, true] ∧
      ((run sampleOps).insert ![4, 9] "n").root.subtreeAt [false, true] =
        .node ![4, 9] "n" 2 .null .null ∧
      ((run sampleOps).insert ![4, 9] "n").root.nodeAt [false] =
        (run sampleOps).root.nodeAt [false] := by
  have h := C16_no_restructuring sampleOps ![4, 9] "n" (by decide)
  have hd : descentPath ![4, 9] (run sampleOps).root = [false, true] := by decide
  rw [hd] at h
  refine ⟨by decide, hd, h.2.1, ?_⟩
  rw [h.2.2 [false]]
  simp

/-- C17 on the sample tree. -/
theorem C17_emptiness_witness :
    ((run sampleOps).empty = true ↔ (run sampleOps).size = 0) ∧
      ((run sampleOps).size = 0 ↔ (run sampleOps).root = .null) :=
  (C17_emptiness sampleOps).2.2.2

end KD

namespace KD

/-! ## Claims on the bounded priority queue -/

namespace BoundedPQueue

section QueueClaims

variable {T U P : Type} [LinearOrder P]

theorem insertSorted_map (g : T → U) (p : P) (x : T) (l : List (P × T)) :
    (insertSorted p x l).map (fun e => (e.1, g e.2)) =
      insertSorted p (g x) (l.map fun e => (e.1, g e.2)) := by
  induction l with
  | nil => rfl
  | cons e rest ih =>
    simp only [insertSorted, List.map_cons]
    split
    · rfl
    · simp [ih]

theorem enqueue_mapItems (g : T → U) (q : BoundedPQueue T P) (x : T) (p : P) :
    (q.enqueue x p).mapItems g = (q.mapItems g).enqueue (g x) p := by
  have hw : (q.mapItems g).worst = q.worst := by
    simp [worst, mapItems, List.getLast?_map, Option.map_map, Function.comp_def]
  unfold enqueue
  rw [hw]
  simp only [size, maxSize, mapItems, List.length_map]
  split
  · simp [insertSorted_map]
  · cases hq : q.worst with
    | none => rfl
    | some w =>
      simp only
      split
      · simp [insertSorted_map, List.map_dropLast]
      · rfl

theorem enqueueSeq_mapItems (q : BoundedPQueue (T × P) P) (calls : List (T × P)) :
    (q.mapItems Prod.fst).enqueueSeq calls =
      (q.enqueueAll Prod.snd calls).mapItems Prod.fst := by
  induction calls generalizing q with
  | nil => rfl
  | cons c rest ih =>
    simp only [enqueueSeq, enqueueAll, List.foldl_cons] at ih ⊢
    rw [← enqueue_mapItems]
    exact ih _

theorem enqueueSeq_new (K : Nat) (calls : List (T × P)) :
    (new K : BoundedPQueue T P).enqueueSeq calls =
      ((new K : BoundedPQueue (T × P) P).enqueueAll Prod.snd calls).mapItems Prod.fst :=
  enqueueSeq_mapItems (new K) calls

theorem enqueueSeq_facts (K : Nat) (calls : List (T × P)) :
    ((new K : BoundedPQueue T P).enqueueSeq calls).maximumSize = K ∧
      ((new K : BoundedPQueue T P).enqueueSeq calls).elems.Pairwise (fun a b => a.1 ≤ b.1) ∧
      ((new K : BoundedPQueue T P).enqueueSeq calls).elems.length = min K calls.length ∧
      ∃ dropped : List P,
        (calls.map Prod.snd).Perm
          (((new K : BoundedPQueue T P).enqueueSeq calls).elems.map Prod.fst ++ dropped) ∧
        ∀ y ∈ dropped, ∀ e ∈ ((new K : BoundedPQueue T P).enqueueSeq calls).elems, e.1 ≤ y := by
  have h := retains_enqueueAll (Prod.snd : T × P → P) K calls [] (new K) (retains_new _ K)
  rw [List.nil_append] at h
  obtain ⟨hK, hsorted, hprio, hlen, dropped, hperm, hdrop⟩ := h
  rw [enqueueSeq_new]
  generalize (new K : BoundedPQueue (T × P) P).enqueueAll Prod.snd calls = q at *
  refine ⟨hK, ?_, by simpa [mapItems] using hlen, dropped.map Prod.snd, ?_, ?_⟩
  · simp only [mapItems, List.pairwise_map]
    exact hsorted
  · have h1 := hperm.map Prod.snd
    simp only [List.map_append, List.map_map] at h1
    have h2 : q.elems.map (Prod.snd ∘ Prod.snd) =
        (q.mapItems Prod.fst).elems.map Prod.fst := by
      simp only [mapItems, List.map_map]
      apply List.map_congr_left
      intro e he
      simp [hprio e he]
    rw [h2] at h1
    exact h1
  · intro y hy e he
    obtain ⟨y', hy', rfl⟩ := List.mem_map.mp hy
    simp only [mapItems, List.mem_map] at he
    obtain ⟨e', he', rfl⟩ := he
    exact hdrop y' hy' e' he'

/-- C18: after any sequence of `enqueue` calls on a new queue of capacity `K` the queue
holds `min K n` entries, `n` being the number of calls, and their priorities, in ascending
order, are the first `min K n` of all the priorities enqueued, sorted: the retained
priorities are the `min K n` smallest ones, as a multiset. -/
theorem C18_queue_keeps_k_lowest (K : Nat) (calls : List (T × P)) :
    ((new K : BoundedPQueue T P).enqueueSeq calls).size = min K calls.length ∧
      ((new K : BoundedPQueue T P).enqueueSeq calls).elems.map Prod.fst =
        ((calls.map Prod.snd).insertionSort (· ≤ ·)).take (min K calls.length) := by
  obtain ⟨-, hsorted, hlen, dropped, hperm, hdrop⟩ := enqueueSeq_facts K calls
  generalize (new K : BoundedPQueue T P).enqueueSeq calls = q at *
  refine ⟨hlen, ?_⟩
  have hA : (q.elems.map Prod.fst).Sorted (· ≤ ·) := by
    simp only [List.Sorted, List.pairwise_map]
    exact hsorted
  have hB : (dropped.insertionSort (· ≤ ·)).Sorted (· ≤ ·) := List.sorted_insertionSort _ _
  have hAB : (q.elems.map Prod.fst ++ dropped.insertionSort (· ≤ ·)).Sorted (· ≤ ·) := by
    refine List.pairwise_append.mpr ⟨hA, hB, ?_⟩
    intro a ha b hb
    obtain ⟨e, he, rfl⟩ := List.mem_map.mp ha
    exact hdrop b ((List.perm_insertionSort _ _).mem_iff.mp hb) e he
  have hperm2 : (q.elems.map Prod.fst ++ dropped.insertionSort (· ≤ ·)).Perm
      ((calls.map Prod.snd).insertionSort (· ≤ ·)) :=
    ((List.Perm.append_left _ (List.perm_insertionSort _ _)).trans hperm.symm).trans
      (List.perm_insertionSort _ _).symm
  have heq := List.eq_of_perm_of_sorted hperm2 hAB (List.sorted_insertionSort _ _)
  rw [← heq, ← hlen, ← List.length_map q.elems Prod.fst, List.take_left']
  rfl

/-- C19: after any sequence of `enqueue` calls on a new queue of capacity `K`, `size()` is
at most `max_size()`, which is `K`; with `K = 0` the queue stays the empty queue and a
further `enqueue` changes nothing. -/
theorem C19_queue_capacity (K : Nat) (calls : List (T × P)) :
    ((new K : BoundedPQueue T P).enqueueSeq calls).size ≤
        ((new K : BoundedPQueue T P).enqueueSeq calls).maxSize ∧
      ((new K : BoundedPQueue T P).enqueueSeq calls).maxSize = K ∧
      ((new 0 : BoundedPQueue T P).enqueueSeq calls = new 0 ∧
        ∀ x p, ((new 0 : BoundedPQueue T P).enqueueSeq calls).enqueue x p =
          (new 0 : BoundedPQueue T P).enqueueSeq calls) := by
  obtain ⟨hK, -, hlen, -⟩ := enqueueSeq_facts K calls
  have h0 : (new 0 : BoundedPQueue T P).enqueueSeq calls = new 0 := by
    obtain ⟨hK0, -, hlen0, -⟩ := enqueueSeq_facts (T := T) 0 calls
    generalize (new 0 : BoundedPQueue T P).enqueueSeq calls = q at *
    cases q with
    | mk elems maximumSize =>
      simp only [Nat.zero_min, List.length_eq_zero] at hlen0
      simp only at hK0
      simp [new, hlen0, hK0]
  refine ⟨?_, hK, h0, ?_⟩
  · simp only [size, maxSize, hK, hlen]
    exact Nat.min_le_left _ _
  · intro x p
    rw [h0]
    rfl

/-- C20: on a queue reached by `enqueue` calls, `dequeue_min()` and `worst()` fail exactly
when the queue is empty; otherwise `dequeue_min()` removes and returns an entry whose
priority is minimal among the retained ones, and `worst()` returns the priority of a
retained entry that is maximal among them. -/
theorem C20_queue_empty_access (K : Nat) (calls : List (T × P)) :
    (((new K : BoundedPQueue T P).enqueueSeq calls).dequeueMin = none ↔
        ((new K : BoundedPQueue T P).enqueueSeq calls).empty = true) ∧
      (((new K : BoundedPQueue T P).enqueueSeq calls).worst = none ↔
        ((new K : BoundedPQueue T P).enqueueSeq calls).empty = true) ∧
      (∀ x q2, ((new K : BoundedPQueue T P).enqueueSeq calls).dequeueMin = some (x, q2) →
        ∃ p, ((new K : BoundedPQueue T P).enqueueSeq calls).elems = (p, x) :: q2.elems ∧
          q2.maximumSize = K ∧
          ∀ e ∈ ((new K : BoundedPQueue T P).enqueueSeq calls).elems, p ≤ e.1) ∧
      (∀ w, ((new K : BoundedPQueue T P).enqueueSeq calls).worst = some w →
        (∃ x, (w, x) ∈ ((new K : BoundedPQueue T P).enqueueSeq calls).elems) ∧
          ∀ e ∈ ((new K : BoundedPQueue T P).enqueueSeq calls).elems, e.1 ≤ w) := by
  obtain ⟨hK, hsorted, -, -⟩ := enqueueSeq_facts K calls
  generalize (new K : BoundedPQueue T P).enqueueSeq calls = q at *
  refine ⟨?_, ?_, ?_, ?_⟩
  · unfold dequeueMin empty
    cases q.elems <;> simp
  · unfold worst empty
    cases h : q.elems with
    | nil => simp
    | cons e rest => simp [List.getLast?_cons_cons, List.getLast?_eq_none_iff]
  · intro x q2 h
    unfold dequeueMin at h
    cases he : q.elems with
    | nil => simp [he] at h
    | cons e rest =>
      simp only [he, Option.some.injEq, Prod.mk.injEq] at h
      obtain ⟨h1, h2⟩ := h
      subst h1 h2
      refine ⟨e.1, rfl, hK, ?_⟩
      intro e' he'
      rw [he] at hsorted
      rcases List.mem_cons.mp he' with h | h
      · rw [h]
      · exact (List.pairwise_cons.mp hsorted).1 e' h
  · intro w hw
    have hne : q.elems ≠ [] := by
      intro h
      simp [worst, h] at hw
    obtain ⟨last, hsplit, hw2⟩ := worst_eq_some q hne
    rw [hw2] at hw
    cases hw
    refine ⟨⟨last.2, by rw [hsplit]; simp⟩, ?_⟩
    intro e he
    rw [hsplit] at he hsorted
    rcases List.mem_append.mp he with he | he
    · exact (List.pairwise_append.mp hsorted).2.2 e he last (by simp)
    · simp only [List.mem_singleton] at he
      rw [he]

end QueueClaims

end BoundedPQueue

end KD

namespace KD

/-- C18 on a queue of capacity 3 after six calls: the three smallest priorities stay. -/
theorem C18_queue_keeps_k_lowest_witness :
    ((BoundedPQueue.new 3 : BoundedPQueue String Nat).enqueueSeq sampleEnqueues).size = 3 ∧
      ((BoundedPQueue.new 3 : BoundedPQueue String Nat).enqueueSeq sampleEnqueues).elems.map
          Prod.fst = [1, 3, 3] := by
  have h := BoundedPQueue.C18_queue_keeps_k_lowest (T := String) 3 sampleEnqueues
  refine ⟨h.1.trans (by decide), h.2.trans (by decide)⟩

/-- C19 on queues of capacity 3 and 0 after six calls. -/
theorem C19_queue_capacity_witness :
    ((BoundedPQueue.new 3 : BoundedPQueue String Nat).enqueueSeq sampleEnqueues).size ≤ 3 ∧
      (BoundedPQueue.new 0 : BoundedPQueue String Nat).enqueueSeq sampleEnqueues =
        BoundedPQueue.new 0 := by
  have h := BoundedPQueue.C19_queue_capacity (T := String) 3 sampleEnqueues
  exact ⟨h.2.1 ▸ h.1, h.2.2.1⟩

/-- C20 on a queue of capacity 3 after six calls, and on the new queue. -/
theorem C20_queue_empty_access_witness :
    ((BoundedPQueue.new 3 : BoundedPQueue String Nat).enqueueSeq sampleEnqueues).worst
        = some 3 ∧
      (∀ e ∈ ((BoundedPQueue.new 3 : BoundedPQueue String Nat).enqueueSeq
          sampleEnqueues).elems, e.1 ≤ 3) ∧
      ((BoundedPQueue.new 3 : BoundedPQueue String Nat).enqueueSeq []).dequeueMin = none := by
  have h := BoundedPQueue.C20_queue_empty_access (T := String) 3 sampleEnqueues
  have hw : ((BoundedPQueue.new 3 : BoundedPQueue String Nat).enqueueSeq sampleEnqueues).worst
      = some 3 := by decide
  exact ⟨hw, (h.2.2.2 3 hw).2,
    (BoundedPQueue.C20_queue_empty_access (T := String) (P := Nat) 3 []).1.mpr rfl⟩

end KD

namespace KD

/-! ## The traversal and its events -/

section Trace

variable {N : Nat} [NeZero N] {α E : Type} [LinearOrderedCommRing α]

theorem trace_fst (key : Point N α) (t : NodePtr N α E)
    (q : BoundedPQueue (NodePtr N α E) (Root α)) :
    (KNNValueTrace key t q).1 = KNNValueRecurse key t q := by
  induction t generalizing q with
  | null => rfl
  | node k v lv r l ihr ihl =>
    simp only [KNNValueTrace, KNNValueRecurse]
    split
    · simp only [traceFar, ihl]
      cases hnear : KNNValueRecurse key l (q.enqueue (.node k v lv r l) (Distance k key)) with
      | none => rfl
      | some q2 =>
        simp only [Option.some_bind, crossesPlane]
        by_cases hsz : q2.size ≠ q2.maxSize
        · simp [hsz, ihr]
        · simp only [hsz, if_false]
          cases hw : q2.worst with
          | none => rfl
          | some w =>
            simp only [Option.map_some', Option.some_bind]
            cases fabsLt (k (axis N lv) - key (axis N lv)) w <;> simp [ihr]
    · simp only [traceFar, ihr]
      cases hnear : KNNValueRecurse key r (q.enqueue (.node k v lv r l) (Distance k key)) with
      | none => rfl
      | some q2 =>
        simp only [Option.some_bind, crossesPlane]
        by_cases hsz : q2.size ≠ q2.maxSize
        · simp [hsz, ihl]
        · simp only [hsz, if_false]
          cases hw : q2.worst with
          | none => rfl
          | some w =>
            simp only [Option.map_some', Option.some_bind]
            cases fabsLt (k (axis N lv) - key (axis N lv)) w <;> simp [ihl]

end Trace

end KD

namespace KD

section Trace2

variable {N : Nat} [NeZero N] {α E : Type} [LinearOrderedCommRing α]

omit [NeZero N] [LinearOrderedCommRing α] in
theorem enqueuedNodes_append (a b : List (TraceEvent N α E)) :
    enqueuedNodes (a ++ b) = enqueuedNodes a ++ enqueuedNodes b := by
  induction a with
  | nil => rfl
  | cons e rest ih => cases e <;> simp [enqueuedNodes, ih]

omit [NeZero N] [LinearOrderedCommRing α] in
theorem worstQueues_append (a b : List (TraceEvent N α E)) :
    worstQueues (a ++ b) = worstQueues a ++ worstQueues b := by
  induction a with
  | nil => rfl
  | cons e rest ih => cases e <;> simp [worstQueues, ih]

omit [NeZero N] in
theorem traceFar_enqueued (d : α)
    (near : Option (BoundedPQueue (NodePtr N α E) (Root α)) × List (TraceEvent N α E))
    (far : BoundedPQueue (NodePtr N α E) (Root α) →
      Option (BoundedPQueue (NodePtr N α E) (Root α)) × List (TraceEvent N α E))
    (A B : List (NodePtr N α E)) (hA : (enqueuedNodes near.2).Sublist A)
    (hB : ∀ q2, (enqueuedNodes (far q2).2).Sublist B) :
    (enqueuedNodes (traceFar d near far).2).Sublist (A ++ B) := by
  unfold traceFar
  have hA2 : (enqueuedNodes near.2).Sublist (A ++ B) :=
    hA.trans (List.sublist_append_left A B)
  split
  · exact hA2
  · rename_i q2 _
    split
    · simp only [enqueuedNodes_append]
      exact List.Sublist.append hA (hB q2)
    · split
      · simpa [enqueuedNodes_append, enqueuedNodes] using hA2
      · split
        · simp only [enqueuedNodes_append, enqueuedNodes]
          exact List.Sublist.append hA (hB q2)
        · simpa [enqueuedNodes_append, enqueuedNodes] using hA2

theorem trace_enqueued_sublist (key : Point N α) (t : NodePtr N α E)
    (q : BoundedPQueue (NodePtr N α E) (Root α)) :
    (enqueuedNodes (KNNValueTrace key t q).2).Sublist (visitOrder key t) := by
  induction t generalizing q with
  | null => simp [KNNValueTrace, enqueuedNodes, visitOrder]
  | node k v lv r l ihr ihl =>
    simp only [KNNValueTrace, visitOrder, enqueuedNodes]
    refine List.Sublist.cons₂ _ ?_
    split
    · exact traceFar_enqueued _ _ _ _ _ (ihl _) (fun q2 => ihr q2)
    · exact traceFar_enqueued _ _ _ _ _ (ihr _) (fun q2 => ihl q2)

theorem maximumSize_recurse (key : Point N α) (t : NodePtr N α E)
    (q q' : BoundedPQueue (NodePtr N α E) (Root α)) (h : KNNValueRecurse key t q = some q') :
    q'.maximumSize = q.maximumSize := by
  induction t generalizing q q' with
  | null =>
    simp only [KNNValueRecurse, Option.some.injEq] at h
    rw [← h]
  | node k v lv r l ihr ihl =>
    simp only [KNNValueRecurse] at h
    have hstep : ∀ (near far : NodePtr N α E),
        (∀ a b, KNNValueRecurse key near a = some b → b.maximumSize = a.maximumSize) →
        (∀ a b, KNNValueRecurse key far a = some b → b.maximumSize = a.maximumSize) →
        ((KNNValueRecurse key near (q.enqueue (.node k v lv r l) (Distance k key))).bind
          fun q2 => (crossesPlane q2 (k (axis N lv) - key (axis N lv))).bind fun go =>
            if go then KNNValueRecurse key far q2 else some q2) = some q' →
        q'.maximumSize = q.maximumSize := by
      intro near far hn hf hres
      cases hnear : KNNValueRecurse key near (q.enqueue (.node k v lv r l) (Distance k key)) with
      | none => simp [hnear] at hres
      | some q2 =>
        have h2 := hn _ _ hnear
        rw [BoundedPQueue.maximumSize_enqueue] at h2
        simp only [hnear, Option.some_bind] at hres
        cases hc : crossesPlane q2 (k (axis N lv) - key (axis N lv)) with
        | none => simp [hc] at hres
        | some go =>
          simp only [hc, Option.some_bind] at hres
          cases go with
          | true =>
            simp only [if_true] at hres
            rw [hf _ _ hres, h2]
          | false =>
            simp only [Bool.false_eq_true, if_false, Option.some.injEq] at hres
            rw [← hres, h2]
    split at h
    · exact hstep l r ihl ihr h
    · exact hstep r l ihr ihl h

end Trace2

end KD

namespace KD

section Trace3

variable {N : Nat} [NeZero N] {α E : Type} [LinearOrderedCommRing α]

omit [NeZero N] in
theorem traceFar_safe (d : α)
    (near : Option (BoundedPQueue (NodePtr N α E) (Root α)) × List (TraceEvent N α E))
    (far : BoundedPQueue (NodePtr N α E) (Root α) →
      Option (BoundedPQueue (NodePtr N α E) (Root α)) × List (TraceEvent N α E))
    (K : Nat) (hK : 1 ≤ K) (hn : ∃ q2, near.1 = some q2 ∧ q2.maximumSize = K)
    (hnw : ∀ w ∈ worstQueues near.2, w.size = w.maxSize ∧ w.elems ≠ [] ∧ w.maximumSize = K)
    (hf : ∀ q2, q2.maximumSize = K →
      (∃ q3, (far q2).1 = some q3 ∧ q3.maximumSize = K) ∧
        ∀ w ∈ worstQueues (far q2).2, w.size = w.maxSize ∧ w.elems ≠ [] ∧ w.maximumSize = K) :
    (∃ q3, (traceFar d near far).1 = some q3 ∧ q3.maximumSize = K) ∧
      ∀ w ∈ worstQueues (traceFar d near far).2, w.size = w.maxSize ∧ w.elems ≠ [] ∧ w.maximumSize = K := by
  obtain ⟨q2, hq2, hmax⟩ := hn
  obtain ⟨hfar1, hfar2⟩ := hf q2 hmax
  unfold traceFar
  simp only [hq2]
  by_cases hsz : q2.size ≠ q2.maxSize
  · simp only [hsz, if_true, ne_eq, not_false_eq_true]
    refine ⟨hfar1, ?_⟩
    intro w hw
    rw [worstQueues_append] at hw
    rcases List.mem_append.mp hw with hw | hw
    · exact hnw w hw
    · exact hfar2 w hw
  · have hfull : q2.size = q2.maxSize := not_not.mp hsz
    have hne : q2.elems ≠ [] := by
      intro h
      simp [BoundedPQueue.size, BoundedPQueue.maxSize, h] at hfull
      omega
    obtain ⟨last, -, hw⟩ := BoundedPQueue.worst_eq_some q2 hne
    simp only [hsz, if_false, hw]
    by_cases hgo : fabsLt d last.1 = true
    · simp only [hgo, if_true]
      refine ⟨hfar1, ?_⟩
      intro w hw
      rw [worstQueues_append] at hw
      rcases List.mem_append.mp hw with hw | hw
      · exact hnw w hw
      · simp only [worstQueues, List.mem_cons] at hw
        rcases hw with hw | hw
        · rw [hw]; exact ⟨hfull, hne, hmax⟩
        · exact hfar2 w hw
    · have hgo2 : fabsLt d last.1 = false := by simpa using hgo
      simp only [hgo2, Bool.false_eq_true, if_false]
      refine ⟨⟨q2, rfl, hmax⟩, ?_⟩
      intro w hw
      rw [worstQueues_append] at hw
      rcases List.mem_append.mp hw with hw | hw
      · exact hnw w hw
      · simp only [worstQueues, List.mem_singleton] at hw
        rw [hw]; exact ⟨hfull, hne, hmax⟩

theorem trace_safe (key : Point N α) (t : NodePtr N α E)
    (q : BoundedPQueue (NodePtr N α E) (Root α)) (hK : 1 ≤ q.maximumSize) :
    (∃ q', (KNNValueTrace key t q).1 = some q' ∧ q'.maximumSize = q.maximumSize) ∧
      ∀ w ∈ worstQueues (KNNValueTrace key t q).2, w.size = w.maxSize ∧ w.elems ≠ [] ∧ w.maximumSize = q.maximumSize := by
  induction t generalizing q with
  | null => simp [KNNValueTrace, worstQueues]
  | node k v lv r l ihr ihl =>
    have hK1 : (q.enqueue (.node k v lv r l) (Distance k key)).maximumSize = q.maximumSize :=
      BoundedPQueue.maximumSize_enqueue _ _ _
    simp only [KNNValueTrace, worstQueues]
    split
    · have hnear := ihl (q.enqueue (.node k v lv r l) (Distance k key)) (by rw [hK1]; exact hK)
      rw [hK1] at hnear
      exact traceFar_safe _ _ _ q.maximumSize hK hnear.1 hnear.2
        (fun q2 h2 => by have := ihr q2 (by rw [h2]; exact hK); rwa [h2] at this)
    · have hnear := ihr (q.enqueue (.node k v lv r l) (Distance k key)) (by rw [hK1]; exact hK)
      rw [hK1] at hnear
      exact traceFar_safe _ _ _ q.maximumSize hK hnear.1 hnear.2
        (fun q2 h2 => by have := ihl q2 (by rw [h2]; exact hK); rwa [h2] at this)

omit [NeZero N] [LinearOrderedCommRing α] in
theorem size_enqueue_of_lt {T P : Type} [LinearOrder P] (q : BoundedPQueue T P) (x : T) (p : P)
    (h : q.size < q.maxSize) : (q.enqueue x p).size = q.size + 1 := by
  unfold BoundedPQueue.enqueue
  rw [if_pos h]
  simp [BoundedPQueue.size, (BoundedPQueue.insertSorted_perm p x q.elems).length_eq]

theorem visitOrder_length (key : Point N α) (t : NodePtr N α E) :
    (visitOrder key t).length = t.nodes.length := (visitOrder_perm key t).length_eq

omit [NeZero N] in
theorem traceFar_no_pruning (d : α)
    (near : Option (BoundedPQueue (NodePtr N α E) (Root α)) × List (TraceEvent N α E))
    (far : BoundedPQueue (NodePtr N α E) (Root α) →
      Option (BoundedPQueue (NodePtr N α E) (Root α)) × List (TraceEvent N α E))
    (q2 q3 : BoundedPQueue (NodePtr N α E) (Root α)) (B : List (NodePtr N α E))
    (hn : near.1 = some q2) (hpos : 1 ≤ q2.size)
    (hf : (far q2).1 = some q3 ∧ enqueuedNodes (far q2).2 = B)
    (hskip : q2.size = q2.maxSize → q3 = q2 ∧ B = []) :
    (traceFar d near far).1 = some q3 ∧
      enqueuedNodes (traceFar d near far).2 = enqueuedNodes near.2 ++ B := by
  unfold traceFar
  simp only [hn]
  by_cases hsz : q2.size ≠ q2.maxSize
  · simp [hsz, hf.1, enqueuedNodes_append, hf.2]
  · have hfull : q2.size = q2.maxSize := not_not.mp hsz
    have hne : q2.elems ≠ [] := by
      intro h
      simp [BoundedPQueue.size, h] at hpos
    obtain ⟨last, -, hw⟩ := BoundedPQueue.worst_eq_some q2 hne
    obtain ⟨h3, hB⟩ := hskip hfull
    simp only [hsz, if_false, hw]
    by_cases hgo : fabsLt d last.1 = true
    · simp [hgo, hf.1, enqueuedNodes_append, enqueuedNodes, hf.2]
    · simp [hgo, h3, hB, enqueuedNodes_append, enqueuedNodes]

theorem trace_no_pruning (key : Point N α) (t : NodePtr N α E)
    (q : BoundedPQueue (NodePtr N α E) (Root α)) (h : q.size + t.nodes.length ≤ q.maxSize) :
    (KNNValueTrace key t q).1 = some (KNNValueExhaustive key t q) ∧
      enqueuedNodes (KNNValueTrace key t q).2 = visitOrder key t ∧
      (KNNValueExhaustive key t q).size = q.size + t.nodes.length := by
  induction t generalizing q with
  | null => simp [KNNValueTrace, KNNValueExhaustive, enqueuedNodes, visitOrder, NodePtr.nodes]
  | node k v lv r l ihr ihl =>
    simp only [NodePtr.nodes, List.length_cons, List.length_append] at h
    have hlt : q.size < q.maxSize := by omega
    have hs1 := size_enqueue_of_lt q (.node k v lv r l) (Distance k key) hlt
    have hm1 : (q.enqueue (.node k v lv r l) (Distance k key)).maxSize = q.maxSize :=
      BoundedPQueue.maximumSize_enqueue _ _ _
    have hmx : ∀ (s : NodePtr N α E) (a : BoundedPQueue (NodePtr N α E) (Root α)),
        (KNNValueExhaustive key s a).maxSize = a.maxSize :=
      fun s a => maximumSize_exhaustive key s a
    simp only [KNNValueTrace, KNNValueExhaustive, visitOrder, enqueuedNodes, NodePtr.nodes,
      List.length_cons, List.length_append]
    generalize hq1 : q.enqueue (.node k v lv r l) (Distance k key) = q1 at hs1 hm1
    split
    · obtain ⟨a1, a2, a3⟩ := ihl q1 (by omega)
      have hfarle : (KNNValueExhaustive key l q1).size + r.nodes.length ≤
          (KNNValueExhaustive key l q1).maxSize := by rw [hmx, a3]; omega
      obtain ⟨b1, b2, b3⟩ := ihr (KNNValueExhaustive key l q1) hfarle
      have hskip : (KNNValueExhaustive key l q1).size = (KNNValueExhaustive key l q1).maxSize →
          KNNValueExhaustive key r (KNNValueExhaustive key l q1) = KNNValueExhaustive key l q1 ∧
            visitOrder key r = [] := by
        intro hfull
        have hr0 : r.nodes.length = 0 := by omega
        have hr : r = .null := (nodes_eq_nil_iff r).mp hr0
        subst hr
        exact ⟨rfl, rfl⟩
      obtain ⟨c1, c2⟩ := traceFar_no_pruning (k (axis N lv) - key (axis N lv))
        (KNNValueTrace key l q1) (fun q2 => KNNValueTrace key r q2) _ _ _ a1 (by omega)
        ⟨b1, b2⟩ hskip
      refine ⟨c1, ?_, by omega⟩
      rw [c2, a2]
    · obtain ⟨a1, a2, a3⟩ := ihr q1 (by omega)
      have hfarle : (KNNValueExhaustive key r q1).size + l.nodes.length ≤
          (KNNValueExhaustive key r q1).maxSize := by rw [hmx, a3]; omega
      obtain ⟨b1, b2, b3⟩ := ihl (KNNValueExhaustive key r q1) hfarle
      have hskip : (KNNValueExhaustive key r q1).size = (KNNValueExhaustive key r q1).maxSize →
          KNNValueExhaustive key l (KNNValueExhaustive key r q1) = KNNValueExhaustive key r q1 ∧
            visitOrder key l = [] := by
        intro hfull
        have hl0 : l.nodes.length = 0 := by omega
        have hl : l = .null := (nodes_eq_nil_iff l).mp hl0
        subst hl
        exact ⟨rfl, rfl⟩
      obtain ⟨c1, c2⟩ := traceFar_no_pruning (k (axis N lv) - key (axis N lv))
        (KNNValueTrace key r q1) (fun q2 => KNNValueTrace key l q2) _ _ _ a1 (by omega)
        ⟨b1, b2⟩ hskip
      refine ⟨c1, ?_, by omega⟩
      rw [c2, a2]

end Trace3

end KD

namespace KD

/-! ## Claims on the traversal -/

section TraversalClaims

variable {N : Nat} [NeZero N] {α E : Type} [LinearOrderedCommRing α]

theorem far_keys_ge (key k : Point N α) (lv : Nat) (r l : NodePtr N α E)
    (hl : ∀ x ∈ l.keys, x (axis N lv) < k (axis N lv))
    (hr : ∀ x ∈ r.keys, x (axis N lv) ≥ k (axis N lv)) (w : Root α)
    (hskip : fabsLt (k (axis N lv) - key (axis N lv)) w = false) :
    ∀ x ∈ (if key (axis N lv) < k (axis N lv) then r else l).keys, w ≤ Distance x key := by
  simp only [fabsLt, decide_eq_false_iff_not, not_lt] at hskip
  intro x hx
  rw [Root.le_iff]
  refine le_trans hskip (le_trans ?_ (coordinate_le_distance x key (axis N lv)))
  by_cases hlt : key (axis N lv) < k (axis N lv)
  · simp only [hlt, if_true] at hx
    apply mul_self_le_mul_self
    · exact le_of_lt (sub_pos.mpr hlt)
    · exact sub_le_sub_right (hr x hx) _
  · simp only [hlt, if_false] at hx
    have e1 : (k (axis N lv) - key (axis N lv)) * (k (axis N lv) - key (axis N lv)) =
        (key (axis N lv) - k (axis N lv)) * (key (axis N lv) - k (axis N lv)) := by ring
    have e2 : (x (axis N lv) - key (axis N lv)) * (x (axis N lv) - key (axis N lv)) =
        (key (axis N lv) - x (axis N lv)) * (key (axis N lv) - x (axis N lv)) := by ring
    rw [e1, e2]
    apply mul_self_le_mul_self
    · exact sub_nonneg.mpr (not_lt.mp hlt)
    · exact sub_le_sub_left (le_of_lt (hl x hx)) _

omit [NeZero N] in
theorem dist_of_mem_nodes (key : Point N α) (t x : NodePtr N α E) (h : x ∈ t.nodes) :
    ∃ k' ∈ t.keys, x.dist key = Distance k' key := by
  cases x with
  | null =>
    obtain ⟨v, hv⟩ := value?_of_mem_nodes t _ h
    simp [NodePtr.value?] at hv
  | node k' v' lv' r' l' =>
    exact ⟨k', (mem_keys_iff_nodes k' t).mpr ⟨v', lv', r', l', h⟩, rfl⟩

omit [NeZero N] [LinearOrderedCommRing α] in
theorem BoundedPQueue.retains_sorted_take {T P : Type} [LinearOrder P] (f : T → P) (K : Nat)
    (seen : List T) (q : BoundedPQueue T P) (h : BoundedPQueue.Retains f K seen q) :
    q.elems.map Prod.fst =
      ((seen.map f).insertionSort (· ≤ ·)).take (min K seen.length) := by
  obtain ⟨-, hsorted, hprio, hlen, dropped, hperm, hdrop⟩ := h
  have hA : (q.elems.map Prod.fst).Sorted (· ≤ ·) := by
    simp only [List.Sorted, List.pairwise_map]
    exact hsorted
  have hAB : (q.elems.map Prod.fst ++ (dropped.map f).insertionSort (· ≤ ·)).Sorted (· ≤ ·) := by
    refine List.pairwise_append.mpr ⟨hA, List.sorted_insertionSort _ _, ?_⟩
    intro a ha b hb
    obtain ⟨e, he, rfl⟩ := List.mem_map.mp ha
    obtain ⟨y, hy, rfl⟩ := List.mem_map.mp ((List.perm_insertionSort _ _).mem_iff.mp hb)
    exact hdrop y hy e he
  have hfst : q.elems.map Prod.fst = (q.elems.map Prod.snd).map f := by
    rw [List.map_map]
    apply List.map_congr_left
    intro e he
    simp [hprio e he]
  have hperm2 : (q.elems.map Prod.fst ++ (dropped.map f).insertionSort (· ≤ ·)).Perm
      ((seen.map f).insertionSort (· ≤ ·)) := by
    refine (List.Perm.append_left _ (List.perm_insertionSort _ _)).trans ?_
    refine List.Perm.trans ?_ (List.perm_insertionSort _ _).symm
    rw [hfst, ← List.map_append]
    exact (hperm.map f).symm
  have heq := List.eq_of_perm_of_sorted hperm2 hAB (List.sorted_insertionSort _ _)
  rw [← heq, ← hlen, ← List.length_map q.elems Prod.fst, List.take_left']
  rfl

theorem traversal_result (key : Point N α) (t : NodePtr N α E) (hp : Partitioned t) (k : Nat)
    (hk : 1 ≤ k) :
    ∃ qf, KNNValueRecurse key t (BoundedPQueue.new k) = some qf ∧
      BoundedPQueue.Retains (NodePtr.dist key) k t.nodes qf :=
  ⟨_, recurse_eq_exhaustive key t hp _ hk, retains_exhaustive key t k⟩

omit [NeZero N] [LinearOrderedCommRing α] in
theorem nodes_nodup (t : NodePtr N α E) (h : t.keys.Nodup) : t.nodes.Nodup := by
  have hkeys : (t.nodes.map NodePtr.key?).Nodup := by
    rw [nodes_map_key?]
    exact h.map (Option.some_injective _)
  exact List.Nodup.of_map _ hkeys

omit [NeZero N] [LinearOrderedCommRing α] in
theorem filterMap_value?_nodes (t : NodePtr N α E) :
    t.nodes.filterMap NodePtr.value? = t.entries.map Prod.snd := by
  induction t with
  | null => rfl
  | node k v lv r l ihr ihl =>
    simp [NodePtr.nodes, NodePtr.entries, List.filterMap_cons, NodePtr.value?,
      List.filterMap_append, ihr, ihl]

end TraversalClaims

end KD

namespace KD

section TraversalClaims2

variable {N : Nat} [NeZero N] {α E : Type} [LinearOrderedCommRing α] [Inhabited E]

/-- C21: at a node of a reachable tree, when the queue is full and the test
`fabs(key[a] - q[a]) < worst()` is false, `KNNValueRecurse` skips the far child, every node
of the far subtree is at a distance from the query that is at least the current `worst()`,
and `enqueue` of such a node leaves the queue as it is. -/
theorem C21_prune_sound (ops : List (Op N α E)) (key k : Point N α) (v : E) (lv : Nat)
    (r l : NodePtr N α E) (hn : NodePtr.node k v lv r l ∈ (run ops).root.nodes)
    (q : BoundedPQueue (NodePtr N α E) (Root α)) (w : Root α)
    (hfull : q.size = q.maxSize) (hw : q.worst = some w)
    (hskip : fabsLt (k (axis N lv) - key (axis N lv)) w = false) :
    crossesPlane q (k (axis N lv) - key (axis N lv)) = some false ∧
      ∀ x ∈ (if key (axis N lv) < k (axis N lv) then r else l).nodes,
        w ≤ x.dist key ∧ q.enqueue x (x.dist key) = q := by
  obtain ⟨hl, hr⟩ := partitioned_nodes _ (wf_run ops).1 k v lv r l hn
  refine ⟨by simp [crossesPlane, hfull, hw, hskip], ?_⟩
  intro x hx
  obtain ⟨k', hk', hd⟩ := dist_of_mem_nodes key _ x hx
  have hge : w ≤ x.dist key := by
    rw [hd]
    exact far_keys_ge key k lv r l hl hr w hskip k' hk'
  refine ⟨hge, BoundedPQueue.enqueue_discard q x _ hfull ?_⟩
  intro w' hw'
  rw [hw] at hw'
  cases hw'
  exact hge

/-- C22: on a reachable tree and for `k ≥ 1`, `KNNValueRecurse` from the root with a new
queue of capacity `k` returns a queue that holds `min k size()` pairwise distinct nodes of
the tree, each with its distance to the query as priority; no node of the tree outside the
queue is strictly nearer than `worst()`, and the retained distances, in order, are the
`min k size()` smallest distances to the stored keys. -/
theorem C22_queue_after_traversal (ops : List (Op N α E)) (key : Point N α) (k : Nat)
    (hk : 1 ≤ k) :
    ∃ qf, KNNValueRecurse key (run ops).root (BoundedPQueue.new k) = some qf ∧
      qf.size = min k (run ops).size ∧ (qf.elems.map Prod.snd).Nodup ∧
      (∀ e ∈ qf.elems, e.2 ∈ (run ops).root.nodes ∧ e.1 = e.2.dist key) ∧
      (∀ n ∈ (run ops).root.nodes, n ∉ qf.elems.map Prod.snd →
        ∀ w, qf.worst = some w → w ≤ n.dist key) ∧
      qf.elems.map Prod.fst =
        (((run ops).root.nodes.map (NodePtr.dist key)).insertionSort (· ≤ ·)).take
          (min k (run ops).size) := by
  obtain ⟨hpart, hnd, hcount, -⟩ := wf_run ops
  obtain ⟨qf, hqf, hret⟩ := traversal_result key (run ops).root hpart k hk
  have htake := BoundedPQueue.retains_sorted_take _ _ _ _ hret
  obtain ⟨-, hsorted, hprio, hlen, dropped, hperm, hdrop⟩ := hret
  have hnodes := nodes_nodup _ hnd
  have hnd2 : (qf.elems.map Prod.snd ++ dropped).Nodup := hperm.nodup_iff.mp hnodes
  refine ⟨qf, hqf, ?_, hnd2.of_append_left, ?_, ?_, ?_⟩
  · simp only [BoundedPQueue.size, KDTree.size, hcount, hlen]
  · intro e he
    refine ⟨hperm.symm.mem_iff.mp (List.mem_append_left _ (List.mem_map_of_mem _ he)),
      hprio e he⟩
  · intro n hn hout w hw
    have hmem := hperm.mem_iff.mp hn
    rcases List.mem_append.mp hmem with h | h
    · exact absurd h hout
    · have hne : qf.elems ≠ [] := by
        intro h0
        simp [BoundedPQueue.worst, h0] at hw
      obtain ⟨last, hsplit, hw2⟩ := BoundedPQueue.worst_eq_some qf hne
      rw [hw2] at hw
      cases hw
      exact hdrop n h last (by rw [hsplit]; simp)
  · rw [htake]
    simp only [KDTree.size, hcount]

/-- C25: for `k ≥ 1` every evaluation of `worst()` in `KNNValueRecurse` from the root of a
reachable tree is made on a queue with `size() == maxSize() == k` that is not empty, and
the traversal ends without the empty-queue failure. -/
theorem C25_worst_precondition (ops : List (Op N α E)) (key : Point N α) (k : Nat)
    (hk : 1 ≤ k) :
    (∀ w ∈ worstQueues (KNNValueTrace key (run ops).root (BoundedPQueue.new k)).2,
        w.size = w.maxSize ∧ w.maxSize = k ∧ w.empty = false) ∧
      (KNNValueRecurse key (run ops).root (BoundedPQueue.new k)).isSome = true := by
  obtain ⟨⟨q', h1, -⟩, h2⟩ := trace_safe key (run ops).root (BoundedPQueue.new k) hk
  rw [trace_fst] at h1
  refine ⟨?_, by rw [h1]; rfl⟩
  intro w hw
  obtain ⟨a, b, c⟩ := h2 w hw
  refine ⟨a, c, ?_⟩
  simp only [BoundedPQueue.empty, List.isEmpty_eq_false]
  exact b

variable [LinearOrder E] [DefaultInit E]

/-- C23: on a reachable non-empty tree and for `k ≥ size()`, the traversal enqueues every
node of the tree and all of them stay in the queue; `kNNValue(q, k)` returns the smallest
among the most frequent values stored in the tree, whatever the query is. -/
theorem C23_no_pruning_before_full (ops : List (Op N α E)) (key : Point N α) (k : Nat)
    (hne : (run ops).root ≠ .null) (hk : (run ops).size ≤ k) :
    (enqueuedNodes (KNNValueTrace key (run ops).root (BoundedPQueue.new k)).2).Perm
        (run ops).root.nodes ∧
      (∃ qf, KNNValueRecurse key (run ops).root (BoundedPQueue.new k) = some qf ∧
        (qf.elems.map Prod.snd).Perm (run ops).root.nodes) ∧
      (∃ m, (run ops).kNNValue key k = some m ∧ m ∈ (run ops).root.entries.map Prod.snd ∧
        (∀ w, ((run ops).root.entries.map Prod.snd).count w ≤
          ((run ops).root.entries.map Prod.snd).count m) ∧
        (∀ w ∈ (run ops).root.entries.map Prod.snd,
          ((run ops).root.entries.map Prod.snd).count w =
            ((run ops).root.entries.map Prod.snd).count m → m ≤ w)) ∧
      ∀ key2, (run ops).kNNValue key2 k = (run ops).kNNValue key k := by
  obtain ⟨-, -, hcount, -⟩ := wf_run ops
  have hsize : (run ops).root.nodes.length ≤ k := by
    rw [← hcount]; exact hk
  have hpos : 1 ≤ (run ops).root.nodes.length := by
    rcases Nat.eq_zero_or_pos (run ops).root.nodes.length with h | h
    · exact absurd ((nodes_eq_nil_iff _).mp h) hne
    · exact h
  have hall : ∀ key3 : Point N α,
      enqueuedNodes (KNNValueTrace key3 (run ops).root (BoundedPQueue.new k)).2 =
          visitOrder key3 (run ops).root ∧
        ∃ qf, KNNValueRecurse key3 (run ops).root (BoundedPQueue.new k) = some qf ∧
          (qf.elems.map Prod.snd).Perm (run ops).root.nodes ∧
          ∃ m, (run ops).kNNValue key3 k = some m ∧
            m ∈ (run ops).root.entries.map Prod.snd ∧
            (∀ w, ((run ops).root.entries.map Prod.snd).count w ≤
              ((run ops).root.entries.map Prod.snd).count m) ∧
            (∀ w ∈ (run ops).root.entries.map Prod.snd,
              ((run ops).root.entries.map Prod.snd).count w =
                ((run ops).root.entries.map Prod.snd).count m → m ≤ w) := by
    intro key3
    obtain ⟨h1, h2, -⟩ := trace_no_pruning key3 (run ops).root (BoundedPQueue.new k)
      (by simpa [BoundedPQueue.size, BoundedPQueue.maxSize, BoundedPQueue.new] using hsize)
    rw [trace_fst] at h1
    obtain ⟨-, -, -, hlen, dropped, hperm, -⟩ := retains_exhaustive key3 (run ops).root k
    generalize KNNValueExhaustive key3 (run ops).root (BoundedPQueue.new k) = qf at *
    have hd : dropped = [] := by
      apply List.eq_nil_of_length_eq_zero
      have := hperm.length_eq
      simp only [List.length_append, List.length_map] at this
      rw [hlen] at this
      omega
    subst hd
    rw [List.append_nil] at hperm
    have hnonnull : ∀ n ∈ qf.elems.map Prod.snd, ∃ v, n.value? = some v :=
      fun n hn => value?_of_mem_nodes _ n (hperm.symm.mem_iff.mp hn)
    have hvals : qf.elems.map (fun e => e.2.value?) =
        ((qf.elems.map Prod.snd).filterMap NodePtr.value?).map some := by
      rw [← map_value?_eq _ hnonnull, List.map_map]
      rfl
    have hpermv : ((qf.elems.map Prod.snd).filterMap NodePtr.value?).Perm
        ((run ops).root.entries.map Prod.snd) := by
      rw [← filterMap_value?_nodes]
      exact hperm.symm.filterMap _
    have hnev : (qf.elems.map Prod.snd).filterMap NodePtr.value? ≠ [] := by
      intro h
      have h2 := hpermv.length_eq
      rw [h, ← filterMap_value?_nodes] at h2
      have h3 := congrArg List.length
        (map_value?_eq _ (fun n hn => value?_of_mem_nodes (run ops).root n hn))
      simp only [List.length_map, List.length_nil] at h2 h3
      omega
    obtain ⟨m, hm, hmem, hmax, hmin⟩ := findMostCommon_spec qf _ hvals hnev
    refine ⟨h2, qf, h1, hperm.symm, m, by simp [KDTree.kNNValue, h1, hm],
      hpermv.mem_iff.mp hmem, ?_, ?_⟩
    · intro w
      rw [← hpermv.count_eq, ← hpermv.count_eq]
      exact hmax w
    · intro w hw hc
      rw [← hpermv.count_eq, ← hpermv.count_eq] at hc
      exact hmin w (hpermv.mem_iff.mpr hw) hc
  obtain ⟨h1, qf, h2, h3, hm⟩ := hall key
  refine ⟨h1 ▸ visitOrder_perm key _, ⟨qf, h2, h3⟩, hm, ?_⟩
  intro key2
  obtain ⟨m, e1, b1, c1, d1⟩ := hm
  obtain ⟨-, -, -, -, m2, e2, b2, c2, d2⟩ := hall key2
  rw [e1, e2]
  congr 1
  have hc : ((run ops).root.entries.map Prod.snd).count m2 =
      ((run ops).root.entries.map Prod.snd).count m :=
    le_antisymm (c1 m2) (c2 m)
  exact le_antisymm (d2 m b1 hc.symm) (d1 m2 b2 hc)

/-- C27: on a reachable non-empty tree and for `k ≥ 1`, `kNNValue(q, k)` returns the value
stored in a node of the tree that is among the nodes left in the queue by the
traversal. -/
theorem C27_answer_is_stored (ops : List (Op N α E)) (key : Point N α) (k : Nat)
    (hne : (run ops).root ≠ .null) (hk : 1 ≤ k) :
    ∃ qf m, KNNValueRecurse key (run ops).root (BoundedPQueue.new k) = some qf ∧
      (run ops).kNNValue key k = some m ∧
      ∃ n ∈ qf.elems.map Prod.snd, n ∈ (run ops).root.nodes ∧ n.value? = some m := by
  obtain ⟨hpart, -, -, -⟩ := wf_run ops
  obtain ⟨qf, hqf, hret⟩ := traversal_result key (run ops).root hpart k hk
  obtain ⟨-, -, -, hlen, dropped, hperm, -⟩ := hret
  have hpos : 1 ≤ (run ops).root.nodes.length := by
    rcases Nat.eq_zero_or_pos (run ops).root.nodes.length with h | h
    · exact absurd ((nodes_eq_nil_iff _).mp h) hne
    · exact h
  have hin : ∀ n ∈ qf.elems.map Prod.snd, n ∈ (run ops).root.nodes :=
    fun n hn => hperm.symm.mem_iff.mp (List.mem_append_left _ hn)
  have hnonnull : ∀ n ∈ qf.elems.map Prod.snd, ∃ v, n.value? = some v :=
    fun n hn => value?_of_mem_nodes _ n (hin n hn)
  have hvals : qf.elems.map (fun e => e.2.value?) =
      ((qf.elems.map Prod.snd).filterMap NodePtr.value?).map some := by
    rw [← map_value?_eq _ hnonnull, List.map_map]
    rfl
  have hnev : (qf.elems.map Prod.snd).filterMap NodePtr.value? ≠ [] := by
    intro h
    have h3 := congrArg List.length (map_value?_eq _ hnonnull)
    rw [h] at h3
    simp only [List.length_map, List.length_nil] at h3
    omega
  obtain ⟨m, hm, hmem, -, -⟩ := findMostCommon_spec qf _ hvals hnev
  obtain ⟨n, hn, hnv⟩ := List.mem_filterMap.mp hmem
  exact ⟨qf, m, hqf, by simp [KDTree.kNNValue, hqf, hm], n, hn, hin n hn, hnv⟩

end TraversalClaims2

end KD

namespace KD

/-- C21 on the sample tree for the query (8, 1) and k = 1, back at the root with the node
of (8, 1) in the queue: the left subtree is skipped and both its nodes would be
discarded. -/
theorem C21_prune_sound_witness :
    NodePtr.node ![5, 5] "d" 0 (.node ![8, 1] "" 1 .null .null)
        (.node ![3, 7] "b" 1 .null (.node ![3, 2] "c" 2 .null .null)) ∈
        (run sampleOps).root.nodes ∧
      sampleFullQueue.size = sampleFullQueue.maxSize ∧
      sampleFullQueue.worst = some ⟨0⟩ ∧
      fabsLt ((![5, 5] : Point 2 Int) (axis 2 0) - (![8, 1] : Point 2 Int) (axis 2 0))
        (⟨0⟩ : Root Int) = false ∧
      ∀ x ∈ (NodePtr.node ![3, 7] "b" 1 .null
          (.node ![3, 2] "c" 2 .null .null : NodePtr 2 Int String)).nodes,
        (⟨0⟩ : Root Int) ≤ x.dist ![8, 1] ∧
          sampleFullQueue.enqueue x (x.dist ![8, 1]) = sampleFullQueue := by
  have h := C21_prune_sound sampleOps ![8, 1] ![5, 5] "d" 0 (.node ![8, 1] "" 1 .null .null)
    (.node ![3, 7] "b" 1 .null (.node ![3, 2] "c" 2 .null .null)) (by decide)
    sampleFullQueue ⟨0⟩ (by decide) (by decide) (by decide)
  exact ⟨by decide, by decide, by decide, by decide, h.2⟩

/-- C22 on the sample tree for the query (8, 1) and k = 2. -/
theorem C22_queue_after_traversal_witness :
    1 ≤ 2 ∧
      ∃ qf, KNNValueRecurse ![8, 1] (run sampleOps).root (BoundedPQueue.new 2) = some qf ∧
        qf.size = min 2 (run sampleOps).size ∧ (qf.elems.map Prod.snd).Nodup := by
  obtain ⟨qf, h1, h2, h3, -⟩ := C22_queue_after_traversal sampleOps ![8, 1] 2 (by decide)
  exact ⟨by decide, qf, h1, h2, h3⟩

/-- C23 on the scenario tree with k = 5, more than its three nodes. -/
theorem C23_no_pruning_before_full_witness :
    (run (insertCalls scenarioCalls)).root ≠ .null ∧
      (run (insertCalls scenarioCalls)).size ≤ 5 ∧
      (enqueuedNodes (KNNValueTrace ![9, 9] (run (insertCalls scenarioCalls)).root
        (BoundedPQueue.new 5)).2).Perm (run (insertCalls scenarioCalls)).root.nodes ∧
      ∀ key2, (run (insertCalls scenarioCalls)).kNNValue key2 5 =
        (run (insertCalls scenarioCalls)).kNNValue ![9, 9] 5 := by
  have h := C23_no_pruning_before_full (insertCalls scenarioCalls) ![9, 9] 5 (by decide)
    (by decide)
  exact ⟨by decide, by decide, h.1, h.2.2.2⟩

/-- C25 on the sample tree for the query (8, 1) and k = 1. -/
theorem C25_worst_precondition_witness :
    1 ≤ 1 ∧
      (∀ w ∈ worstQueues (KNNValueTrace ![8, 1] (run sampleOps).root (BoundedPQueue.new 1)).2,
        w.size = w.maxSize ∧ w.maxSize = 1 ∧ w.empty = false) ∧
      (KNNValueRecurse ![8, 1] (run sampleOps).root (BoundedPQueue.new 1)).isSome = true :=
  ⟨by decide, C25_worst_precondition sampleOps ![8, 1] 1 (by decide)⟩

/-- C27 on the scenario tree for the query (9, 9) and k = 2. -/
theorem C27_answer_is_stored_witness :
    (run (insertCalls scenarioCalls)).root ≠ .null ∧ 1 ≤ 2 ∧
      ∃ qf m, KNNValueRecurse ![9, 9] (run (insertCalls scenarioCalls)).root
          (BoundedPQueue.new 2) = some qf ∧
        (run (insertCalls scenarioCalls)).kNNValue ![9, 9] 2 = some m ∧
        ∃ n ∈ qf.elems.map Prod.snd,
          n ∈ (run (insertCalls scenarioCalls)).root.nodes ∧ n.value? = some m :=
  ⟨by decide, by decide,
    C27_answer_is_stored (insertCalls scenarioCalls) ![9, 9] 2 (by decide) (by decide)⟩

end KD

namespace KD

/-! ## Claims on unique keys, the error paths and termination -/

section LoopClaims

variable {N : Nat} [NeZero N] {α E : Type}

omit [NeZero N] in
theorem mem_keys_of_nodeAt (t : NodePtr N α E) (pos : List Bool) (k : Point N α) (v : E)
    (lv : Nat) (h : t.nodeAt pos = some (k, v, lv)) : k ∈ t.keys := by
  induction pos generalizing t with
  | nil =>
    cases t with
    | null => simp [NodePtr.nodeAt, NodePtr.subtreeAt, NodePtr.fields?] at h
    | node k' v' lv' r l =>
      simp only [NodePtr.nodeAt, NodePtr.subtreeAt, NodePtr.fields?, Option.some.injEq,
        Prod.mk.injEq] at h
      simp [NodePtr.keys, h.1]
  | cons b rest ih =>
    cases t with
    | null => simp [NodePtr.nodeAt, NodePtr.subtreeAt, NodePtr.fields?] at h
    | node k' v' lv' r l =>
      simp only [NodePtr.nodeAt, NodePtr.subtreeAt] at h
      simp only [NodePtr.keys, List.mem_cons, List.mem_append]
      cases b with
      | true => exact Or.inr (Or.inr (ih r (by simpa [NodePtr.nodeAt] using h)))
      | false => exact Or.inr (Or.inl (ih l (by simpa [NodePtr.nodeAt] using h)))

omit [NeZero N] in
theorem position_unique (t : NodePtr N α E) (hn : t.keys.Nodup) (pos1 pos2 : List Bool)
    (k : Point N α) (v1 v2 : E) (lv1 lv2 : Nat) (h1 : t.nodeAt pos1 = some (k, v1, lv1))
    (h2 : t.nodeAt pos2 = some (k, v2, lv2)) : pos1 = pos2 := by
  induction t generalizing pos1 pos2 with
  | null => simp [NodePtr.nodeAt, subtreeAt_null, NodePtr.fields?] at h1
  | node k' v' lv' r l ihr ihl =>
    simp only [NodePtr.keys, List.nodup_cons, List.mem_append, not_or] at hn
    obtain ⟨⟨hkl, hkr⟩, hlr⟩ := hn
    have hroot : ∀ (b : Bool) (rest : List Bool) (w : E) (lw : Nat),
        (NodePtr.node k' v' lv' r l).nodeAt (b :: rest) = some (k, w, lw) → k ≠ k' := by
      intro b rest w lw h e
      subst e
      cases b with
      | true => exact hkr (mem_keys_of_nodeAt r rest k w lw (by simpa [NodePtr.nodeAt,
          NodePtr.subtreeAt] using h))
      | false => exact hkl (mem_keys_of_nodeAt l rest k w lw (by simpa [NodePtr.nodeAt,
          NodePtr.subtreeAt] using h))
    have htop : ∀ (w : E) (lw : Nat),
        (NodePtr.node k' v' lv' r l).nodeAt [] = some (k, w, lw) → k = k' := by
      intro w lw h
      simp only [NodePtr.nodeAt, NodePtr.subtreeAt, NodePtr.fields?, Option.some.injEq,
        Prod.mk.injEq] at h
      exact h.1.symm
    cases pos1 with
    | nil =>
      cases pos2 with
      | nil => rfl
      | cons b2 rest2 => exact absurd (htop _ _ h1) (hroot _ _ _ _ h2)
    | cons b1 rest1 =>
      cases pos2 with
      | nil => exact absurd (htop _ _ h2) (hroot _ _ _ _ h1)
      | cons b2 rest2 =>
        cases b1 <;> cases b2
        · have h1' : l.nodeAt rest1 = some (k, v1, lv1) := by
            simpa [NodePtr.nodeAt, NodePtr.subtreeAt] using h1
          have h2' : l.nodeAt rest2 = some (k, v2, lv2) := by
            simpa [NodePtr.nodeAt, NodePtr.subtreeAt] using h2
          rw [ihl (List.Nodup.of_append_left hlr) rest1 rest2 h1' h2']
        · have h1' : l.nodeAt rest1 = some (k, v1, lv1) := by
            simpa [NodePtr.nodeAt, NodePtr.subtreeAt] using h1
          have h2' : r.nodeAt rest2 = some (k, v2, lv2) := by
            simpa [NodePtr.nodeAt, NodePtr.subtreeAt] using h2
          exact absurd (mem_keys_of_nodeAt _ _ _ _ _ h2')
            (fun hm => List.disjoint_of_nodup_append hlr (mem_keys_of_nodeAt _ _ _ _ _ h1') hm)
        · have h1' : r.nodeAt rest1 = some (k, v1, lv1) := by
            simpa [NodePtr.nodeAt, NodePtr.subtreeAt] using h1
          have h2' : l.nodeAt rest2 = some (k, v2, lv2) := by
            simpa [NodePtr.nodeAt, NodePtr.subtreeAt] using h2
          exact absurd (mem_keys_of_nodeAt _ _ _ _ _ h1')
            (fun hm => List.disjoint_of_nodup_append hlr (mem_keys_of_nodeAt _ _ _ _ _ h2') hm)
        · have h1' : r.nodeAt rest1 = some (k, v1, lv1) := by
            simpa [NodePtr.nodeAt, NodePtr.subtreeAt] using h1
          have h2' : r.nodeAt rest2 = some (k, v2, lv2) := by
            simpa [NodePtr.nodeAt, NodePtr.subtreeAt] using h2
          rw [ihr (List.Nodup.of_append_right hlr) rest1 rest2 h1' h2']

variable [LinearOrder α]

theorem nodeAt_descentPath (p : Point N α) (t : NodePtr N α E)
    (hc : containsLoop p t = true) : ∃ v lv, t.nodeAt (descentPath p t) = some (p, v, lv) := by
  induction t with
  | null => simp [containsLoop] at hc
  | node k v lv r l ihr ihl =>
    simp only [containsLoop] at hc
    by_cases hk : p = k
    · exact ⟨v, lv, by simp [descentPath, hk, NodePtr.nodeAt, NodePtr.subtreeAt,
        NodePtr.fields?]⟩
    · have hk2 : ¬ k = p := fun e => hk e.symm
      by_cases hlt : p (axis N lv) < k (axis N lv)
      · simp only [hk2, ge_iff_le, not_le.mpr hlt, if_false] at hc
        obtain ⟨v', lv', h⟩ := ihl hc
        exact ⟨v', lv', by simpa [descentPath, hk, hlt, NodePtr.nodeAt, NodePtr.subtreeAt]
          using h⟩
      · simp only [hk2, ge_iff_le, not_lt.mp hlt, if_true, if_false] at hc
        obtain ⟨v', lv', h⟩ := ihr hc
        exact ⟨v', lv', by simpa [descentPath, hk, hlt, NodePtr.nodeAt, NodePtr.subtreeAt]
          using h⟩

theorem descend_exit (pt : Point N α) (cur prev : NodePtr N α E) (level : Nat) :
    (descend pt cur prev level).iterations ≤ level + cur.levels ∧
      (containsLoop pt cur = true → ∃ lvl, descend pt cur prev level = .duplicate lvl) ∧
      (containsLoop pt cur = false → ∃ p' lvl, descend pt cur prev level = .fellOff p' lvl ∧
        ((cur.isNull = true ∧ p' = prev) ∨ (cur.isNull = false ∧ p'.isNull = false))) := by
  induction cur generalizing prev level with
  | null =>
    refine ⟨by simp [descend, LoopExit.iterations], by simp [containsLoop], ?_⟩
    intro _
    exact ⟨prev, level, rfl, Or.inl ⟨rfl, rfl⟩⟩
  | node k v lv r l ihr ihl =>
    simp only [descend, containsLoop, NodePtr.levels]
    by_cases hk : pt = k
    · subst hk
      simp only [if_true]
      refine ⟨by simp only [LoopExit.iterations]; omega, fun _ => ⟨_, rfl⟩, by simp⟩
    · have hk2 : ¬ k = pt := fun e => hk e.symm
      by_cases hlt : pt (axis N lv) < k (axis N lv)
      · simp only [hk, hk2, hlt, ge_iff_le, not_le.mpr hlt, if_true, if_false]
        obtain ⟨h1, h2, h3⟩ := ihl (.node k v lv r l) (level + 1)
        refine ⟨by have := Nat.le_max_right r.levels l.levels; omega, h2, ?_⟩
        intro hc
        obtain ⟨p', lvl, he, hor⟩ := h3 hc
        refine ⟨p', lvl, he, Or.inr ⟨rfl, ?_⟩⟩
        rcases hor with ⟨-, hp⟩ | ⟨-, hp⟩
        · rw [hp]; rfl
        · exact hp
      · simp only [hk, hk2, hlt, ge_iff_le, not_lt.mp hlt, if_true, if_false]
        obtain ⟨h1, h2, h3⟩ := ihr (.node k v lv r l) (level + 1)
        refine ⟨by have := Nat.le_max_left r.levels l.levels; omega, h2, ?_⟩
        intro hc
        obtain ⟨p', lvl, he, hor⟩ := h3 hc
        refine ⟨p', lvl, he, Or.inr ⟨rfl, ?_⟩⟩
        rcases hor with ⟨-, hp⟩ | ⟨-, hp⟩
        · rw [hp]; rfl
        · exact hp

theorem containsLoopIters_spec (pt : Point N α) (t : NodePtr N α E) :
    (containsLoopIters pt t).1 = containsLoop pt t ∧ (containsLoopIters pt t).2 ≤ t.levels := by
  induction t with
  | null => simp [containsLoopIters, containsLoop, NodePtr.levels]
  | node k v lv r l ihr ihl =>
    simp only [containsLoopIters, containsLoop, NodePtr.levels]
    have hr := Nat.le_max_left r.levels l.levels
    have hl := Nat.le_max_right r.levels l.levels
    split
    · exact ⟨rfl, by omega⟩
    · split
      · exact ⟨ihr.1, by have := ihr.2; omega⟩
      · exact ⟨ihl.1, by have := ihl.2; omega⟩

theorem atLoopIters_spec (pt : Point N α) (t : NodePtr N α E) :
    (atLoopIters pt t).1 = atLoop pt t ∧ (atLoopIters pt t).2 ≤ t.levels := by
  induction t with
  | null => simp [atLoopIters, atLoop, NodePtr.levels]
  | node k v lv r l ihr ihl =>
    simp only [atLoopIters, atLoop, NodePtr.levels]
    have hr := Nat.le_max_left r.levels l.levels
    have hl := Nat.le_max_right r.levels l.levels
    split
    · exact ⟨rfl, by omega⟩
    · split
      · exact ⟨ihl.1, by have := ihl.2; omega⟩
      · exact ⟨ihr.1, by have := ihr.2; omega⟩

omit [NeZero N] [LinearOrder α] in
theorem levels_le_height (t : NodePtr N α E) : t.levels ≤ t.height + 1 := by
  unfold NodePtr.height
  omega

end LoopClaims

end KD

namespace KD

section LoopClaims2

variable {N : Nat} [NeZero N] {α E : Type}

/-- C24: in a tree reached by `insert` and `operator[]` calls no key is stored twice: two
positions that hold the same key are the same position, and the descent for a stored point
ends at the node that holds it. -/
theorem C24_keys_unique [LinearOrder α] [Inhabited E] (ops : List (Op N α E)) :
    (run ops).root.keys.Nodup ∧
      (∀ pos1 pos2 k v1 v2 lv1 lv2, (run ops).root.nodeAt pos1 = some (k, v1, lv1) →
        (run ops).root.nodeAt pos2 = some (k, v2, lv2) → pos1 = pos2) ∧
      (∀ p ∈ (run ops).root.keys, ∃ v lv,
        (run ops).root.nodeAt (descentPath p (run ops).root) = some (p, v, lv)) := by
  obtain ⟨hpart, hnd, -, -⟩ := wf_run ops
  refine ⟨hnd, ?_, ?_⟩
  · intro pos1 pos2 k v1 v2 lv1 lv2 h1 h2
    exact position_unique _ hnd pos1 pos2 k v1 v2 lv1 lv2 h1 h2
  · intro p hp
    exact nodeAt_descentPath p _ (containsLoop_of_mem_keys p _ hpart hp)

/-- C26: on any tree the loop of `insert` and `operator[]` never takes the third branch of
the comparison, so both calls complete; when the loop ends with `currentNode == NULL`, the
pointer `prevNode` is null exactly when the root is null (the case `currentNode == root`),
so it is non-null whenever it is dereferenced. -/
theorem C26_error_paths_unreachable [LinearOrder α] [Inhabited E] (t : KDTree N α E)
    (pt : Point N α) (value : E) :
    (insertLoop pt value t.root 0).isSome = true ∧ (indexLoop pt t.root 0).isSome = true ∧
      (∀ lvl, descend pt t.root .null 0 ≠ .error lvl) ∧
      (∀ prev lvl, descend pt t.root .null 0 = .fellOff prev lvl →
        (prev.isNull = true ↔ t.root.isNull = true)) := by
  obtain ⟨-, hdup, hfell⟩ := descend_exit pt t.root .null 0
  refine ⟨by rw [insertLoop_eq]; rfl, by rw [indexLoop_eq]; rfl, ?_, ?_⟩
  · intro lvl he
    cases hc : containsLoop pt t.root with
    | true =>
      obtain ⟨lvl2, h⟩ := hdup hc
      rw [h] at he
      cases he
    | false =>
      obtain ⟨p', lvl2, h, -⟩ := hfell hc
      rw [h] at he
      cases he
  · intro prev lvl he
    cases hc : containsLoop pt t.root with
    | true =>
      obtain ⟨lvl2, h⟩ := hdup hc
      rw [h] at he
      cases he
    | false =>
      obtain ⟨p', lvl2, h, hor⟩ := hfell hc
      rw [h] at he
      simp only [LoopExit.fellOff.injEq] at he
      obtain ⟨hp, -⟩ := he
      subst hp
      rcases hor with ⟨h1, h2⟩ | ⟨h1, h2⟩
      · rw [h1, h2]; simp [NodePtr.isNull]
      · rw [h1, h2]

/-- C29: on any tree `KNNValueRecurse` is a total function; its `enqueue` calls are made
on nodes of the tree, each node at most once, so there are at most as many calls as nodes
(at most `size()` when `numElements` counts the nodes); the loops of `contains`, `at`,
`insert` and `operator[]` make at most height + 1 iterations. -/
theorem C29_termination [LinearOrderedCommRing α] (t : KDTree N α E) (key pt : Point N α)
    (k : Nat) :
    (KNNValueTrace key t.root (BoundedPQueue.new k)).1 =
        KNNValueRecurse key t.root (BoundedPQueue.new k) ∧
      (enqueuedNodes (KNNValueTrace key t.root (BoundedPQueue.new k)).2).Sublist
        (visitOrder key t.root) ∧
      (visitOrder key t.root).Perm t.root.nodes ∧
      (enqueuedNodes (KNNValueTrace key t.root (BoundedPQueue.new k)).2).length ≤
        t.root.nodes.length ∧
      (t.numElements = t.root.nodes.length →
        (enqueuedNodes (KNNValueTrace key t.root (BoundedPQueue.new k)).2).length ≤ t.size) ∧
      (containsLoopIters pt t.root).1 = t.contains pt ∧
      (containsLoopIters pt t.root).2 ≤ t.root.height + 1 ∧
      (atLoopIters pt t.root).1 = t.at pt ∧
      (atLoopIters pt t.root).2 ≤ t.root.height + 1 ∧
      (descend pt t.root .null 0).iterations ≤ t.root.height + 1 := by
  have hsub := trace_enqueued_sublist key t.root (BoundedPQueue.new k)
  have hlen : (enqueuedNodes (KNNValueTrace key t.root (BoundedPQueue.new k)).2).length ≤
      t.root.nodes.length := by
    rw [← visitOrder_length key]
    exact hsub.length_le
  have hh := levels_le_height t.root
  refine ⟨trace_fst _ _ _, hsub, visitOrder_perm _ _, hlen, ?_,
    (containsLoopIters_spec pt t.root).1, le_trans (containsLoopIters_spec pt t.root).2 hh,
    (atLoopIters_spec pt t.root).1, le_trans (atLoopIters_spec pt t.root).2 hh, ?_⟩
  · intro hsize
    unfold KDTree.size
    rw [hsize]
    exact hlen
  · have := (descend_exit pt t.root .null 0).1
    omega

end LoopClaims2

/-- C24 on the sample tree: the descent for the stored point (3, 2) ends at its node. -/
theorem C24_keys_unique_witness :
    (run sampleOps).root.keys.Nodup ∧
      ((![3, 2] : Point 2 Int) ∈ (run sampleOps).root.keys ∧
        ∃ v lv, (run sampleOps).root.nodeAt (descentPath ![3, 2] (run sampleOps).root)
          = some (![3, 2], v, lv)) :=
  ⟨(C24_keys_unique sampleOps).1, by decide,
    (C24_keys_unique sampleOps).2.2 ![3, 2] (by decide)⟩

/-- C26 on the sample tree and the new point (4, 9): the loop ends with `prevNode` at the
node of (3, 7). -/
theorem C26_error_paths_unreachable_witness :
    descend ![4, 9] (run sampleOps).root .null 0 =
        .fellOff (.node ![3, 7] "b" 1 .null (.node ![3, 2] "c" 2 .null .null)) 2 ∧
      (insertLoop ![4, 9] "n" (run sampleOps).root 0).isSome = true ∧
      ((NodePtr.node ![3, 7] "b" 1 .null
          (.node ![3, 2] "c" 2 .null .null : NodePtr 2 Int String)).isNull = true ↔
        (run sampleOps).root.isNull = true) := by
  have h := C26_error_paths_unreachable (run sampleOps) ![4, 9] "n"
  have hd : descend ![4, 9] (run sampleOps).root .null 0 =
      .fellOff (.node ![3, 7] "b" 1 .null (.node ![3, 2] "c" 2 .null .null)) 2 := by rfl
  exact ⟨hd, h.1, h.2.2.2 _ _ hd⟩

/-- C29 on the sample tree for the query (8, 1), k = 1 and the point (4, 9). -/
theorem C29_termination_witness :
    (enqueuedNodes (KNNValueTrace ![8, 1] (run sampleOps).root (BoundedPQueue.new 1)).2).length
        ≤ (run sampleOps).root.nodes.length ∧
      (containsLoopIters ![4, 9] (run sampleOps).root).2 ≤ (run sampleOps).root.height + 1 ∧
      (descend ![4, 9] (run sampleOps).root .null 0).iterations ≤
        (run sampleOps).root.height + 1 := by
  have h := C29_termination (run sampleOps) ![8, 1] ![4, 9] 1
  exact ⟨h.2.2.2.1, h.2.2.2.2.2.2.1, h.2.2.2.2.2.2.2.2.2⟩

end KD

namespace KD

/-! ## Independence of the insertion order -/

section OrderIndependence

variable {N : Nat} [NeZero N] {α E : Type}

omit [NeZero N] in
theorem entries_map_fst (t : NodePtr N α E) : t.entries.map Prod.fst = t.keys := by
  induction t with
  | null => rfl
  | node k v lv r l ihr ihl => simp [NodePtr.entries, NodePtr.keys, ihr, ihl]

omit [NeZero N] in
theorem nodes_map_entry? (t : NodePtr N α E) :
    t.nodes.map NodePtr.entry? = t.entries.map some := by
  induction t with
  | null => rfl
  | node k v lv r l ihr ihl => simp [NodePtr.nodes, NodePtr.entries, NodePtr.entry?, ihr, ihl]

omit [NeZero N] in
theorem value?_eq_entry? (n : NodePtr N α E) : n.value? = n.entry?.map Prod.snd := by
  cases n <;> rfl

omit [NeZero N] in
theorem dist_eq_entryDist [LinearOrderedCommRing α] (key : Point N α) (n : NodePtr N α E) :
    n.dist key = entryDist key n.entry? := by
  cases n <;> rfl

theorem at_runFrom_eq_foldl [LinearOrder α] [Inhabited E] (calls : List (Point N α × E))
    (t : KDTree N α E) (p : Point N α) :
    (t.runFrom (insertCalls calls)).at p =
      calls.foldl (fun acc c => if c.1 = p then some c.2 else acc) (t.at p) := by
  induction calls generalizing t with
  | nil => rfl
  | cons c rest ih =>
    have hstep : (t.insert c.1 c.2).at p = if c.1 = p then some c.2 else t.at p := by
      rw [KDTree.insert_eq]
      unfold KDTree.at
      by_cases hc : c.1 = p
      · simp only [hc, if_true]
        exact atLoop_ins_same p c.2 t.root 0
      · simp only [hc, if_false]
        exact atLoop_ins_other c.1 p (fun e => hc e.symm) c.2 t.root 0
    have := ih (t.insert c.1 c.2)
    simp only [insertCalls, List.map_cons, KDTree.runFrom, List.foldl_cons, KDTree.step]
      at this ⊢
    rw [this, hstep]

theorem at_run_insertCalls [LinearOrder α] [Inhabited E] (calls : List (Point N α × E))
    (p : Point N α) : (run (insertCalls calls)).at p = finalMap calls p :=
  at_runFrom_eq_foldl calls KDTree.mk0 p

theorem mem_entries_iff_at [LinearOrder α] [Inhabited E] (ops : List (Op N α E))
    (p : Point N α) (v : E) : (p, v) ∈ (run ops).root.entries ↔ (run ops).at p = some v := by
  obtain ⟨hpart, hnd, -, -⟩ := wf_run ops
  exact ⟨atLoop_of_mem_entries p v _ hpart hnd, mem_entries_of_atLoop p v _⟩

theorem entries_perm_of_at_eq [LinearOrder α] [Inhabited E] (ops1 ops2 : List (Op N α E))
    (h : ∀ p, (run ops1).at p = (run ops2).at p) :
    (run ops1).root.entries.Perm (run ops2).root.entries := by
  classical
  have hnd : ∀ ops : List (Op N α E), (run ops).root.entries.Nodup := by
    intro ops
    apply List.Nodup.of_map Prod.fst
    rw [entries_map_fst]
    exact (wf_run ops).2.1
  rw [List.perm_ext_iff_of_nodup (hnd ops1) (hnd ops2)]
  rintro ⟨p, v⟩
  rw [mem_entries_iff_at, mem_entries_iff_at, h]

omit [NeZero N] in
theorem findMostCommon_perm [LinearOrder E] [DefaultInit E] {P : Type}
    (q1 q2 : BoundedPQueue (NodePtr N α E) P) (vals1 vals2 : List E)
    (h1 : q1.elems.map (fun e => e.2.value?) = vals1.map some)
    (h2 : q2.elems.map (fun e => e.2.value?) = vals2.map some) (hp : vals1.Perm vals2) :
    FindMostCommonValueInPQ q1 = FindMostCommonValueInPQ q2 := by
  obtain ⟨s1, p1⟩ := foldl_orderedInsert vals1 [] List.Pairwise.nil
  obtain ⟨s2, p2⟩ := foldl_orderedInsert vals2 [] List.Pairwise.nil
  rw [List.append_nil] at p1 p2
  have heq := List.eq_of_perm_of_sorted ((p1.trans hp).trans p2.symm) s1 s2
  simp only [FindMostCommonValueInPQ, drainLoop_eq q1.elems vals1 h1,
    drainLoop_eq q2.elems vals2 h2, heq]

end OrderIndependence

end KD

namespace KD

section OrderIndependence2

variable {N : Nat} [NeZero N] {α E : Type} [LinearOrderedCommRing α] [LinearOrder E]
  [DefaultInit E]

omit [NeZero N] [LinearOrderedCommRing α] [LinearOrder E] [DefaultInit E] in
theorem length_entries (t : NodePtr N α E) : t.entries.length = t.nodes.length := by
  have := congrArg List.length (nodes_map_entry? t)
  simpa using this.symm

theorem kNN_eq_of_entries_perm (t1 t2 : KDTree N α E) (hp1 : Partitioned t1.root)
    (hp2 : Partitioned t2.root) (hnd2 : t2.root.keys.Nodup)
    (hE : t1.root.entries.Perm t2.root.entries) (key : Point N α) (k : Nat) (hk : 1 ≤ k)
    (hdist : ∀ p1 ∈ t2.root.keys, ∀ p2 ∈ t2.root.keys,
      Distance p1 key = Distance p2 key → p1 = p2) :
    t1.kNNValue key k = t2.kNNValue key k := by
  classical
  obtain ⟨qf1, hq1, -, -, hprio1, hlen1, D1, hperm1, hdrop1⟩ :=
    traversal_result key t1.root hp1 k hk
  obtain ⟨qf2, hq2, -, -, hprio2, hlen2, D2, hperm2, hdrop2⟩ :=
    traversal_result key t2.root hp2 k hk
  have hOE1 : (t1.root.entries.map some).Perm
      ((qf1.elems.map Prod.snd).map NodePtr.entry? ++ D1.map NodePtr.entry?) := by
    rw [← nodes_map_entry?, ← List.map_append]
    exact hperm1.map _
  have hOE2 : (t2.root.entries.map some).Perm
      ((qf2.elems.map Prod.snd).map NodePtr.entry? ++ D2.map NodePtr.entry?) := by
    rw [← nodes_map_entry?, ← List.map_append]
    exact hperm2.map _
  have hRD := hOE1.symm.trans ((hE.map some).trans hOE2)
  have hlen : ((qf1.elems.map Prod.snd).map NodePtr.entry?).length =
      ((qf2.elems.map Prod.snd).map NodePtr.entry?).length := by
    simp only [List.length_map, hlen1, hlen2, ← length_entries, hE.length_eq]
  have hle : ∀ (qf : BoundedPQueue (NodePtr N α E) (Root α)) (D : List (NodePtr N α E)),
      (∀ e ∈ qf.elems, e.1 = NodePtr.dist key e.2) →
      (∀ y ∈ D, ∀ e ∈ qf.elems, e.1 ≤ NodePtr.dist key y) →
      ∀ x ∈ (qf.elems.map Prod.snd).map NodePtr.entry?, ∀ y ∈ D.map NodePtr.entry?,
        entryDist key x ≤ entryDist key y := by
    intro qf D hprio hdrop x hx y hy
    obtain ⟨n, hn, rfl⟩ := List.mem_map.mp hx
    obtain ⟨e, he, rfl⟩ := List.mem_map.mp hn
    obtain ⟨m, hm, rfl⟩ := List.mem_map.mp hy
    rw [← dist_eq_entryDist, ← dist_eq_entryDist, ← hprio e he]
    exact hdrop m hm e he
  have hnodupE2 : (t2.root.entries.map some).Nodup := by
    apply List.Nodup.map (Option.some_injective _)
    apply List.Nodup.of_map Prod.fst
    rw [entries_map_fst]
    exact hnd2
  have hnodup2 := hOE2.nodup_iff.mp hnodupE2
  have hstrict : ∀ x ∈ (qf2.elems.map Prod.snd).map NodePtr.entry?,
      ∀ y ∈ D2.map NodePtr.entry?, entryDist key x < entryDist key y := by
    intro x hx y hy
    refine lt_of_le_of_ne (hle qf2 D2 hprio2 hdrop2 x hx y hy) ?_
    intro heq
    have hxE := hOE2.symm.mem_iff.mp (List.mem_append_left _ hx)
    have hyE := hOE2.symm.mem_iff.mp (List.mem_append_right _ hy)
    obtain ⟨⟨p1, v1⟩, h1, rfl⟩ := List.mem_map.mp hxE
    obtain ⟨⟨p2, v2⟩, h2, rfl⟩ := List.mem_map.mp hyE
    have hk1 := fst_mem_keys_of_mem_entries p1 v1 _ h1
    have hk2 := fst_mem_keys_of_mem_entries p2 v2 _ h2
    have hpp : p1 = p2 := hdist p1 hk1 p2 hk2 heq
    subst hpp
    have hkeysnd : (t2.root.entries.map Prod.fst).Nodup := by
      rw [entries_map_fst]; exact hnd2
    have hvv : (p1, v1) = (p1, v2) := List.inj_on_of_nodup_map hkeysnd h1 h2 rfl
    rw [hvv] at hx
    exact List.disjoint_of_nodup_append hnodup2 hx hy
  have hRR := nearest_unique (entryDist key) _ _ _ _ hRD hlen
    (hle qf1 D1 hprio1 hdrop1) hstrict
  have hfm : ∀ L : List (NodePtr N α E),
      L.filterMap NodePtr.value? = (L.map NodePtr.entry?).filterMap (Option.map Prod.snd) := by
    intro L
    rw [List.filterMap_map]
    congr 1
    funext n
    exact value?_eq_entry? n
  have hvperm : ((qf1.elems.map Prod.snd).filterMap NodePtr.value?).Perm
      ((qf2.elems.map Prod.snd).filterMap NodePtr.value?) := by
    rw [hfm, hfm]
    exact hRR.filterMap _
  have hvals : ∀ (t : KDTree N α E) (qf : BoundedPQueue (NodePtr N α E) (Root α))
      (D : List (NodePtr N α E)), t.root.nodes.Perm (qf.elems.map Prod.snd ++ D) →
      qf.elems.map (fun e => e.2.value?) =
        ((qf.elems.map Prod.snd).filterMap NodePtr.value?).map some := by
    intro t qf D hperm
    have hnonnull : ∀ n ∈ qf.elems.map Prod.snd, ∃ v, n.value? = some v :=
      fun n hn => value?_of_mem_nodes _ n (hperm.symm.mem_iff.mp (List.mem_append_left _ hn))
    rw [← map_value?_eq _ hnonnull, List.map_map]
    rfl
  simp only [KDTree.kNNValue, hq1, hq2, Option.some_bind]
  exact findMostCommon_perm qf1 qf2 _ _ (hvals t1 qf1 D1 hperm1) (hvals t2 qf2 D2 hperm2) hvperm

/-- C28: two sequences of `insert` calls with the same final map from points to values
give trees that agree on `size()`, on `contains(p)` and `at(p)` for every point, and on
`kNNValue(q, k)` for every `k ≥ 1` and every query whose distances to the stored keys are
pairwise distinct. -/
theorem C28_insertion_order_independence [Inhabited E]
    (calls1 calls2 : List (Point N α × E))
    (hmap : ∀ p, finalMap calls1 p = finalMap calls2 p) :
    (run (insertCalls calls1)).size = (run (insertCalls calls2)).size ∧
      (∀ p, (run (insertCalls calls1)).contains p = (run (insertCalls calls2)).contains p ∧
        (run (insertCalls calls1)).at p = (run (insertCalls calls2)).at p) ∧
      (∀ key k, 1 ≤ k →
        (∀ p1 ∈ (run (insertCalls calls2)).root.keys,
          ∀ p2 ∈ (run (insertCalls calls2)).root.keys,
            Distance p1 key = Distance p2 key → p1 = p2) →
        (run (insertCalls calls1)).kNNValue key k =
          (run (insertCalls calls2)).kNNValue key k) := by
  have hat : ∀ p, (run (insertCalls calls1)).at p = (run (insertCalls calls2)).at p := by
    intro p
    rw [at_run_insertCalls, at_run_insertCalls, hmap]
  have hE := entries_perm_of_at_eq (insertCalls calls1) (insertCalls calls2) hat
  obtain ⟨hp1, -, hc1, -⟩ := wf_run (insertCalls calls1)
  obtain ⟨hp2, hnd2, hc2, -⟩ := wf_run (insertCalls calls2)
  refine ⟨?_, ?_, ?_⟩
  · unfold KDTree.size
    rw [hc1, hc2, ← length_entries, ← length_entries, hE.length_eq]
  · intro p
    refine ⟨?_, hat p⟩
    have := hat p
    unfold KDTree.at at this
    unfold KDTree.contains
    rw [containsLoop_eq_isSome, containsLoop_eq_isSome, this]
  · intro key k hk hdist
    exact kNN_eq_of_entries_perm _ _ hp1 hp2 hnd2 hE key k hk hdist

end OrderIndependence2

end KD

namespace KD

theorem scenario_finalMap_eq (p : Point 2 Int) :
    finalMap scenarioCalls p = finalMap scenarioCallsReordered p := by
  have h1 : (![0, 0] : Point 2 Int) ≠ ![10, 10] := by decide
  have h2 : (![0, 0] : Point 2 Int) ≠ ![10, 11] := by decide
  have h3 : (![10, 10] : Point 2 Int) ≠ ![10, 11] := by decide
  simp only [finalMap, scenarioCalls, scenarioCallsReordered, List.foldl]
  by_cases ha : (![0, 0] : Point 2 Int) = p
  · subst ha
    simp [h1.symm, h2.symm]
  · by_cases hb : (![10, 10] : Point 2 Int) = p
    · subst hb
      simp [h1, h3.symm]
    · simp [ha, hb]

/-- C28 on the scenario: the calls in another order, with an overwritten first value, give
a tree of another shape with the same size and the same answer for the query (9, 9) and
k = 2. -/
theorem C28_insertion_order_independence_witness :
    (∀ p, finalMap scenarioCalls p = finalMap scenarioCallsReordered p) ∧
      (run (insertCalls scenarioCalls)).root ≠ (run (insertCalls scenarioCallsReordered)).root ∧
      (run (insertCalls scenarioCalls)).size = (run (insertCalls scenarioCallsReordered)).size ∧
      (run (insertCalls scenarioCalls)).kNNValue ![9, 9] 2 =
        (run (insertCalls scenarioCallsReordered)).kNNValue ![9, 9] 2 := by
  have h := C28_insertion_order_independence scenarioCalls scenarioCallsReordered
    scenario_finalMap_eq
  exact ⟨scenario_finalMap_eq, by decide, h.1, h.2.2 ![9, 9] 2 (by decide) (by decide)⟩

end KD
